import Mathlib

/-!
# Verification of `generic_AVL_tree` (`src/include/gAVL.h`)

Shallow embedding of the templated AVL container `bst::gAVL<T>` and proofs of the
specification claims. The pointer-linked node graph (`gAVLNode<T>` with `_parent`,
`_left`, `_right`, `_balance_factor`) is rendered as an inductive binary tree whose
nodes store the data value and the stored balance factor; the `_parent` back
references are implicit in the recursion/zipper structure of the translated
operations. The caller-supplied `std::function<int(const T&,const T&)>` comparator
becomes `cmp : T → T → Int`, consumed only through the sign tests `< 0`, `== 0`,
`> 0` exactly as in the source.
-/

set_option autoImplicit false

namespace GAVLVerify

/-- A node of `bst::gAVLNode<T>`: `_left`, `_data`, `_balance_factor`, `_right`.
`nil` is the `nullptr` child. -/
inductive Tree (T : Type) where
  | nil : Tree T
  | node (l : Tree T) (data : T) (bf : Int) (r : Tree T) : Tree T
deriving Repr, DecidableEq

namespace Tree

variable {T : Type}

/-- Number of nodes reachable from this subtree (the semantic counterpart of `_size`). -/
def size : Tree T → Nat
  | nil => 0
  | node l _ _ r => size l + size r + 1

/-- Height in nodes: the empty tree has height 0, a single node height 1.
This is the quantity `gAVL<T>::height()` computes (its iterative loop is embedded
separately as `height_go`). -/
def height : Tree T → Nat
  | nil => 0
  | node l _ _ r => 1 + max (height l) (height r)

/-- The stored balance factor of the root node (`_balance_factor`); 0 for `nil`. -/
def bfOf : Tree T → Int
  | nil => 0
  | node _ _ bf _ => bf

/-- Left child (`_left`); `nil` for `nil`. -/
def leftOf : Tree T → Tree T
  | nil => nil
  | node l _ _ _ => l

/-- Right child (`_right`); `nil` for `nil`. -/
def rightOf : Tree T → Tree T
  | nil => nil
  | node _ _ _ r => r

/-- In-order traversal (left, node, right): the ordered sequence of stored values. -/
def inorder : Tree T → List T
  | nil => []
  | node l x _ r => inorder l ++ x :: inorder r

/-- Reverse in-order traversal (right, node, left). -/
def revInorder : Tree T → List T
  | nil => []
  | node l x _ r => revInorder r ++ x :: revInorder l

end Tree

open Tree

variable {T : Type}

/-- The decidable AVL balance invariant: at every node the stored
`_balance_factor` equals height(right) − height(left) and lies in {−1,0,+1}. -/
def avlBal : Tree T → Bool
  | Tree.nil => true
  | Tree.node l _ bf r =>
    avlBal l && avlBal r && decide (bf = (Tree.height r : Int) - (Tree.height l : Int))
      && decide (bf.natAbs ≤ 1)

/-- `gAVL<T>::rotate_left(X, Z)`: single left rotation. `X` is the unbalanced node
(left child `l`, data `x`), `Z = X->_right`. `t23 = Z->_left` becomes `X`'s right
child; balance factors follow the two cases on `Z->_balance_factor`. The `Z = nil`
case cannot be reached from the call sites (`Z` is higher by 2 than its sibling). -/
def rotate_left (l : Tree T) (x : T) (Z : Tree T) : Tree T :=
  match Z with
  | Tree.nil => Tree.nil
  | Tree.node t23 z bz t4 =>
    if bz = 0 then Tree.node (Tree.node l x 1 t23) z (-1) t4
    else Tree.node (Tree.node l x 0 t23) z 0 t4

/-- `gAVL<T>::rotate_right(X, Z)`: single right rotation, the mirror of
`rotate_left`. `Z = X->_left`, `r = X->_right`, `t32 = Z->_right`. -/
def rotate_right (Z : Tree T) (x : T) (r : Tree T) : Tree T :=
  match Z with
  | Tree.nil => Tree.nil
  | Tree.node t1 z bz t32 =>
    if bz = 0 then Tree.node t1 z 1 (Tree.node t32 x (-1) r)
    else Tree.node t1 z 0 (Tree.node t32 x 0 r)

/-- `gAVL<T>::rotate_right_left(X, Z)`: double rotation. `Z = X->_right`,
`Y = Z->_left` becomes the new subtree root; balance factors follow the three
cases on `Y->_balance_factor`. Unreachable degenerate shapes map to `nil`. -/
def rotate_right_left (l : Tree T) (x : T) (Z : Tree T) : Tree T :=
  match Z with
  | Tree.nil => Tree.nil
  | Tree.node Y z _ t4 =>
    match Y with
    | Tree.nil => Tree.nil
    | Tree.node t2 y bY t3 =>
      if bY > 0 then Tree.node (Tree.node l x (-1) t2) y 0 (Tree.node t3 z 0 t4)
      else if bY = 0 then Tree.node (Tree.node l x 0 t2) y 0 (Tree.node t3 z 0 t4)
      else Tree.node (Tree.node l x 0 t2) y 0 (Tree.node t3 z 1 t4)

/-- `gAVL<T>::rotate_left_right(X, Z)`: double rotation, mirror of
`rotate_right_left`. `Z = X->_left`, `Y = Z->_right` becomes the new root. -/
def rotate_left_right (Z : Tree T) (x : T) (r : Tree T) : Tree T :=
  match Z with
  | Tree.nil => Tree.nil
  | Tree.node t1 z _ Y =>
    match Y with
    | Tree.nil => Tree.nil
    | Tree.node t3 y bY t2 =>
      if bY < 0 then Tree.node (Tree.node t1 z 0 t3) y 0 (Tree.node t2 x 1 r)
      else if bY = 0 then Tree.node (Tree.node t1 z 0 t3) y 0 (Tree.node t2 x 0 r)
      else Tree.node (Tree.node t1 z (-1) t3) y 0 (Tree.node t2 x 0 r)

/-- One step of `gAVL<T>::retrace_insert` at ancestor `X` whose LEFT subtree has
just grown (`Z == X->_left`, source lines 675–694): `X` has data `x`, stored
balance factor `bf`, grown left subtree `l` and right subtree `r`. Returns the
rebalanced subtree together with the flag "height of this subtree grew"
(the loop's `continue`; `false` renders `break`). -/
def retrace_ins_left (l : Tree T) (x : T) (bf : Int) (r : Tree T) : Tree T × Bool :=
  if bf < 0 then
    -- X is left-heavy: temporary balance factor −2, rebalancing required
    (if Tree.bfOf l > 0 then rotate_left_right l x r else rotate_right l x r, false)
  else if bf > 0 then (Tree.node l x 0 r, false)   -- height increase absorbed at X
  else (Tree.node l x (-1) r, true)                -- X was balanced: continue upward

/-- One step of `gAVL<T>::retrace_insert` at ancestor `X` whose RIGHT subtree has
just grown (`Z == X->_right`, source lines 656–674). -/
def retrace_ins_right (l : Tree T) (x : T) (bf : Int) (r : Tree T) : Tree T × Bool :=
  if bf > 0 then
    (if Tree.bfOf r < 0 then rotate_right_left l x r else rotate_left l x r, false)
  else if bf < 0 then (Tree.node l x 0 r, false)
  else (Tree.node l x 1 r, true)

/-- `gAVL<T>::insert` (lines 105–148) together with `retrace_insert` (648–712).
The descent (`while(true)` loop at 119–141) is rendered recursively; the upward
retracing walk over `_parent` links becomes the rebalancing of each ancestor on
the way out of the recursion, with the `Bool` flag carrying "the height of this
subtree increased" (the wiki algorithm's continue/break). `none` renders the
`comp == 0` early `return` (duplicate: no structural change). -/
def insert_go (cmp : T → T → Int) (v : T) : Tree T → Option (Tree T × Bool)
  | Tree.nil => some (Tree.node Tree.nil v 0 Tree.nil, true)
  | Tree.node l x bf r =>
    if cmp v x < 0 then
      match insert_go cmp v l with
      | none => none
      | some (l1, grew) =>
        if grew then some (retrace_ins_left l1 x bf r)
        else some (Tree.node l1 x bf r, false)
    else if cmp v x = 0 then none
    else
      match insert_go cmp v r with
      | none => none
      | some (r1, grew) =>
        if grew then some (retrace_ins_right l x bf r1)
        else some (Tree.node l x bf r1, false)

/-- One step of `gAVL<T>::retrace_remove` at ancestor `X` whose LEFT subtree has
just shrunk by one (`N == X->_left`, source lines 723–742): the flag is "the
height of this subtree decreased" (`continue`), `false` renders `break`.
After a rotation the walk continues unless the sibling's balance factor `b`
was 0 (lines 772–773). -/
def retrace_rem_left (l : Tree T) (x : T) (bf : Int) (r : Tree T) : Tree T × Bool :=
  if bf > 0 then
    let b := Tree.bfOf r
    (if b < 0 then rotate_right_left l x r else rotate_left l x r, b ≠ 0)
  else if bf = 0 then (Tree.node l x 1 r, false)
  else (Tree.node l x 0 r, true)

/-- One step of `gAVL<T>::retrace_remove` at ancestor `X` whose RIGHT subtree has
just shrunk by one (`N == X->_right`, source lines 743–762). -/
def retrace_rem_right (l : Tree T) (x : T) (bf : Int) (r : Tree T) : Tree T × Bool :=
  if bf < 0 then
    let b := Tree.bfOf l
    (if b > 0 then rotate_left_right l x r else rotate_right l x r, b ≠ 0)
  else if bf = 0 then (Tree.node l x (-1) r, false)
  else (Tree.node l x 0 r, true)

/-- The leftmost stored value of a subtree (`while (min->_left != nullptr) min = min->_left`
at lines 204–206); `d` is returned for the empty tree (unreachable at the call site). -/
def leftmost (t : Tree T) (d : T) : T :=
  match t with
  | Tree.nil => d
  | Tree.node l x _ _ =>
    match l with
    | Tree.nil => x
    | Tree.node a y b c => leftmost (Tree.node a y b c) d

/-- The continuation of a left-subtree removal at ancestor `X` (data `x`, stored
balance factor `bf`, right subtree `r`): thread not-found through, otherwise
apply the retrace step when the left subtree's height shrank. -/
def rem_step_left (x : T) (bf : Int) (r : Tree T) :
    Option (Tree T × Bool) → Option (Tree T × Bool)
  | none => none
  | some (l1, shrank) =>
    if shrank then some (retrace_rem_left l1 x bf r)
    else some (Tree.node l1 x bf r, false)

/-- The continuation of a right-subtree removal at ancestor `X`. -/
def rem_step_right (l : Tree T) (x : T) (bf : Int) :
    Option (Tree T × Bool) → Option (Tree T × Bool)
  | none => none
  | some (r1, shrank) =>
    if shrank then some (retrace_rem_right l x bf r1)
    else some (Tree.node l x bf r1, false)

/-- `gAVL<T>::remove` (lines 150–221) together with `retrace_remove` (714–780).
`none` renders "value not found: do nothing". The found node with at most one
child is spliced out for its single child (lines 169–197), with `retrace_remove`
rendered as the flagged rebalancing of each ancestor on the way out. A node with
two children (lines 199–211) records the in-order successor value `m` (the
leftmost value of the right subtree), removes `m` — the source restarts
`find(rdata)` from the root, which under the comparator retraces the very same
path back to this node and then descends into the right subtree — and finally
overwrites the node's data with `m` (the deferred overwrite stack at 214–218). -/
def remove_go (cmp : T → T → Int) (v : T) : Tree T → Option (Tree T × Bool)
  | Tree.nil => none
  | Tree.node l x bf r =>
    if cmp v x < 0 then rem_step_left x bf r (remove_go cmp v l)
    else if cmp v x = 0 then
      match l, r with
      | _, Tree.nil => some (l, true)                       -- q->_right == nullptr: rep = q->_left
      | Tree.nil, Tree.node rl rx rbf rr =>
        some (Tree.node rl rx rbf rr, true)                 -- rep = q->_right
      | Tree.node ll lx lbf lr, Tree.node rl rx rbf rr =>
        -- two children: promote the in-order successor value
        rem_step_right (Tree.node ll lx lbf lr) (leftmost (Tree.node rl rx rbf rr) x) bf
          (remove_go cmp (leftmost (Tree.node rl rx rbf rr) x) (Tree.node rl rx rbf rr))
    else rem_step_right l x bf (remove_go cmp v r)

/-- `gAVL<T>::find` (lines 623–640): iterative descent by the comparator,
returning the stored data of the found node (`none` for `nullptr`). -/
def findT (cmp : T → T → Int) (v : T) : Tree T → Option T
  | Tree.nil => none
  | Tree.node l x _ r =>
    if cmp v x < 0 then findT cmp v l
    else if cmp v x = 0 then some x
    else findT cmp v r

/-- `gAVL<T>::contains` (lines 282–289). -/
def contains (cmp : T → T → Int) (v : T) (t : Tree T) : Bool :=
  (findT cmp v t).isSome

/-- `gAVL<T>::search` (lines 610–621): on success the stored equal-comparing
value is written to `found_data`; on failure `found_data` is left unchanged. -/
def search (cmp : T → T → Int) (search_data : T) (t : Tree T) (found_data : T) : Bool × T :=
  match findT cmp search_data t with
  | some x => (true, x)
  | none => (false, found_data)

/-- The descent of `gAVL<T>::parent` (lines 291–302), tracking the data of the
current node's parent (`none` at the root), i.e. the `_parent` back-reference of
the node `find(data)` would return. -/
def parent_go (cmp : T → T → Int) (v : T) : Tree T → Option T → Option T
  | Tree.nil, _ => none
  | Tree.node l x _ r, pd =>
    if cmp v x < 0 then parent_go cmp v l (some x)
    else if cmp v x = 0 then pd
    else parent_go cmp v r (some x)

/-- `gAVL<T>::parent` (lines 291–302): `ref` is written only on success. -/
def parent (cmp : T → T → Int) (v : T) (t : Tree T) (ref : T) : Bool × T :=
  match parent_go cmp v t none with
  | some p => (true, p)
  | none => (false, ref)

/-- `gAVL<T>::root` (lines 599–608). -/
def rootOp (t : Tree T) (data : T) : Bool × T :=
  match t with
  | Tree.nil => (false, data)
  | Tree.node _ x _ _ => (true, x)

/-- The descent loop shared by `search_before` / `search_after` /
`search_neighbors` (e.g. lines 433–448): walk from the root towards `v`,
pushing every visited node; stop on an exact comparator match or on falling off
the tree. The head of the returned list is the stack top (deepest node); `acc`
is the stack built so far. -/
def descend (cmp : T → T → Int) (v : T) : Tree T → List (Tree T) → List (Tree T)
  | Tree.nil, acc => acc
  | Tree.node l x bf r, acc =>
    if cmp v x < 0 then descend cmp v l (Tree.node l x bf r :: acc)
    else if cmp v x = 0 then Tree.node l x bf r :: acc
    else descend cmp v r (Tree.node l x bf r :: acc)

/-- Weight of a pending stack entry for the termination measure of the
backward (before) scan loop. -/
def restWeightB (s : List (Tree T)) : Nat :=
  s.foldr (fun q acc => 2 * Tree.size (Tree.leftOf q) + 1 + acc) 0

/-- Termination measure for `scan_before`: a strict decrease at every loop step. -/
def scanMeasureB (s : List (Tree T)) (down : Bool) : Nat :=
  if down then
    match s with
    | [] => 0
    | p :: rest => 2 * Tree.size p + restWeightB rest
  else restWeightB s

/-- The scanning loop of `search_before` (lines 457–491), also the before-loop of
`search_neighbors` (lines 343–381): reverse in-order walk over the recorded
search stack. In `down` mode the top's right spine is pushed; otherwise the top
is popped and tested (`_comparator(p->_data, data) < 0 && condition(p->_data)`),
and on failure its left child is pushed in `down` mode. Returns the first value
that passes (the source writes it to `ref` / inserts it and breaks). The
`Tree.nil :: _` arm is unreachable: the source stack never holds `nullptr`. -/
def scan_before (cmp : T → T → Int) (v : T) (cond : T → Bool) :
    List (Tree T) → Bool → Option T
  | [], _ => none
  | Tree.nil :: _, _ => none
  | Tree.node l x bf (Tree.node rl rx rbf rr) :: rest, true =>
    scan_before cmp v cond
      (Tree.node rl rx rbf rr :: Tree.node l x bf (Tree.node rl rx rbf rr) :: rest) true
  | Tree.node l x _ Tree.nil :: rest, true =>
    if decide (cmp x v < 0) && cond x then some x
    else
      match l with
      | Tree.nil => scan_before cmp v cond rest false
      | Tree.node a y b c => scan_before cmp v cond (Tree.node a y b c :: rest) true
  | Tree.node l x _ _ :: rest, false =>
    if decide (cmp x v < 0) && cond x then some x
    else
      match l with
      | Tree.nil => scan_before cmp v cond rest false
      | Tree.node a y b c => scan_before cmp v cond (Tree.node a y b c :: rest) true
termination_by s down => scanMeasureB s down
decreasing_by
  all_goals simp [scanMeasureB, restWeightB, Tree.size, Tree.leftOf]
  all_goals omega

/-- Weight of a pending stack entry for the termination measure of the
forward (after) scan loop. -/
def restWeightA (s : List (Tree T)) : Nat :=
  s.foldr (fun q acc => 2 * Tree.size (Tree.rightOf q) + 1 + acc) 0

/-- Termination measure for `scan_after` (and the structurally identical
traversal loops of `to_stl_vector` and `height`). -/
def scanMeasureA (s : List (Tree T)) (down : Bool) : Nat :=
  if down then
    match s with
    | [] => 0
    | p :: rest => 2 * Tree.size p + restWeightA rest
  else restWeightA s

/-- The scanning loop of `search_after` (lines 527–561), also the after-loop of
`search_neighbors` (lines 383–421): forward in-order walk over the recorded
search stack, testing `_comparator(p->_data, data) > 0 && condition(p->_data)`. -/
def scan_after (cmp : T → T → Int) (v : T) (cond : T → Bool) :
    List (Tree T) → Bool → Option T
  | [], _ => none
  | Tree.nil :: _, _ => none
  | Tree.node (Tree.node ll lx lbf lr) x bf r :: rest, true =>
    scan_after cmp v cond
      (Tree.node ll lx lbf lr :: Tree.node (Tree.node ll lx lbf lr) x bf r :: rest) true
  | Tree.node Tree.nil x _ r :: rest, true =>
    if decide (cmp x v > 0) && cond x then some x
    else
      match r with
      | Tree.nil => scan_after cmp v cond rest false
      | Tree.node a y b c => scan_after cmp v cond (Tree.node a y b c :: rest) true
  | Tree.node _ x _ r :: rest, false =>
    if decide (cmp x v > 0) && cond x then some x
    else
      match r with
      | Tree.nil => scan_after cmp v cond rest false
      | Tree.node a y b c => scan_after cmp v cond (Tree.node a y b c :: rest) true
termination_by s down => scanMeasureA s down
decreasing_by
  all_goals simp [scanMeasureA, restWeightA, Tree.size, Tree.rightOf]
  all_goals omega

/-- The step of `search_before` after the descent (lines 450–468): from the
recorded stack, if an exact match was found (the top, say `q`, with
`_comparator(data, q->_data) == 0`), either start the backward scan inside `q`'s
left subtree, or pop `q` (`down = false`) when it has a parent (a non-empty
remaining stack), or report not-found when `q` is the root with no left child;
without an exact match scan from the deepest reached node in `down` mode. -/
def before_from_stack (cmp : T → T → Int) (v : T) (cond : T → Bool)
    (s : List (Tree T)) : Option T :=
  match s with
  | [] => none
  | Tree.nil :: _ => none
  | Tree.node lq xq bq rq :: qs =>
    if cmp v xq = 0 then
      match lq, qs with
      | Tree.node a y b c, _ =>
        scan_before cmp v cond
          (Tree.node a y b c :: Tree.node (Tree.node a y b c) xq bq rq :: qs) true
      | Tree.nil, p :: ps => scan_before cmp v cond (p :: ps) false
      | Tree.nil, [] => none
    else scan_before cmp v cond (Tree.node lq xq bq rq :: qs) true

/-- `gAVL<T>::search_before` (lines 426–494) as the optional found value. -/
def search_before_opt (cmp : T → T → Int) (v : T) (cond : T → Bool) (t : Tree T) : Option T :=
  match t with
  | Tree.nil => none
  | Tree.node _ _ _ _ => before_from_stack cmp v cond (descend cmp v t [])

/-- The step of `search_after` after the descent (lines 520–538), mirror of
`before_from_stack`. -/
def after_from_stack (cmp : T → T → Int) (v : T) (cond : T → Bool)
    (s : List (Tree T)) : Option T :=
  match s with
  | [] => none
  | Tree.nil :: _ => none
  | Tree.node lq xq bq rq :: qs =>
    if cmp v xq = 0 then
      match rq, qs with
      | Tree.node a y b c, _ =>
        scan_after cmp v cond
          (Tree.node a y b c :: Tree.node lq xq bq (Tree.node a y b c) :: qs) true
      | Tree.nil, p :: ps => scan_after cmp v cond (p :: ps) false
      | Tree.nil, [] => none
    else scan_after cmp v cond (Tree.node lq xq bq rq :: qs) true

/-- `gAVL<T>::search_after` (lines 496–564) as the optional found value. -/
def search_after_opt (cmp : T → T → Int) (v : T) (cond : T → Bool) (t : Tree T) : Option T :=
  match t with
  | Tree.nil => none
  | Tree.node _ _ _ _ => after_from_stack cmp v cond (descend cmp v t [])

/-- Public `gAVL<T>::search_before`: `ref` is assigned only at the in-loop
success return (line 483); every `return false` path leaves it unchanged. -/
def search_before (cmp : T → T → Int) (v : T) (cond : T → Bool) (t : Tree T)
    (ref : T) : Bool × T :=
  match search_before_opt cmp v cond t with
  | some x => (true, x)
  | none => (false, ref)

/-- Public `gAVL<T>::search_after`: `ref` is assigned only at the in-loop
success return (line 553). -/
def search_after (cmp : T → T → Int) (v : T) (cond : T → Bool) (t : Tree T)
    (ref : T) : Bool × T :=
  match search_after_opt cmp v cond t with
  | some x => (true, x)
  | none => (false, ref)

/-- The result mapping `std::map<gAVL<T>::Position, T>` of `search_neighbors`,
keyed by {Before, Equal, After}. -/
structure NMap (T : Type) where
  before : Option T
  equal : Option T
  after : Option T
deriving Repr, DecidableEq

/-- Number of keys present (`std::map::size`). -/
def NMap.size (m : NMap T) : Nat :=
  (if m.before.isSome then 1 else 0) + (if m.equal.isSome then 1 else 0)
    + (if m.after.isSome then 1 else 0)

/-- `std::map::insert` at key `Before`: does not overwrite an existing entry. -/
def NMap.insertB (m : NMap T) (x : T) : NMap T :=
  if m.before.isSome then m else { m with before := some x }

/-- `std::map::insert` at key `Equal`. -/
def NMap.insertE (m : NMap T) (x : T) : NMap T :=
  if m.equal.isSome then m else { m with equal := some x }

/-- `std::map::insert` at key `After`. -/
def NMap.insertA (m : NMap T) (x : T) : NMap T :=
  if m.after.isSome then m else { m with after := some x }

/-- The empty result map. -/
def NMap.empty : NMap T := ⟨none, none, none⟩

/-- Insert the before-loop's found value, if any (lines 371–374). -/
def applyBefore (ref : NMap T) (r : Option T) : NMap T :=
  match r with
  | some x => ref.insertB x
  | none => ref

/-- The after-block of `gAVL<T>::search_neighbors` (lines 383–423): set up the
after-scan from the recorded stack (`q` is the deepest node, `qs` the rest), run
it, and produce the final result: an in-loop success inserts `After` and returns
`true` (lines 411–414); the `eq_comp` case with no right child and no parent
returns `false` outright (line 395); otherwise the result is the map-size test
`(ref.size() - s) > 0` of line 423 with `s0` the size recorded on entry. -/
def neighbors_after (cmp : T → T → Int) (v : T) (cond : T → Bool) (q : Tree T)
    (qs : List (Tree T)) (s0 : Nat) (ref : NMap T) : Bool × NMap T :=
  match q with
  | Tree.nil => (false, ref)
  | Tree.node lq xq bq rq =>
    if cmp v xq = 0 then
      match rq, qs with
      | Tree.node a y b c, _ =>
        match scan_after cmp v cond
            (Tree.node a y b c :: Tree.node lq xq bq (Tree.node a y b c) :: qs) true with
        | some x => (true, ref.insertA x)
        | none => (decide (ref.size - s0 > 0), ref)
      | Tree.nil, p :: ps =>
        match scan_after cmp v cond (p :: ps) false with
        | some x => (true, ref.insertA x)
        | none => (decide (ref.size - s0 > 0), ref)
      | Tree.nil, [] => (false, ref)
    else
      match scan_after cmp v cond (Tree.node lq xq bq rq :: qs) true with
      | some x => (true, ref.insertA x)
      | none => (decide (ref.size - s0 > 0), ref)

/-- `gAVL<T>::search_neighbors` (lines 305–424): record the entry size of the
caller's map (line 311), descend, insert `Equal` on an exact match (lines
337–341), run the before-block (lines 343–381: the `eq_comp` case with no left
child and no parent returns `false` at line 355, after `Equal` was already
inserted), then the after-block. -/
def search_neighbors (cmp : T → T → Int) (v : T) (cond : T → Bool) (t : Tree T)
    (ref : NMap T) : Bool × NMap T :=
  match t with
  | Tree.nil => (false, ref)
  | Tree.node _ _ _ _ =>
    let s0 := ref.size
    match descend cmp v t [] with
    | [] => (false, ref)
    | Tree.nil :: _ => (false, ref)
    | Tree.node lq xq bq rq :: qs =>
      if cmp v xq = 0 then
        let ref1 := ref.insertE xq
        match lq, qs with
        | Tree.node a y b c, _ =>
          neighbors_after cmp v cond (Tree.node (Tree.node a y b c) xq bq rq) qs s0
            (applyBefore ref1 (scan_before cmp v cond
              (Tree.node a y b c :: Tree.node (Tree.node a y b c) xq bq rq :: qs) true))
        | Tree.nil, p :: ps =>
          neighbors_after cmp v cond (Tree.node Tree.nil xq bq rq) qs s0
            (applyBefore ref1 (scan_before cmp v cond (p :: ps) false))
        | Tree.nil, [] => (false, ref1)
      else
        neighbors_after cmp v cond (Tree.node lq xq bq rq) qs s0
          (applyBefore ref (scan_before cmp v cond (Tree.node lq xq bq rq :: qs) true))

/-- The in-order emission loop of `gAVL<T>::to_stl_vector` (lines 566–597):
descend the left spine in `down` mode, pop and emit, then push the right child
in `down` mode. -/
def to_stl_go : List (Tree T) → Bool → List T
  | [], _ => []
  | Tree.nil :: _, _ => []
  | Tree.node (Tree.node ll lx lbf lr) x bf r :: rest, true =>
    to_stl_go (Tree.node ll lx lbf lr :: Tree.node (Tree.node ll lx lbf lr) x bf r :: rest) true
  | Tree.node Tree.nil x _ r :: rest, true =>
    x :: (match r with
          | Tree.nil => to_stl_go rest false
          | Tree.node a y b c => to_stl_go (Tree.node a y b c :: rest) true)
  | Tree.node _ x _ r :: rest, false =>
    x :: (match r with
          | Tree.nil => to_stl_go rest false
          | Tree.node a y b c => to_stl_go (Tree.node a y b c :: rest) true)
termination_by s down => scanMeasureA s down
decreasing_by
  all_goals simp [scanMeasureA, restWeightA, Tree.size, Tree.rightOf]
  all_goals omega

/-- `gAVL<T>::to_stl_vector` (lines 566–597): the root is pushed only when
non-null (lines 571–573). -/
def to_stl_vector (t : Tree T) : List T :=
  match t with
  | Tree.nil => []
  | Tree.node _ _ _ _ => to_stl_go [t] true

/-- Termination measure for the `height` loop: `scanMeasureA` over the node
components of the depth-annotated stack. -/
def heightMeasure (s : List (Tree T × Nat)) (down : Bool) : Nat :=
  scanMeasureA (s.map Prod.fst) down

/-- The traversal loop of `gAVL<T>::height` (lines 240–262): a depth-annotated
in-order walk keeping the running maximum depth `mh` (`max_height`). -/
def height_go : List (Tree T × Nat) → Bool → Nat → Nat
  | [], _, mh => mh
  | (Tree.nil, _) :: _, _, mh => mh
  | (Tree.node (Tree.node ll lx lbf lr) x bf r, h) :: rest, true, mh =>
    height_go ((Tree.node ll lx lbf lr, h + 1)
      :: (Tree.node (Tree.node ll lx lbf lr) x bf r, h) :: rest) true mh
  | (Tree.node Tree.nil _ _ r, h) :: rest, true, mh =>
    (match r with
     | Tree.nil => height_go rest false (max mh h)
     | Tree.node a y b c => height_go ((Tree.node a y b c, h + 1) :: rest) true (max mh h))
  | (Tree.node _ _ _ r, h) :: rest, false, mh =>
    (match r with
     | Tree.nil => height_go rest false (max mh h)
     | Tree.node a y b c => height_go ((Tree.node a y b c, h + 1) :: rest) true (max mh h))
termination_by s down mh => heightMeasure s down
decreasing_by
  all_goals simp [heightMeasure, scanMeasureA, restWeightA, Tree.size, Tree.rightOf]
  all_goals omega

/-- `gAVL<T>::height` (lines 228–265): 0 for the empty tree, otherwise the loop
starting with the root at depth 1 and `max_height = 1`. -/
def heightC (t : Tree T) : Nat :=
  match t with
  | Tree.nil => 0
  | Tree.node _ _ _ _ => height_go [(t, 1)] true 1

/-- The constant `phi` of `gAVL<T>::height_bounds` (line 270), with the source's
`double` arithmetic idealized over the reals. -/
noncomputable def hbPhi : ℝ := (1 + Real.sqrt 5) / 2

/-- The constant `c = 1/log2(phi)` (line 271). -/
noncomputable def hbC : ℝ := 1 / Real.logb 2 hbPhi

/-- The constant `b = (c/2)*log2(5) - 2` (line 272). -/
noncomputable def hbB : ℝ := hbC / 2 * Real.logb 2 5 - 2

/-- `gAVL<T>::height_bounds` (lines 267–280), idealized over ℝ: for current size
`n`, the pair (`floor(log2(n+1))`, `ceil(c*log2(n+2) + b) - 1`). -/
noncomputable def height_bounds (n : ℕ) : ℤ × ℤ :=
  (⌊Real.logb 2 ((n : ℝ) + 1)⌋, ⌈hbC * Real.logb 2 ((n : ℝ) + 2) + hbB⌉ - 1)

/-- The container state of `gAVL<T>`: `_root` and `_size`. The comparator
`_comparator` is passed explicitly to each operation. -/
structure GAVL (T : Type) where
  root : Tree T
  size : Nat
deriving Repr, DecidableEq

/-- The freshly constructed container (`gAVL<T>::gAVL`, lines 69–71):
`_root = nullptr`, `_size = 0`. -/
def GAVL.empty : GAVL T := ⟨Tree.nil, 0⟩

/-- Public `gAVL<T>::insert`: on success `_size` is incremented (line 145),
on a duplicate nothing changes (line 131). -/
def GAVL.insert (cmp : T → T → Int) (v : T) (g : GAVL T) : GAVL T :=
  match insert_go cmp v g.root with
  | none => g
  | some (t, _) => ⟨t, g.size + 1⟩

/-- Public `gAVL<T>::remove`: on success `_size` is decremented (line 220),
when the value is absent nothing changes (lines 163–165). -/
def GAVL.remove (cmp : T → T → Int) (v : T) (g : GAVL T) : GAVL T :=
  match remove_go cmp v g.root with
  | none => g
  | some (t, _) => ⟨t, g.size - 1⟩

/-- The reachable container states: everything obtainable from the empty tree by
completed public `insert` and `remove` calls (with the fixed comparator `cmp`). -/
inductive Reachable (cmp : T → T → Int) : GAVL T → Prop where
  | empty : Reachable cmp GAVL.empty
  | ins (v : T) {g : GAVL T} : Reachable cmp g → Reachable cmp (GAVL.insert cmp v g)
  | rem (v : T) {g : GAVL T} : Reachable cmp g → Reachable cmp (GAVL.remove cmp v g)

/-- The documented precondition on the caller-supplied comparator: a strict weak
ordering presented as a tri-outcome `Int` comparison — the sign is antisymmetric,
the strict order is transitive, and incomparability (result 0) is transitive. -/
structure IsSWO (cmp : T → T → Int) : Prop where
  anti : ∀ a b, cmp a b < 0 ↔ 0 < cmp b a
  lt_trans : ∀ a b c, cmp a b < 0 → cmp b c < 0 → cmp a c < 0
  eq_trans : ∀ a b c, cmp a b = 0 → cmp b c = 0 → cmp a c = 0

/-- The binary-search-tree invariant, phrased on the observable ordered
sequence: the in-order value list is strictly increasing under the comparator. -/
def SortedT (cmp : T → T → Int) (t : Tree T) : Prop :=
  (Tree.inorder t).Pairwise (fun a b => cmp a b < 0)

/-- Modelled from the spec (§4.1, §6): construction from a pair of predicates —
"less-than" and "equal" — composed internally into the tri-outcome comparator
form. This second construction mode is absent from `src/include/gAVL.h`, which
only declares the single-comparator constructor (lines 30, 69–71); the spec
states both modes must be supported and behave identically. -/
def composeComparator (lt eq : T → T → Bool) : T → T → Int :=
  fun a b => if eq a b then 0 else if lt a b then -1 else 1

/-- Node-count lengths of all root-to-leaf paths of a tree (specification-side:
used to state what `height()` computes). -/
def leafDepths : Tree T → List Nat
  | Tree.nil => []
  | Tree.node Tree.nil _ _ Tree.nil => [1]
  | Tree.node l _ _ r => (leafDepths l ++ leafDepths r).map (· + 1)

/-- All node subtrees of a tree (specification-side: used to state the per-node
balance invariant the way the claim phrases it). -/
def nodesOf : Tree T → List (Tree T)
  | Tree.nil => []
  | Tree.node l x bf r => Tree.node l x bf r :: (nodesOf l ++ nodesOf r)

/-- Contribution of a popped stack entry to the forward in-order scan: the
node's value followed by the in-order walk of its right subtree. -/
def aEntry : Tree T → List T
  | Tree.nil => []
  | Tree.node _ x _ r => x :: Tree.inorder r

/-- Values still to be visited from the pending stack of a forward scan. -/
def aRest (s : List (Tree T)) : List T :=
  s.foldr (fun q acc => aEntry q ++ acc) []

/-- The complete future visit sequence of a forward scan state. -/
def aVisit (s : List (Tree T)) (down : Bool) : List T :=
  if down then
    match s with
    | [] => []
    | p :: rest => Tree.inorder p ++ aRest rest
  else aRest s

/-- Contribution of a popped stack entry to the backward (reverse in-order)
scan: the node's value followed by the reverse in-order walk of its left
subtree. -/
def bEntry : Tree T → List T
  | Tree.nil => []
  | Tree.node l x _ _ => x :: Tree.revInorder l

/-- Values still to be visited from the pending stack of a backward scan. -/
def bRest (s : List (Tree T)) : List T :=
  s.foldr (fun q acc => bEntry q ++ acc) []

/-- The complete future visit sequence of a backward scan state. -/
def bVisit (s : List (Tree T)) (down : Bool) : List T :=
  if down then
    match s with
    | [] => []
    | p :: rest => Tree.revInorder p ++ bRest rest
  else bRest s

/-- The test of the before-scan (line 482): strictly preceding and passing the
predicate. -/
def qualB (cmp : T → T → Int) (v : T) (cond : T → Bool) (a : T) : Bool :=
  decide (cmp a v < 0) && cond a

/-- The test of the after-scan (line 552): strictly following and passing the
predicate. -/
def qualA (cmp : T → T → Int) (v : T) (cond : T → Bool) (a : T) : Bool :=
  decide (cmp a v > 0) && cond a

/-- The value visit sequence of a whole `search_before` call, computed
recursively along the descent (specification-side characterization of the
stack-driven scan). -/
def WB (cmp : T → T → Int) (v : T) : Tree T → List T
  | Tree.nil => []
  | Tree.node l x _ r =>
    if cmp v x < 0 then
      match l with
      | Tree.nil => Tree.revInorder r ++ [x]
      | Tree.node a y b c => WB cmp v (Tree.node a y b c) ++ x :: Tree.revInorder l
    else if cmp v x = 0 then
      match l with
      | Tree.nil => []
      | Tree.node _ _ _ _ => Tree.revInorder l ++ x :: Tree.revInorder l
    else WB cmp v r ++ x :: Tree.revInorder l

/-- The value visit sequence of a whole `search_after` call. -/
def WA (cmp : T → T → Int) (v : T) : Tree T → List T
  | Tree.nil => []
  | Tree.node l x _ r =>
    if cmp v x < 0 then WA cmp v l ++ x :: Tree.inorder r
    else if cmp v x = 0 then
      match r with
      | Tree.nil => []
      | Tree.node _ _ _ _ => Tree.inorder r ++ x :: Tree.inorder r
    else
      match r with
      | Tree.nil => Tree.inorder l ++ [x]
      | Tree.node a y b c => WA cmp v (Tree.node a y b c) ++ x :: Tree.inorder r

/-- The integer subtraction comparator on ℤ, used for concrete witness states. -/
def icmp : Int → Int → Int := fun a b => a - b

/-- Build a container by inserting a list of values in order (witness helper). -/
def build (vs : List Int) : GAVL Int :=
  vs.foldl (fun g v => GAVL.insert icmp v g) GAVL.empty

/-- Contribution of a popped entry of the `height` loop stack: the node's
recorded depth plus the height of its right subtree (the depths still to be
emitted through it). -/
def hEntry (e : Tree T × Nat) : Nat :=
  e.2 + Tree.height (Tree.rightOf e.1)

/-- Maximum depth still to be emitted from the pending `height` loop stack. -/
def hRest (s : List (Tree T × Nat)) : Nat :=
  s.foldr (fun e acc => max (hEntry e) acc) 0

/-- Maximum depth still to be emitted from a `height` loop state. -/
def hVisit (s : List (Tree T × Nat)) (down : Bool) : Nat :=
  if down then
    match s with
    | [] => 0
    | (p, h) :: rest => max (h - 1 + Tree.height p) (hRest rest)
  else hRest s

theorem aRest_cons (q : Tree T) (s : List (Tree T)) : aRest (q :: s) = aEntry q ++ aRest s :=
  rfl

theorem bRest_cons (q : Tree T) (s : List (Tree T)) : bRest (q :: s) = bEntry q ++ bRest s :=
  rfl

/-- The emission loop of `to_stl_vector` emits exactly the forward visit
sequence of its state. -/
theorem to_stl_go_eq (s : List (Tree T)) (down : Bool) (h : Tree.nil ∉ s) :
    to_stl_go s down = aVisit s down := by
  induction s, down using to_stl_go.induct with
  | case1 down => simp [to_stl_go, aVisit, aRest]
  | case2 rest down => simp at h
  | case3 ll lx lbf lr x bf r rest ih =>
    simp only [List.mem_cons, not_or] at h
    rw [to_stl_go, ih (by simp [h.2])]
    simp [aVisit, aRest_cons, aEntry, Tree.inorder]
  | case4 x bf r rest ih =>
    simp only [List.mem_cons, not_or] at h
    rcases r with _ | ⟨a, y, b, c⟩ <;>
      · rw [to_stl_go, ih (by simp [h.2])]
        simp [aVisit, aRest_cons, aEntry, Tree.inorder]
  | case5 l x bf r rest ih =>
    simp only [List.mem_cons, not_or] at h
    rcases r with _ | ⟨a, y, b, c⟩ <;>
      · rw [to_stl_go, ih (by simp [h.2])]
        simp [aVisit, aRest_cons, aEntry, Tree.inorder]

/-- `to_stl_vector` produces the in-order value sequence. -/
theorem to_stl_vector_eq_inorder (t : Tree T) : to_stl_vector t = Tree.inorder t := by
  cases t with
  | nil => rfl
  | node l x bf r =>
    rw [to_stl_vector, to_stl_go_eq _ _ (by simp)]
    simp [aVisit, aRest]

/-- The `height` loop computes the running maximum against the maximum depth
still pending in its stack. -/
theorem height_go_eq (s : List (Tree T × Nat)) (down : Bool) (mh : Nat)
    (h : ∀ e ∈ s, e.1 ≠ Tree.nil ∧ 1 ≤ e.2) :
    height_go s down mh = max mh (hVisit s down) := by
  induction s, down, mh using height_go.induct with
  | case1 down mh => simp [height_go, hVisit, hRest]
  | case2 h0 rest down mh =>
    exact absurd rfl (h (Tree.nil, h0) (List.mem_cons_self _ _)).1
  | case3 ll lx lbf lr x bf r hd rest mh ih =>
    have h1 : 1 ≤ hd := (h _ (List.mem_cons_self _ _)).2
    rw [height_go, ih (by
      intro e he
      simp only [List.mem_cons] at he
      rcases he with rfl | rfl | he
      · exact ⟨by simp, by omega⟩
      · exact ⟨by simp, h1⟩
      · exact h e (List.mem_cons_of_mem _ he))]
    simp [hVisit, hRest, hEntry, Tree.height, Tree.rightOf]
    omega
  | case4 x bf hd rest mh ih =>
    have h1 : 1 ≤ hd := (h _ (List.mem_cons_self _ _)).2
    have hrest : ∀ e ∈ rest, e.1 ≠ Tree.nil ∧ 1 ≤ e.2 :=
      fun e he => h e (List.mem_cons_of_mem _ he)
    rw [height_go, ih hrest]
    simp [hVisit, hRest, hEntry, Tree.height, Tree.rightOf]
    omega
  | case5 x bf hd rest mh a y b c ih =>
    have h1 : 1 ≤ hd := (h _ (List.mem_cons_self _ _)).2
    have hrest : ∀ e ∈ rest, e.1 ≠ Tree.nil ∧ 1 ≤ e.2 :=
      fun e he => h e (List.mem_cons_of_mem _ he)
    rw [height_go, ih (by
      intro e he
      simp only [List.mem_cons] at he
      rcases he with rfl | he
      · exact ⟨by simp, by omega⟩
      · exact hrest e he)]
    simp [hVisit, hRest, hEntry, Tree.height, Tree.rightOf]
    omega
  | case6 l x bf hd rest mh ih =>
    have h1 : 1 ≤ hd := (h _ (List.mem_cons_self _ _)).2
    have hrest : ∀ e ∈ rest, e.1 ≠ Tree.nil ∧ 1 ≤ e.2 :=
      fun e he => h e (List.mem_cons_of_mem _ he)
    rw [height_go, ih hrest]
    simp [hVisit, hRest, hEntry, Tree.height, Tree.rightOf]
    omega
  | case7 l x bf hd rest mh a y b c ih =>
    have h1 : 1 ≤ hd := (h _ (List.mem_cons_self _ _)).2
    have hrest : ∀ e ∈ rest, e.1 ≠ Tree.nil ∧ 1 ≤ e.2 :=
      fun e he => h e (List.mem_cons_of_mem _ he)
    rw [height_go, ih (by
      intro e he
      simp only [List.mem_cons] at he
      rcases he with rfl | he
      · exact ⟨by simp, by omega⟩
      · exact hrest e he)]
    simp [hVisit, hRest, hEntry, Tree.height, Tree.rightOf]
    omega

/-- A nonempty tree has positive height. -/
theorem height_pos (l : Tree T) (x : T) (bf : Int) (r : Tree T) :
    1 ≤ Tree.height (Tree.node l x bf r) := by
  simp [Tree.height]

/-- The iterative `height()` computes the recursive node-count height. -/
theorem heightC_eq_height (t : Tree T) : heightC t = Tree.height t := by
  cases t with
  | nil => rfl
  | node l x bf r =>
    rw [heightC, height_go_eq _ _ _ (by simp)]
    simp [hVisit, hRest, hEntry, Tree.height, Tree.rightOf]

theorem leafDepths_node (l : Tree T) (x : T) (bf : Int) (r : Tree T)
    (h : ¬(l = Tree.nil ∧ r = Tree.nil)) :
    leafDepths (Tree.node l x bf r) = (leafDepths l ++ leafDepths r).map (· + 1) := by
  rw [leafDepths.eq_def]
  cases l with
  | nil =>
    cases r with
    | nil => exact (h ⟨rfl, rfl⟩).elim
    | node a y b c => rfl
  | node a y b c => cases r <;> rfl

theorem leafDepths_eq_nil_iff (t : Tree T) : leafDepths t = [] ↔ t = Tree.nil := by
  induction t using leafDepths.induct with
  | case1 => simp [leafDepths]
  | case2 x bf => simp [leafDepths]
  | case3 l x bf r hne ih1 ih2 =>
    rw [leafDepths_node l x bf r (fun hc => hne hc.1 hc.2)]
    simp only [List.map_eq_nil_iff, List.append_eq_nil, ih1, ih2]
    constructor
    · rintro ⟨h1, h2⟩
      exact (hne h1 h2).elim
    · intro h
      exact absurd h (by simp)

theorem foldr_max_map_succ (L : List Nat) (h : L ≠ []) :
    ((L.map (· + 1)).foldr max 0) = (L.foldr max 0) + 1 := by
  induction L with
  | nil => simp at h
  | cons a L ih =>
    cases L with
    | nil => simp
    | cons b L =>
      simp only [List.map_cons, List.foldr_cons] at ih ⊢
      rw [ih (by simp)]
      omega

theorem foldr_max_append (A B : List Nat) :
    ((A ++ B).foldr max 0) = max (A.foldr max 0) (B.foldr max 0) := by
  induction A with
  | nil => simp
  | cons a A ih =>
    simp [ih]
    omega

/-- The recursive height is the maximum node count over root-to-leaf paths. -/
theorem height_eq_leafDepths (t : Tree T) :
    Tree.height t = (leafDepths t).foldr max 0 := by
  induction t using leafDepths.induct with
  | case1 => simp [leafDepths, Tree.height]
  | case2 x bf => simp [leafDepths, Tree.height]
  | case3 l x bf r hne ih1 ih2 =>
    have hne2 : leafDepths l ++ leafDepths r ≠ [] := by
      intro hc
      rcases List.append_eq_nil.mp hc with ⟨h1, h2⟩
      exact hne ((leafDepths_eq_nil_iff l).mp h1) ((leafDepths_eq_nil_iff r).mp h2)
    rw [leafDepths_node l x bf r (fun hc => hne hc.1 hc.2), foldr_max_map_succ _ hne2,
      foldr_max_append, ← ih1, ← ih2]
    simp [Tree.height]
    omega

/-- C10. `height()` returns 0 for the empty tree (the fold over no paths) and,
for every non-empty tree, the number of nodes on the longest root-to-leaf path;
in particular a single-node tree has height 1. -/
theorem c10_height_longest_path (t : Tree T) :
    heightC t = (leafDepths t).foldr max 0 := by
  rw [heightC_eq_height, height_eq_leafDepths]

/-- The backward scan loop returns the first qualifying value of its visit
sequence. -/
theorem scan_before_eq (cmp : T → T → Int) (v : T) (cond : T → Bool)
    (s : List (Tree T)) (down : Bool) (h : Tree.nil ∉ s) :
    scan_before cmp v cond s down = (bVisit s down).find? (qualB cmp v cond) := by
  induction s, down using scan_before.induct cmp v cond with
  | case1 down => simp [scan_before, bVisit, bRest]
  | case2 rest down => simp at h
  | case3 l x bf rl rx rbf rr rest ih =>
    simp only [List.mem_cons, not_or] at h
    rw [scan_before, ih (by simp [h.2])]
    simp [bVisit, bRest_cons, bEntry, Tree.revInorder, qualB]
  | case4 l x bf rest hq =>
    rw [scan_before.eq_def]
    simp [bVisit, bRest_cons, bEntry, Tree.revInorder, qualB, hq]
  | case5 x bf rest hq ih =>
    simp only [List.mem_cons, not_or] at h
    rw [scan_before, ih (by simp [h.2])]
    simp [bVisit, bRest_cons, bEntry, Tree.revInorder, qualB, hq]
  | case6 x bf rest hq a y b c ih =>
    simp only [List.mem_cons, not_or] at h
    rw [scan_before, ih (by simp [h.2])]
    simp [bVisit, bRest_cons, bEntry, Tree.revInorder, qualB, hq]
  | case7 l x bf r rest hq =>
    rw [scan_before.eq_def]
    simp [bVisit, bRest_cons, bEntry, Tree.revInorder, qualB, hq]
  | case8 x bf r rest hq ih =>
    simp only [List.mem_cons, not_or] at h
    rw [scan_before, ih (by simp [h.2])]
    simp [bVisit, bRest_cons, bEntry, Tree.revInorder, qualB, hq]
  | case9 x bf r rest hq a y b c ih =>
    simp only [List.mem_cons, not_or] at h
    rw [scan_before, ih (by simp [h.2])]
    simp [bVisit, bRest_cons, bEntry, Tree.revInorder, qualB, hq]

/-- The forward scan loop returns the first qualifying value of its visit
sequence. -/
theorem scan_after_eq (cmp : T → T → Int) (v : T) (cond : T → Bool)
    (s : List (Tree T)) (down : Bool) (h : Tree.nil ∉ s) :
    scan_after cmp v cond s down = (aVisit s down).find? (qualA cmp v cond) := by
  induction s, down using scan_after.induct cmp v cond with
  | case1 down => simp [scan_after, aVisit, aRest]
  | case2 rest down => simp at h
  | case3 ll lx lbf lr x bf r rest ih =>
    simp only [List.mem_cons, not_or] at h
    rw [scan_after, ih (by simp [h.2])]
    simp [aVisit, aRest_cons, aEntry, Tree.inorder, qualA]
  | case4 x bf r rest hq =>
    rw [scan_after.eq_def]
    simp [aVisit, aRest_cons, aEntry, Tree.inorder, qualA, hq]
  | case5 x bf rest hq ih =>
    simp only [List.mem_cons, not_or] at h
    rw [scan_after, ih (by simp [h.2])]
    simp [aVisit, aRest_cons, aEntry, Tree.inorder, qualA, hq]
  | case6 x bf rest hq a y b c ih =>
    simp only [List.mem_cons, not_or] at h
    rw [scan_after, ih (by simp [h.2])]
    simp [aVisit, aRest_cons, aEntry, Tree.inorder, qualA, hq]
  | case7 l x bf r rest hq =>
    rw [scan_after.eq_def]
    simp [aVisit, aRest_cons, aEntry, Tree.inorder, qualA, hq]
  | case8 l x bf rest hq ih =>
    simp only [List.mem_cons, not_or] at h
    rw [scan_after, ih (by simp [h.2])]
    simp [aVisit, aRest_cons, aEntry, Tree.inorder, qualA, hq]
  | case9 l x bf rest hq a y b c ih =>
    simp only [List.mem_cons, not_or] at h
    rw [scan_after, ih (by simp [h.2])]
    simp [aVisit, aRest_cons, aEntry, Tree.inorder, qualA, hq]

/-- The stack built by the descent never holds `nullptr`. -/
theorem descend_no_nil (cmp : T → T → Int) (v : T) (t : Tree T) (acc : List (Tree T))
    (h : Tree.nil ∉ acc) : Tree.nil ∉ descend cmp v t acc := by
  induction t generalizing acc with
  | nil => simpa [descend]
  | node l x bf r ihl ihr =>
    rw [descend]
    split
    · exact ihl _ (by simp [h])
    · split
      · simp [h]
      · exact ihr _ (by simp [h])

theorem before_from_stack_ne (cmp : T → T → Int) (v : T) (cond : T → Bool)
    (lq : Tree T) (xq : T) (bq : Int) (rq : Tree T) (qs : List (Tree T))
    (hne : ¬ cmp v xq = 0) :
    before_from_stack cmp v cond (Tree.node lq xq bq rq :: qs)
      = scan_before cmp v cond (Tree.node lq xq bq rq :: qs) true := by
  rw [before_from_stack.eq_def]
  simp [hne]

theorem before_from_stack_eq_node (cmp : T → T → Int) (v : T) (cond : T → Bool)
    (a : Tree T) (y : T) (b : Int) (c : Tree T) (xq : T) (bq : Int) (rq : Tree T)
    (qs : List (Tree T)) (heq : cmp v xq = 0) :
    before_from_stack cmp v cond (Tree.node (Tree.node a y b c) xq bq rq :: qs)
      = scan_before cmp v cond
          (Tree.node a y b c :: Tree.node (Tree.node a y b c) xq bq rq :: qs) true := by
  rw [before_from_stack.eq_def]
  simp [heq]

theorem before_from_stack_eq_nil_cons (cmp : T → T → Int) (v : T) (cond : T → Bool)
    (xq : T) (bq : Int) (rq : Tree T) (p : Tree T) (ps : List (Tree T))
    (heq : cmp v xq = 0) :
    before_from_stack cmp v cond (Tree.node Tree.nil xq bq rq :: p :: ps)
      = scan_before cmp v cond (p :: ps) false := by
  rw [before_from_stack.eq_def]
  simp [heq]

theorem before_from_stack_eq_nil_nil (cmp : T → T → Int) (v : T) (cond : T → Bool)
    (xq : T) (bq : Int) (rq : Tree T) (heq : cmp v xq = 0) :
    before_from_stack cmp v cond [Tree.node Tree.nil xq bq rq] = none := by
  rw [before_from_stack.eq_def]
  simp [heq]

/-- The whole `search_before` visits exactly the sequence `WB` followed by the
pending ancestors' contributions. -/
theorem before_from_stack_eq (cmp : T → T → Int) (v : T) (cond : T → Bool)
    (t : Tree T) (acc : List (Tree T)) (ht : t ≠ Tree.nil) (h : Tree.nil ∉ acc) :
    before_from_stack cmp v cond (descend cmp v t acc)
      = (WB cmp v t ++ bRest acc).find? (qualB cmp v cond) := by
  induction t generalizing acc with
  | nil => exact absurd rfl ht
  | node l x bf r ihl ihr =>
    rw [descend]
    by_cases h1 : cmp v x < 0
    · rw [if_pos h1]
      cases l with
      | nil =>
        rw [descend, before_from_stack_ne cmp v cond _ _ _ _ _ (by omega)]
        rw [scan_before_eq cmp v cond _ _ (by simp [h])]
        conv_rhs => rw [WB.eq_def]
        simp [h1, bVisit, bRest_cons, bEntry, Tree.revInorder, WB]
      | node a y b c =>
        rw [ihl _ (by simp) (by simp [h])]
        conv_rhs => rw [WB.eq_def]
        simp [h1, bRest_cons, bEntry]
    · by_cases h2 : cmp v x = 0
      · rw [if_neg h1, if_pos h2]
        cases l with
        | nil =>
          cases acc with
          | nil =>
            rw [before_from_stack_eq_nil_nil cmp v cond _ _ _ h2]
            simp [WB, h1, h2, bRest]
          | cons p ps =>
            simp only [List.mem_cons, not_or] at h
            rw [before_from_stack_eq_nil_cons cmp v cond _ _ _ _ _ h2]
            rw [scan_before_eq cmp v cond _ _ (by simp [h.1, h.2])]
            conv_rhs => rw [WB.eq_def]
            simp [h1, h2, bVisit, bRest]
        | node a y b c =>
          rw [before_from_stack_eq_node cmp v cond _ _ _ _ _ _ _ _ h2]
          rw [scan_before_eq cmp v cond _ _ (by simp [h])]
          conv_rhs => rw [WB.eq_def]
          simp [h1, h2, bVisit, bRest_cons, bEntry]
      · rw [if_neg h1, if_neg h2]
        cases r with
        | nil =>
          rw [descend, before_from_stack_ne cmp v cond _ _ _ _ _ h2]
          rw [scan_before_eq cmp v cond _ _ (by simp [h])]
          conv_rhs => rw [WB.eq_def]
          simp [h1, h2, bVisit, bRest_cons, bEntry, Tree.revInorder, WB]
        | node a y b c =>
          rw [ihr _ (by simp) (by simp [h])]
          conv_rhs => rw [WB.eq_def]
          simp [h1, h2, bRest_cons, bEntry]

/-- `search_before` returns the first qualifying value of the visit sequence
`WB`. -/
theorem search_before_opt_eq (cmp : T → T → Int) (v : T) (cond : T → Bool) (t : Tree T) :
    search_before_opt cmp v cond t = (WB cmp v t).find? (qualB cmp v cond) := by
  cases t with
  | nil => simp [search_before_opt, WB]
  | node l x bf r =>
    rw [search_before_opt, before_from_stack_eq cmp v cond _ [] (by simp) (by simp)]
    simp [bRest]

theorem after_from_stack_ne (cmp : T → T → Int) (v : T) (cond : T → Bool)
    (lq : Tree T) (xq : T) (bq : Int) (rq : Tree T) (qs : List (Tree T))
    (hne : ¬ cmp v xq = 0) :
    after_from_stack cmp v cond (Tree.node lq xq bq rq :: qs)
      = scan_after cmp v cond (Tree.node lq xq bq rq :: qs) true := by
  rw [after_from_stack.eq_def]
  simp [hne]

theorem after_from_stack_eq_node (cmp : T → T → Int) (v : T) (cond : T → Bool)
    (lq : Tree T) (xq : T) (bq : Int) (a : Tree T) (y : T) (b : Int) (c : Tree T)
    (qs : List (Tree T)) (heq : cmp v xq = 0) :
    after_from_stack cmp v cond (Tree.node lq xq bq (Tree.node a y b c) :: qs)
      = scan_after cmp v cond
          (Tree.node a y b c :: Tree.node lq xq bq (Tree.node a y b c) :: qs) true := by
  rw [after_from_stack.eq_def]
  simp [heq]

theorem after_from_stack_eq_nil_cons (cmp : T → T → Int) (v : T) (cond : T → Bool)
    (lq : Tree T) (xq : T) (bq : Int) (p : Tree T) (ps : List (Tree T))
    (heq : cmp v xq = 0) :
    after_from_stack cmp v cond (Tree.node lq xq bq Tree.nil :: p :: ps)
      = scan_after cmp v cond (p :: ps) false := by
  rw [after_from_stack.eq_def]
  simp [heq]

theorem after_from_stack_eq_nil_nil (cmp : T → T → Int) (v : T) (cond : T → Bool)
    (lq : Tree T) (xq : T) (bq : Int) (heq : cmp v xq = 0) :
    after_from_stack cmp v cond [Tree.node lq xq bq Tree.nil] = none := by
  rw [after_from_stack.eq_def]
  simp [heq]

/-- The whole `search_after` visits exactly the sequence `WA` followed by the
pending ancestors' contributions. -/
theorem after_from_stack_eq (cmp : T → T → Int) (v : T) (cond : T → Bool)
    (t : Tree T) (acc : List (Tree T)) (ht : t ≠ Tree.nil) (h : Tree.nil ∉ acc) :
    after_from_stack cmp v cond (descend cmp v t acc)
      = (WA cmp v t ++ aRest acc).find? (qualA cmp v cond) := by
  induction t generalizing acc with
  | nil => exact absurd rfl ht
  | node l x bf r ihl ihr =>
    rw [descend]
    by_cases h1 : cmp v x < 0
    · rw [if_pos h1]
      cases l with
      | nil =>
        rw [descend, after_from_stack_ne cmp v cond _ _ _ _ _ (by omega)]
        rw [scan_after_eq cmp v cond _ _ (by simp [h])]
        conv_rhs => rw [WA.eq_def]
        simp [h1, aVisit, aRest_cons, aEntry, Tree.inorder, WA]
      | node a y b c =>
        rw [ihl _ (by simp) (by simp [h])]
        conv_rhs => rw [WA.eq_def]
        simp [h1, aRest_cons, aEntry]
    · by_cases h2 : cmp v x = 0
      · rw [if_neg h1, if_pos h2]
        cases r with
        | nil =>
          cases acc with
          | nil =>
            rw [after_from_stack_eq_nil_nil cmp v cond _ _ _ h2]
            simp [WA, h1, h2, aRest]
          | cons p ps =>
            simp only [List.mem_cons, not_or] at h
            rw [after_from_stack_eq_nil_cons cmp v cond _ _ _ _ _ h2]
            rw [scan_after_eq cmp v cond _ _ (by simp [h.1, h.2])]
            conv_rhs => rw [WA.eq_def]
            simp [h1, h2, aVisit, aRest]
        | node a y b c =>
          rw [after_from_stack_eq_node cmp v cond _ _ _ _ _ _ _ _ h2]
          rw [scan_after_eq cmp v cond _ _ (by simp [h])]
          conv_rhs => rw [WA.eq_def]
          simp [h1, h2, aVisit, aRest_cons, aEntry]
      · rw [if_neg h1, if_neg h2]
        cases r with
        | nil =>
          rw [descend, after_from_stack_ne cmp v cond _ _ _ _ _ h2]
          rw [scan_after_eq cmp v cond _ _ (by simp [h])]
          conv_rhs => rw [WA.eq_def]
          simp [h1, h2, aVisit, aRest_cons, aEntry, Tree.inorder, WA]
        | node a y b c =>
          rw [ihr _ (by simp) (by simp [h])]
          conv_rhs => rw [WA.eq_def]
          simp [h1, h2, aRest_cons, aEntry]

/-- `search_after` returns the first qualifying value of the visit sequence
`WA`. -/
theorem search_after_opt_eq (cmp : T → T → Int) (v : T) (cond : T → Bool) (t : Tree T) :
    search_after_opt cmp v cond t = (WA cmp v t).find? (qualA cmp v cond) := by
  cases t with
  | nil => simp [search_after_opt, WA]
  | node l x bf r =>
    rw [search_after_opt, after_from_stack_eq cmp v cond _ [] (by simp) (by simp)]
    simp [aRest]

theorem insert_go_lt (cmp : T → T → Int) (v : T) (l : Tree T) (x : T) (bf : Int)
    (r : Tree T) (h1 : cmp v x < 0) :
    insert_go cmp v (Tree.node l x bf r)
      = match insert_go cmp v l with
        | none => none
        | some (l1, grew) =>
          if grew then some (retrace_ins_left l1 x bf r)
          else some (Tree.node l1 x bf r, false) := by
  rw [insert_go]
  simp [h1]

theorem insert_go_eq (cmp : T → T → Int) (v : T) (l : Tree T) (x : T) (bf : Int)
    (r : Tree T) (h2 : cmp v x = 0) :
    insert_go cmp v (Tree.node l x bf r) = none := by
  rw [insert_go]
  simp [h2, (by omega : ¬ cmp v x < 0)]

theorem insert_go_gt (cmp : T → T → Int) (v : T) (l : Tree T) (x : T) (bf : Int)
    (r : Tree T) (h1 : ¬ cmp v x < 0) (h2 : ¬ cmp v x = 0) :
    insert_go cmp v (Tree.node l x bf r)
      = match insert_go cmp v r with
        | none => none
        | some (r1, grew) =>
          if grew then some (retrace_ins_right l x bf r1)
          else some (Tree.node l x bf r1, false) := by
  rw [insert_go]
  simp [h1, h2]

theorem remove_go_lt (cmp : T → T → Int) (v : T) (l : Tree T) (x : T) (bf : Int)
    (r : Tree T) (h1 : cmp v x < 0) :
    remove_go cmp v (Tree.node l x bf r) = rem_step_left x bf r (remove_go cmp v l) := by
  rw [remove_go.eq_def]
  simp [h1]

theorem remove_go_gt (cmp : T → T → Int) (v : T) (l : Tree T) (x : T) (bf : Int)
    (r : Tree T) (h1 : ¬ cmp v x < 0) (h2 : ¬ cmp v x = 0) :
    remove_go cmp v (Tree.node l x bf r) = rem_step_right l x bf (remove_go cmp v r) := by
  rw [remove_go.eq_def]
  simp [h1, h2]

theorem remove_go_found_rnil (cmp : T → T → Int) (v : T) (l : Tree T) (x : T)
    (bf : Int) (h2 : cmp v x = 0) :
    remove_go cmp v (Tree.node l x bf Tree.nil) = some (l, true) := by
  rw [remove_go.eq_def]
  simp [h2, (by omega : ¬ cmp v x < 0)]

theorem remove_go_found_lnil (cmp : T → T → Int) (v : T) (x : T) (bf : Int)
    (rl : Tree T) (rx : T) (rbf : Int) (rr : Tree T) (h2 : cmp v x = 0) :
    remove_go cmp v (Tree.node Tree.nil x bf (Tree.node rl rx rbf rr))
      = some (Tree.node rl rx rbf rr, true) := by
  rw [remove_go.eq_def]
  simp [h2, (by omega : ¬ cmp v x < 0)]

theorem remove_go_found_two (cmp : T → T → Int) (v : T) (ll : Tree T) (lx : T)
    (lbf : Int) (lr : Tree T) (x : T) (bf : Int) (rl : Tree T) (rx : T) (rbf : Int)
    (rr : Tree T) (h2 : cmp v x = 0) :
    remove_go cmp v (Tree.node (Tree.node ll lx lbf lr) x bf (Tree.node rl rx rbf rr))
      = rem_step_right (Tree.node ll lx lbf lr) (leftmost (Tree.node rl rx rbf rr) x) bf
          (remove_go cmp (leftmost (Tree.node rl rx rbf rr) x) (Tree.node rl rx rbf rr)) := by
  rw [remove_go.eq_def]
  simp [h2, (by omega : ¬ cmp v x < 0)]

theorem IsSWO.eq_symm {cmp : T → T → Int} (hsw : IsSWO cmp) (a b : T)
    (h : cmp a b = 0) : cmp b a = 0 := by
  have h1 := hsw.anti a b
  have h2 := hsw.anti b a
  omega

theorem IsSWO.gt_flip {cmp : T → T → Int} (hsw : IsSWO cmp) (a b : T)
    (h : 0 < cmp a b) : cmp b a < 0 := by
  have h1 := hsw.anti b a
  omega

theorem IsSWO.refl_zero {cmp : T → T → Int} (hsw : IsSWO cmp) (a : T) : cmp a a = 0 := by
  have h1 := hsw.anti a a
  omega

/-- Decomposition of the ordered-sequence invariant at a node. -/
theorem sorted_node_iff (cmp : T → T → Int) (l : Tree T) (x : T) (bf : Int) (r : Tree T) :
    SortedT cmp (Tree.node l x bf r) ↔
      SortedT cmp l ∧ SortedT cmp r ∧ (∀ a ∈ Tree.inorder l, cmp a x < 0)
        ∧ (∀ b ∈ Tree.inorder r, cmp x b < 0)
        ∧ (∀ a ∈ Tree.inorder l, ∀ b ∈ Tree.inorder r, cmp a b < 0) := by
  simp only [SortedT, Tree.inorder, List.pairwise_append, List.pairwise_cons,
    List.mem_cons]
  constructor
  · rintro ⟨hl, ⟨hx, hr⟩, hcross⟩
    refine ⟨hl, hr, fun a ha => (hcross a ha x (Or.inl rfl)), hx, ?_⟩
    intro a ha b hb
    exact hcross a ha b (Or.inr hb)
  · rintro ⟨hl, hr, hlx, hxr, hcross⟩
    refine ⟨hl, ⟨hxr, hr⟩, ?_⟩
    rintro a ha b (rfl | hb)
    · exact hlx a ha
    · exact hcross a ha b hb

/-- Membership decomposition for the in-order sequence of a node. -/
theorem mem_inorder_node (a : T) (l : Tree T) (x : T) (bf : Int) (r : Tree T) :
    a ∈ Tree.inorder (Tree.node l x bf r)
      ↔ a ∈ Tree.inorder l ∨ a = x ∨ a ∈ Tree.inorder r := by
  simp [Tree.inorder]

/-- A duplicate insertion descends to the equal-comparing element and aborts:
under the BST invariant the descent cannot miss it. -/
theorem insert_go_eq_none {cmp : T → T → Int} (hsw : IsSWO cmp) (v : T) (t : Tree T)
    (hs : SortedT cmp t) (x0 : T) (hx0 : x0 ∈ Tree.inorder t) (heq : cmp v x0 = 0) :
    insert_go cmp v t = none := by
  induction t with
  | nil => simp [Tree.inorder] at hx0
  | node l x bf r ihl ihr =>
    rw [sorted_node_iff] at hs
    rw [mem_inorder_node] at hx0
    by_cases h1 : cmp v x < 0
    · have hx0l : x0 ∈ Tree.inorder l := by
        rcases hx0 with hx0 | rfl | hx0
        · exact hx0
        · omega
        · exact absurd (hsw.lt_trans v x x0 h1 (hs.2.2.2.1 x0 hx0)) (by omega)
      rw [insert_go, if_pos h1, ihl hs.1 hx0l]
    · by_cases h2 : cmp v x = 0
      · rw [insert_go, if_neg h1, if_pos h2]
      · have hvx : cmp x v < 0 := hsw.gt_flip v x (by omega)
        have hx0r : x0 ∈ Tree.inorder r := by
          rcases hx0 with hx0 | rfl | hx0
          · have h3 : cmp x0 x < 0 := hs.2.2.1 x0 hx0
            have h4 : cmp x0 v < 0 := hsw.lt_trans x0 x v h3 hvx
            have h5 : cmp x0 v = 0 := hsw.eq_symm v x0 heq
            omega
          · omega
          · exact hx0
        rw [insert_go, if_neg h1, if_neg h2, ihr hs.2.1 hx0r]

/-- Removing a value none of whose comparator-equal occurrences is stored is a
no-op: the descent falls off the tree. -/
theorem remove_go_eq_none (cmp : T → T → Int) (v : T) (t : Tree T)
    (h : ∀ x0 ∈ Tree.inorder t, cmp v x0 ≠ 0) : remove_go cmp v t = none := by
  induction t with
  | nil => rfl
  | node l x bf r ihl ihr =>
    have hx : cmp v x ≠ 0 := h x (by rw [mem_inorder_node]; tauto)
    by_cases h1 : cmp v x < 0
    · rw [remove_go_lt cmp v l x bf r h1,
        ihl (fun a ha => h a (by rw [mem_inorder_node]; tauto))]
      rfl
    · rw [remove_go_gt cmp v l x bf r h1 hx,
        ihr (fun a ha => h a (by rw [mem_inorder_node]; tauto))]
      rfl

/-- C4. `insert(v)` with an Equal-comparing value stored, and `remove(v)` with
no Equal-comparing value stored, are complete no-ops: the whole container state
(root tree and `_size`) is unchanged and no error is signalled (both operations
are total and return normally). -/
theorem c4_duplicate_insert_absent_remove_noop (cmp : T → T → Int) (v : T) (g : GAVL T)
    (hsw : IsSWO cmp) (hs : SortedT cmp g.root) :
    ((∃ x0 ∈ Tree.inorder g.root, cmp v x0 = 0) → GAVL.insert cmp v g = g) ∧
    ((∀ x0 ∈ Tree.inorder g.root, cmp v x0 ≠ 0) → GAVL.remove cmp v g = g) := by
  constructor
  · rintro ⟨x0, hx0, heq⟩
    rw [GAVL.insert, insert_go_eq_none hsw v _ hs x0 hx0 heq]
  · intro hne
    rw [GAVL.remove, remove_go_eq_none cmp v _ hne]

theorem icmp_swo : IsSWO icmp := by
  refine ⟨fun a b => ?_, fun a b c => ?_, fun a b c => ?_⟩ <;> simp [icmp] <;> omega

/-- A concrete populated container for witnesses. -/
def gW : GAVL Int := build [3, 1, 4]

/-- Witness for C4 at a concrete state: inserting the present value 3 and
removing the absent value 9 both leave the container untouched. -/
theorem c4_witness : GAVL.insert icmp 3 gW = gW ∧ GAVL.remove icmp 9 gW = gW :=
  ⟨(c4_duplicate_insert_absent_remove_noop icmp 3 gW icmp_swo
      (by show (Tree.inorder gW.root).Pairwise (fun a b => icmp a b < 0); decide)).1
      (by decide),
   (c4_duplicate_insert_absent_remove_noop icmp 9 gW icmp_swo
      (by show (Tree.inorder gW.root).Pairwise (fun a b => icmp a b < 0); decide)).2
      (by decide)⟩

/-- C9. Whenever `parent`, `search`, `search_before` or `search_after` reports
not-found (returns `false`), the caller-supplied output reference is left
unchanged: every `return false` path of the source assigns nothing to `ref`. -/
theorem c9_notfound_leaves_ref (cmp : T → T → Int) (v : T) (t : Tree T) (ref : T)
    (cond : T → Bool) :
    ((parent cmp v t ref).1 = false → (parent cmp v t ref).2 = ref) ∧
    ((search cmp v t ref).1 = false → (search cmp v t ref).2 = ref) ∧
    ((search_before cmp v cond t ref).1 = false → (search_before cmp v cond t ref).2 = ref) ∧
    ((search_after cmp v cond t ref).1 = false → (search_after cmp v cond t ref).2 = ref) := by
  refine ⟨?_, ?_, ?_, ?_⟩
  · cases hp : parent_go cmp v t none <;> simp [parent, hp]
  · cases hp : findT cmp v t <;> simp [search, hp]
  · cases hp : search_before_opt cmp v cond t <;> simp [search_before, hp]
  · cases hp : search_after_opt cmp v cond t <;> simp [search_after, hp]

/-- Witness for C9 at a concrete state: all four queries fail on value 5 over
the tree {3} (for `parent`, 3 is the root) and leave the reference 99 alone. -/
theorem c9_witness :
    (parent icmp 3 gW.root 99).2 = 99 ∧ (search icmp 9 gW.root 99).2 = 99 ∧
    (search_before icmp 1 (fun _ => true) gW.root 99).2 = 99 ∧
    (search_after icmp 4 (fun _ => true) gW.root 99).2 = 99 :=
  ⟨(c9_notfound_leaves_ref icmp 3 gW.root 99 (fun _ => true)).1 (by decide),
   (c9_notfound_leaves_ref icmp 9 gW.root 99 (fun _ => true)).2.1 (by decide),
   (c9_notfound_leaves_ref icmp 1 gW.root 99 (fun _ => true)).2.2.1 (by
      rw [search_before, search_before_opt_eq]
      decide),
   (c9_notfound_leaves_ref icmp 4 gW.root 99 (fun _ => true)).2.2.2 (by
      rw [search_after, search_after_opt_eq]
      decide)⟩

/-- The smallest container exhibiting the `search_neighbors` found-flag defect:
insert 5 then 8, so the root 5 has only a right child 8. -/
def tBug : Tree Int := (GAVL.insert icmp 8 (GAVL.insert icmp 5 GAVL.empty)).root

/-- C7 (code bug, acknowledged by the spec's §9 "Open question"): on the tree
{5 → right 8}, `search_neighbors(5, always-true)` with an empty result map takes
the exact-match path, inserts `Equal ↦ 5`, and then — since the match is the
root with no left child — returns `false` at line 355 without ever running the
after-block. The result map is non-empty (one entry was found) and
`search_after(5)` would have found 8, so both the boolean ("true iff at least
one entry found") and the After entry promised by the claim are wrong. -/
theorem c7_neighbors_found_flag_bug :
    search_neighbors icmp 5 (fun _ => true) tBug NMap.empty
        = (false, { before := none, equal := some 5, after := none })
      ∧ 0 < NMap.size ({ before := none, equal := some 5, after := none } : NMap Int)
      ∧ search_after_opt icmp 5 (fun _ => true) tBug = some 8 := by
  refine ⟨by decide, by decide, ?_⟩
  rw [search_after_opt_eq]
  decide

theorem avlBal_node_iff (l : Tree T) (x : T) (bf : Int) (r : Tree T) :
    avlBal (Tree.node l x bf r) = true
      ↔ avlBal l = true ∧ avlBal r = true
        ∧ bf = (Tree.height r : Int) - (Tree.height l : Int) ∧ bf.natAbs ≤ 1 := by
  simp [avlBal]
  tauto

theorem height_eq_zero_iff (t : Tree T) : Tree.height t = 0 ↔ t = Tree.nil := by
  cases t <;> simp [Tree.height]

/-- `rotate_right` restores balance when the left child `Z` is two higher than
`r` and not right-leaning: both cases (`bz = 0`, only from deletion, and
`bz = -1`) give a correct AVL subtree whose in-order sequence is preserved,
with the height depending on `bz`. -/
theorem rotate_right_spec (a : Tree T) (z : T) (bz : Int) (b : Tree T) (x : T)
    (r : Tree T) (hZ : avlBal (Tree.node a z bz b) = true) (hr : avlBal r = true)
    (hh : Tree.height (Tree.node a z bz b) = Tree.height r + 2) (hbz : bz ≤ 0) :
    avlBal (rotate_right (Tree.node a z bz b) x r) = true
    ∧ Tree.height (rotate_right (Tree.node a z bz b) x r)
        = (if bz = 0 then Tree.height r + 3 else Tree.height r + 2)
    ∧ Tree.inorder (rotate_right (Tree.node a z bz b) x r)
        = (Tree.inorder a ++ z :: Tree.inorder b) ++ x :: Tree.inorder r := by
  rw [avlBal_node_iff] at hZ
  obtain ⟨ha, hb, hbf, habs⟩ := hZ
  simp only [Tree.height] at hh
  have hha : Tree.height a = Tree.height r + 1 := by omega
  have hhb : (Tree.height b : Int) = Tree.height r + 1 + bz := by omega
  rw [rotate_right]
  by_cases h0 : bz = 0
  · rw [if_pos h0]
    refine ⟨?_, ?_, ?_⟩
    · rw [avlBal_node_iff]
      refine ⟨ha, ?_, by simp [Tree.height]; omega, by simp⟩
      rw [avlBal_node_iff]
      exact ⟨hb, hr, by omega, by omega⟩
    · simp [Tree.height, h0]
      omega
    · simp [Tree.inorder]
  · rw [if_neg h0]
    refine ⟨?_, ?_, ?_⟩
    · rw [avlBal_node_iff]
      refine ⟨ha, ?_, by simp [Tree.height]; omega, by simp⟩
      rw [avlBal_node_iff]
      exact ⟨hb, hr, by omega, by omega⟩
    · simp [Tree.height, if_neg h0]
      omega
    · simp [Tree.inorder]

/-- `rotate_left` restores balance when the right child `Z` is two higher than
`l` and not left-leaning; mirror of `rotate_right_spec`. -/
theorem rotate_left_spec (l : Tree T) (x : T) (a : Tree T) (z : T) (bz : Int)
    (b : Tree T) (hZ : avlBal (Tree.node a z bz b) = true) (hl : avlBal l = true)
    (hh : Tree.height (Tree.node a z bz b) = Tree.height l + 2) (hbz : 0 ≤ bz) :
    avlBal (rotate_left l x (Tree.node a z bz b)) = true
    ∧ Tree.height (rotate_left l x (Tree.node a z bz b))
        = (if bz = 0 then Tree.height l + 3 else Tree.height l + 2)
    ∧ Tree.inorder (rotate_left l x (Tree.node a z bz b))
        = Tree.inorder l ++ x :: (Tree.inorder a ++ z :: Tree.inorder b) := by
  rw [avlBal_node_iff] at hZ
  obtain ⟨ha, hb, hbf, habs⟩ := hZ
  simp only [Tree.height] at hh
  have hhb : Tree.height b = Tree.height l + 1 := by omega
  have hha : (Tree.height a : Int) = Tree.height l + 1 - bz := by omega
  rw [rotate_left]
  by_cases h0 : bz = 0
  · rw [if_pos h0]
    refine ⟨?_, ?_, ?_⟩
    · rw [avlBal_node_iff]
      refine ⟨?_, hb, by simp [Tree.height]; omega, by simp⟩
      rw [avlBal_node_iff]
      exact ⟨hl, ha, by omega, by omega⟩
    · simp [Tree.height, h0]
      omega
    · simp [Tree.inorder]
  · rw [if_neg h0]
    refine ⟨?_, ?_, ?_⟩
    · rw [avlBal_node_iff]
      refine ⟨?_, hb, by simp [Tree.height]; omega, by simp⟩
      rw [avlBal_node_iff]
      exact ⟨hl, ha, by omega, by omega⟩
    · simp [Tree.height, if_neg h0]
      omega
    · simp [Tree.inorder]

/-- `rotate_left_right` restores balance when the left child `Z` is two higher
than `r` and right-leaning (`bz = 1`): the inner grandchild `Y` becomes the
root, the height always comes out at `height r + 2`, and the in-order sequence
is preserved. -/
theorem rotate_left_right_spec (t1 : Tree T) (z : T) (bz : Int) (Y : Tree T)
    (x : T) (r : Tree T) (hZ : avlBal (Tree.node t1 z bz Y) = true)
    (hr : avlBal r = true)
    (hh : Tree.height (Tree.node t1 z bz Y) = Tree.height r + 2) (hbz : bz = 1) :
    avlBal (rotate_left_right (Tree.node t1 z bz Y) x r) = true
    ∧ Tree.height (rotate_left_right (Tree.node t1 z bz Y) x r) = Tree.height r + 2
    ∧ Tree.inorder (rotate_left_right (Tree.node t1 z bz Y) x r)
        = (Tree.inorder t1 ++ z :: Tree.inorder Y) ++ x :: Tree.inorder r := by
  rw [avlBal_node_iff] at hZ
  obtain ⟨ht1, hY, hbf, habs⟩ := hZ
  simp only [Tree.height] at hh
  have hhY : Tree.height Y = Tree.height r + 1 := by omega
  have hht1 : Tree.height t1 = Tree.height r := by omega
  cases Y with
  | nil => simp [Tree.height] at hhY
  | node t3 y bY t2 =>
    rw [avlBal_node_iff] at hY
    obtain ⟨ht3, ht2, hbfY, habsY⟩ := hY
    simp only [Tree.height] at hhY
    rw [rotate_left_right]
    by_cases hY1 : bY < 0
    · rw [if_pos hY1]
      refine ⟨?_, ?_, ?_⟩
      · rw [avlBal_node_iff]
        refine ⟨?_, ?_, ?_, by simp⟩
        · rw [avlBal_node_iff]
          exact ⟨ht1, ht3, by omega, by omega⟩
        · rw [avlBal_node_iff]
          exact ⟨ht2, hr, by omega, by omega⟩
        · simp [Tree.height]
          omega
      · simp [Tree.height]
        omega
      · simp [Tree.inorder]
    · by_cases hY0 : bY = 0
      · rw [if_neg hY1, if_pos hY0]
        refine ⟨?_, ?_, ?_⟩
        · rw [avlBal_node_iff]
          refine ⟨?_, ?_, ?_, by simp⟩
          · rw [avlBal_node_iff]
            exact ⟨ht1, ht3, by omega, by omega⟩
          · rw [avlBal_node_iff]
            exact ⟨ht2, hr, by omega, by omega⟩
          · simp [Tree.height]
            omega
        · simp [Tree.height]
          omega
        · simp [Tree.inorder]
      · rw [if_neg hY1, if_neg hY0]
        refine ⟨?_, ?_, ?_⟩
        · rw [avlBal_node_iff]
          refine ⟨?_, ?_, ?_, by simp⟩
          · rw [avlBal_node_iff]
            exact ⟨ht1, ht3, by omega, by omega⟩
          · rw [avlBal_node_iff]
            exact ⟨ht2, hr, by omega, by omega⟩
          · simp [Tree.height]
            omega
        · simp [Tree.height]
          omega
        · simp [Tree.inorder]

/-- `rotate_right_left` restores balance when the right child `Z` is two higher
than `l` and left-leaning (`bz = -1`); mirror of `rotate_left_right_spec`. -/
theorem rotate_right_left_spec (l : Tree T) (x : T) (Y : Tree T) (z : T)
    (bz : Int) (t4 : Tree T) (hZ : avlBal (Tree.node Y z bz t4) = true)
    (hl : avlBal l = true)
    (hh : Tree.height (Tree.node Y z bz t4) = Tree.height l + 2) (hbz : bz = -1) :
    avlBal (rotate_right_left l x (Tree.node Y z bz t4)) = true
    ∧ Tree.height (rotate_right_left l x (Tree.node Y z bz t4)) = Tree.height l + 2
    ∧ Tree.inorder (rotate_right_left l x (Tree.node Y z bz t4))
        = Tree.inorder l ++ x :: (Tree.inorder Y ++ z :: Tree.inorder t4) := by
  rw [avlBal_node_iff] at hZ
  obtain ⟨hY, ht4, hbf, habs⟩ := hZ
  simp only [Tree.height] at hh
  have hhY : Tree.height Y = Tree.height l + 1 := by omega
  have hht4 : Tree.height t4 = Tree.height l := by omega
  cases Y with
  | nil => simp [Tree.height] at hhY
  | node t2 y bY t3 =>
    rw [avlBal_node_iff] at hY
    obtain ⟨ht2, ht3, hbfY, habsY⟩ := hY
    simp only [Tree.height] at hhY
    rw [rotate_right_left]
    by_cases hY1 : bY > 0
    · rw [if_pos hY1]
      refine ⟨?_, ?_, ?_⟩
      · rw [avlBal_node_iff]
        refine ⟨?_, ?_, ?_, by simp⟩
        · rw [avlBal_node_iff]
          exact ⟨hl, ht2, by omega, by omega⟩
        · rw [avlBal_node_iff]
          exact ⟨ht3, ht4, by omega, by omega⟩
        · simp [Tree.height]
          omega
      · simp [Tree.height]
        omega
      · simp [Tree.inorder]
    · by_cases hY0 : bY = 0
      · rw [if_neg hY1, if_pos hY0]
        refine ⟨?_, ?_, ?_⟩
        · rw [avlBal_node_iff]
          refine ⟨?_, ?_, ?_, by simp⟩
          · rw [avlBal_node_iff]
            exact ⟨hl, ht2, by omega, by omega⟩
          · rw [avlBal_node_iff]
            exact ⟨ht3, ht4, by omega, by omega⟩
          · simp [Tree.height]
            omega
        · simp [Tree.height]
          omega
        · simp [Tree.inorder]
      · rw [if_neg hY1, if_neg hY0]
        refine ⟨?_, ?_, ?_⟩
        · rw [avlBal_node_iff]
          refine ⟨?_, ?_, ?_, by simp⟩
          · rw [avlBal_node_iff]
            exact ⟨hl, ht2, by omega, by omega⟩
          · rw [avlBal_node_iff]
            exact ⟨ht3, ht4, by omega, by omega⟩
          · simp [Tree.height]
            omega
        · simp [Tree.height]
          omega
        · simp [Tree.inorder]

theorem pairwise_mid {R : T → T → Prop} (A : List T) (x : T) (B : List T) :
    (A ++ x :: B).Pairwise R
      ↔ A.Pairwise R ∧ B.Pairwise R ∧ (∀ a ∈ A, R a x) ∧ (∀ b ∈ B, R x b)
        ∧ (∀ a ∈ A, ∀ b ∈ B, R a b) := by
  simp only [List.pairwise_append, List.pairwise_cons, List.mem_cons]
  constructor
  · rintro ⟨hA, ⟨hx, hB⟩, hcross⟩
    refine ⟨hA, hB, fun a ha => hcross a ha x (Or.inl rfl), hx, ?_⟩
    intro a ha b hb
    exact hcross a ha b (Or.inr hb)
  · rintro ⟨hA, hB, hAx, hxB, hcross⟩
    refine ⟨hA, ⟨hxB, hB⟩, ?_⟩
    rintro a ha b (rfl | hb)
    · exact hAx a ha
    · exact hcross a ha b hb

theorem perm_mid_left {il ir il1 : List T} {v x : T} (h : il1.Perm (v :: il)) :
    (il1 ++ x :: ir).Perm (v :: (il ++ x :: ir)) :=
  h.append_right (x :: ir)

theorem perm_mid_right {il ir ir1 : List T} {v x : T} (h : ir1.Perm (v :: ir)) :
    (il ++ x :: ir1).Perm (v :: (il ++ x :: ir)) := by
  have h1 : (il ++ x :: ir1).Perm (il ++ x :: v :: ir) := ((h.cons x).append_left il)
  have h2 : (il ++ x :: v :: ir).Perm (v :: (il ++ x :: ir)) := by
    have h3 := @List.perm_middle T v (il ++ [x]) ir
    simpa using h3
  exact h1.trans h2

/-- Inserting a value smaller than the pivot on the left preserves the strict
chain around the pivot. -/
theorem sorted_list_insert_left {cmp : T → T → Int} (hsw : IsSWO cmp)
    {il ir il1 : List T} {v x : T}
    (hst : (il ++ x :: ir).Pairwise (fun a b => cmp a b < 0))
    (hs1 : il1.Pairwise (fun a b => cmp a b < 0))
    (hp : il1.Perm (v :: il)) (h1 : cmp v x < 0) :
    (il1 ++ x :: ir).Pairwise (fun a b => cmp a b < 0) := by
  rw [pairwise_mid] at hst ⊢
  obtain ⟨hA, hB, hAx, hxB, hcross⟩ := hst
  have hmem : ∀ a ∈ il1, a = v ∨ a ∈ il :=
    fun a ha => List.mem_cons.mp (hp.mem_iff.mp ha)
  refine ⟨hs1, hB, ?_, hxB, ?_⟩
  · intro a ha
    rcases hmem a ha with rfl | ha2
    · exact h1
    · exact hAx a ha2
  · intro a ha b hb
    rcases hmem a ha with rfl | ha2
    · exact hsw.lt_trans a x b h1 (hxB b hb)
    · exact hcross a ha2 b hb

/-- Inserting a value greater than the pivot on the right preserves the strict
chain around the pivot. -/
theorem sorted_list_insert_right {cmp : T → T → Int} (hsw : IsSWO cmp)
    {il ir ir1 : List T} {v x : T}
    (hst : (il ++ x :: ir).Pairwise (fun a b => cmp a b < 0))
    (hs1 : ir1.Pairwise (fun a b => cmp a b < 0))
    (hp : ir1.Perm (v :: ir)) (h1 : 0 < cmp v x) :
    (il ++ x :: ir1).Pairwise (fun a b => cmp a b < 0) := by
  have hxv : cmp x v < 0 := hsw.gt_flip v x h1
  rw [pairwise_mid] at hst ⊢
  obtain ⟨hA, hB, hAx, hxB, hcross⟩ := hst
  have hmem : ∀ b ∈ ir1, b = v ∨ b ∈ ir :=
    fun b hb => List.mem_cons.mp (hp.mem_iff.mp hb)
  refine ⟨hA, hs1, hAx, ?_, ?_⟩
  · intro b hb
    rcases hmem b hb with rfl | hb2
    · exact hxv
    · exact hxB b hb2
  · intro a ha b hb
    rcases hmem b hb with rfl | hb2
    · exact hsw.lt_trans a x b (hAx a ha) hxv
    · exact hcross a ha b hb2

/-- The master specification of `insert` with retracing. For any comparator,
on a balance-correct tree, a completed insertion yields a balance-correct tree
whose height grew exactly when the flag says so; the stored multiset gains `v`;
when the comparator is a strict weak ordering the BST ordering is preserved;
and a grown non-trivial subtree never reports balance factor 0. -/
theorem insert_go_spec (cmp : T → T → Int) (v : T) :
    ∀ (t t' : Tree T) (g : Bool), avlBal t = true → insert_go cmp v t = some (t', g) →
      avlBal t' = true
      ∧ Tree.height t' = (if g then Tree.height t + 1 else Tree.height t)
      ∧ (Tree.inorder t').Perm (v :: Tree.inorder t)
      ∧ (IsSWO cmp → SortedT cmp t → SortedT cmp t')
      ∧ (t ≠ Tree.nil → g = true → Tree.bfOf t' ≠ 0) := by
  intro t
  induction t with
  | nil =>
    intro t' g hbal hins
    rw [insert_go] at hins
    simp only [Option.some_inj, Prod.mk.injEq] at hins
    obtain ⟨rfl, rfl⟩ := hins
    refine ⟨by simp [avlBal, Tree.height], by simp [Tree.height], by simp [Tree.inorder], ?_, ?_⟩
    · intro _ _
      simp [SortedT, Tree.inorder]
    · intro hne _
      exact absurd rfl hne
  | node l x bf r ihl ihr =>
    intro t' g hbal hins
    have hbal0 := hbal
    rw [avlBal_node_iff] at hbal0
    obtain ⟨hal, har, hbf, habs⟩ := hbal0
    by_cases h1 : cmp v x < 0
    · rw [insert_go_lt cmp v l x bf r h1] at hins
      rcases hrec : insert_go cmp v l with _ | ⟨l1, grew⟩
      · rw [hrec] at hins
        simp at hins
      · rw [hrec] at hins
        obtain ⟨ha1, hh1, hp1, hs1, hb1⟩ := ihl l1 grew hal hrec
        cases grew with
        | false =>
          simp only [if_neg (by simp : ¬ (false = true)), Option.some_inj,
            Prod.mk.injEq] at hins
          obtain ⟨rfl, rfl⟩ := hins
          simp only [if_neg (by simp : ¬ (false = true))] at hh1
          refine ⟨?_, ?_, ?_, ?_, ?_⟩
          · rw [avlBal_node_iff]
            exact ⟨ha1, har, by rw [hh1]; exact hbf, habs⟩
          · simp [Tree.height, hh1]
          · simp only [Tree.inorder]
            exact perm_mid_left hp1
          · intro hsw hst
            simp only [SortedT, Tree.inorder] at hst ⊢
            exact sorted_list_insert_left hsw hst (hs1 hsw (by
              rw [SortedT]
              exact ((pairwise_mid _ _ _).mp hst).1)) hp1 h1
          · intro _ hg
            exact absurd hg (by simp)
        | true =>
          simp only [if_pos rfl, if_true] at hins
          replace hh1 : Tree.height l1 = Tree.height l + 1 := by simpa using hh1
          rw [retrace_ins_left] at hins
          by_cases hb0 : bf < 0
          · have hbfm1 : bf = -1 := by omega
            have hlne : l ≠ Tree.nil := by
              intro hc
              subst hc
              simp [Tree.height] at hbf
              omega
            have hbfl1 : Tree.bfOf l1 ≠ 0 := hb1 hlne rfl
            have hhl : Tree.height l = Tree.height r + 1 := by omega
            have hhl1 : Tree.height l1 = Tree.height r + 2 := by omega
            cases l1 with
            | nil => simp [Tree.height] at hhl1
            | node a z bz b =>
              have hbz : bz = Tree.bfOf (Tree.node a z bz b) := rfl
              have habs1 : bz.natAbs ≤ 1 := ((avlBal_node_iff a z bz b).mp ha1).2.2.2
              rw [if_pos hb0] at hins
              by_cases hzpos : Tree.bfOf (Tree.node a z bz b) > 0
              · rw [if_pos hzpos] at hins
                simp only [Option.some_inj, Prod.mk.injEq] at hins
                obtain ⟨rfl, rfl⟩ := hins
                obtain ⟨hA, hH, hI⟩ := rotate_left_right_spec a z bz b x r ha1 har hhl1
                  (by simp only [Tree.bfOf] at hzpos; omega)
                refine ⟨hA, ?_, ?_, ?_, ?_⟩
                · rw [hH]
                  simp [Tree.height]
                  omega
                · rw [hI]
                  exact perm_mid_left (by simpa [Tree.inorder] using hp1)
                · intro hsw hst
                  rw [SortedT, hI]
                  simp only [SortedT, Tree.inorder] at hst
                  exact sorted_list_insert_left hsw hst (by
                    have := hs1 hsw (by
                      rw [SortedT]
                      exact ((pairwise_mid _ _ _).mp hst).1)
                    simpa [SortedT, Tree.inorder] using this)
                    (by simpa [Tree.inorder] using hp1) h1
                · intro _ hg
                  exact absurd hg (by simp)
              · rw [if_neg hzpos] at hins
                simp only [Option.some_inj, Prod.mk.injEq] at hins
                obtain ⟨rfl, rfl⟩ := hins
                have hbzneg : bz = -1 := by
                  simp only [Tree.bfOf] at hzpos hbfl1
                  omega
                obtain ⟨hA, hH, hI⟩ := rotate_right_spec a z bz b x r ha1 har hhl1
                  (by omega)
                refine ⟨hA, ?_, ?_, ?_, ?_⟩
                · rw [hH]
                  simp [Tree.height, hbzneg]
                  omega
                · rw [hI]
                  exact perm_mid_left (by simpa [Tree.inorder] using hp1)
                · intro hsw hst
                  rw [SortedT, hI]
                  simp only [SortedT, Tree.inorder] at hst
                  exact sorted_list_insert_left hsw hst (by
                    have := hs1 hsw (by
                      rw [SortedT]
                      exact ((pairwise_mid _ _ _).mp hst).1)
                    simpa [SortedT, Tree.inorder] using this)
                    (by simpa [Tree.inorder] using hp1) h1
                · intro _ hg
                  exact absurd hg (by simp)
          · by_cases hbpos : bf > 0
            · rw [if_neg hb0, if_pos hbpos] at hins
              simp only [Option.some_inj, Prod.mk.injEq] at hins
              obtain ⟨rfl, rfl⟩ := hins
              have hbfp1 : bf = 1 := by omega
              refine ⟨?_, ?_, ?_, ?_, ?_⟩
              · rw [avlBal_node_iff]
                exact ⟨ha1, har, by omega, by omega⟩
              · simp [Tree.height]
                omega
              · simp only [Tree.inorder]
                exact perm_mid_left hp1
              · intro hsw hst
                simp only [SortedT, Tree.inorder] at hst ⊢
                exact sorted_list_insert_left hsw hst (hs1 hsw (by
                  rw [SortedT]
                  exact ((pairwise_mid _ _ _).mp hst).1)) hp1 h1
              · intro _ hg
                exact absurd hg (by simp)
            · rw [if_neg hb0, if_neg hbpos] at hins
              simp only [Option.some_inj, Prod.mk.injEq] at hins
              obtain ⟨rfl, rfl⟩ := hins
              have hbf0 : bf = 0 := by omega
              refine ⟨?_, ?_, ?_, ?_, ?_⟩
              · rw [avlBal_node_iff]
                exact ⟨ha1, har, by omega, by omega⟩
              · simp [Tree.height]
                omega
              · simp only [Tree.inorder]
                exact perm_mid_left hp1
              · intro hsw hst
                simp only [SortedT, Tree.inorder] at hst ⊢
                exact sorted_list_insert_left hsw hst (hs1 hsw (by
                  rw [SortedT]
                  exact ((pairwise_mid _ _ _).mp hst).1)) hp1 h1
              · intro _ _
                simp [Tree.bfOf]
    · by_cases h2 : cmp v x = 0
      · rw [insert_go_eq cmp v l x bf r h2] at hins
        simp at hins
      · rw [insert_go_gt cmp v l x bf r h1 h2] at hins
        rcases hrec : insert_go cmp v r with _ | ⟨r1, grew⟩
        · rw [hrec] at hins
          simp at hins
        · rw [hrec] at hins
          obtain ⟨ha1, hh1, hp1, hs1, hb1⟩ := ihr r1 grew har hrec
          cases grew with
          | false =>
            simp only [if_neg (by simp : ¬ (false = true)), Option.some_inj,
              Prod.mk.injEq] at hins
            obtain ⟨rfl, rfl⟩ := hins
            simp only [if_neg (by simp : ¬ (false = true))] at hh1
            refine ⟨?_, ?_, ?_, ?_, ?_⟩
            · rw [avlBal_node_iff]
              exact ⟨hal, ha1, by rw [hh1]; exact hbf, habs⟩
            · simp [Tree.height, hh1]
            · simp only [Tree.inorder]
              exact perm_mid_right hp1
            · intro hsw hst
              simp only [SortedT, Tree.inorder] at hst ⊢
              exact sorted_list_insert_right hsw hst (hs1 hsw (by
                rw [SortedT]
                exact ((pairwise_mid _ _ _).mp hst).2.1)) hp1 (by omega)
            · intro _ hg
              exact absurd hg (by simp)
          | true =>
            simp only [if_pos rfl, if_true] at hins
            replace hh1 : Tree.height r1 = Tree.height r + 1 := by simpa using hh1
            rw [retrace_ins_right] at hins
            by_cases hb0 : bf > 0
            · have hbfp1 : bf = 1 := by omega
              have hrne : r ≠ Tree.nil := by
                intro hc
                subst hc
                simp [Tree.height] at hbf
                omega
              have hbfr1 : Tree.bfOf r1 ≠ 0 := hb1 hrne rfl
              have hhr : Tree.height r = Tree.height l + 1 := by omega
              have hhr1 : Tree.height r1 = Tree.height l + 2 := by omega
              cases r1 with
              | nil => simp [Tree.height] at hhr1
              | node a z bz b =>
                have habs1 : bz.natAbs ≤ 1 := ((avlBal_node_iff a z bz b).mp ha1).2.2.2
                rw [if_pos hb0] at hins
                by_cases hzneg : Tree.bfOf (Tree.node a z bz b) < 0
                · rw [if_pos hzneg] at hins
                  simp only [Option.some_inj, Prod.mk.injEq] at hins
                  obtain ⟨rfl, rfl⟩ := hins
                  obtain ⟨hA, hH, hI⟩ := rotate_right_left_spec l x a z bz b ha1 hal hhr1
                    (by simp only [Tree.bfOf] at hzneg; omega)
                  refine ⟨hA, ?_, ?_, ?_, ?_⟩
                  · rw [hH]
                    simp [Tree.height]
                    omega
                  · rw [hI]
                    exact perm_mid_right (by simpa [Tree.inorder] using hp1)
                  · intro hsw hst
                    rw [SortedT, hI]
                    simp only [SortedT, Tree.inorder] at hst
                    exact sorted_list_insert_right hsw hst (by
                      have := hs1 hsw (by
                        rw [SortedT]
                        exact ((pairwise_mid _ _ _).mp hst).2.1)
                      simpa [SortedT, Tree.inorder] using this)
                      (by simpa [Tree.inorder] using hp1) (by omega)
                  · intro _ hg
                    exact absurd hg (by simp)
                · rw [if_neg hzneg] at hins
                  simp only [Option.some_inj, Prod.mk.injEq] at hins
                  obtain ⟨rfl, rfl⟩ := hins
                  have hbzpos : bz = 1 := by
                    simp only [Tree.bfOf] at hzneg hbfr1
                    omega
                  obtain ⟨hA, hH, hI⟩ := rotate_left_spec l x a z bz b ha1 hal hhr1
                    (by omega)
                  refine ⟨hA, ?_, ?_, ?_, ?_⟩
                  · rw [hH]
                    simp [Tree.height, hbzpos]
                    omega
                  · rw [hI]
                    exact perm_mid_right (by simpa [Tree.inorder] using hp1)
                  · intro hsw hst
                    rw [SortedT, hI]
                    simp only [SortedT, Tree.inorder] at hst
                    exact sorted_list_insert_right hsw hst (by
                      have := hs1 hsw (by
                        rw [SortedT]
                        exact ((pairwise_mid _ _ _).mp hst).2.1)
                      simpa [SortedT, Tree.inorder] using this)
                      (by simpa [Tree.inorder] using hp1) (by omega)
                  · intro _ hg
                    exact absurd hg (by simp)
            · by_cases hbneg : bf < 0
              · rw [if_neg hb0, if_pos hbneg] at hins
                simp only [Option.some_inj, Prod.mk.injEq] at hins
                obtain ⟨rfl, rfl⟩ := hins
                have hbfm1 : bf = -1 := by omega
                refine ⟨?_, ?_, ?_, ?_, ?_⟩
                · rw [avlBal_node_iff]
                  exact ⟨hal, ha1, by omega, by omega⟩
                · simp [Tree.height]
                  omega
                · simp only [Tree.inorder]
                  exact perm_mid_right hp1
                · intro hsw hst
                  simp only [SortedT, Tree.inorder] at hst ⊢
                  exact sorted_list_insert_right hsw hst (hs1 hsw (by
                    rw [SortedT]
                    exact ((pairwise_mid _ _ _).mp hst).2.1)) hp1 (by omega)
                · intro _ hg
                  exact absurd hg (by simp)
              · rw [if_neg hb0, if_neg hbneg] at hins
                simp only [Option.some_inj, Prod.mk.injEq] at hins
                obtain ⟨rfl, rfl⟩ := hins
                have hbf0 : bf = 0 := by omega
                refine ⟨?_, ?_, ?_, ?_, ?_⟩
                · rw [avlBal_node_iff]
                  exact ⟨hal, ha1, by omega, by omega⟩
                · simp [Tree.height]
                  omega
                · simp only [Tree.inorder]
                  exact perm_mid_right hp1
                · intro hsw hst
                  simp only [SortedT, Tree.inorder] at hst ⊢
                  exact sorted_list_insert_right hsw hst (hs1 hsw (by
                    rw [SortedT]
                    exact ((pairwise_mid _ _ _).mp hst).2.1)) hp1 (by omega)
                · intro _ _
                  simp [Tree.bfOf]

/-- The retrace step after a left-subtree height decrease: on balance-correct
inputs whose old left height was `height l1 + 1`, the result is balance-correct,
the flag tells exactly whether the subtree height decreased, and the in-order
sequence is untouched. -/
theorem retrace_rem_left_spec (l1 : Tree T) (x : T) (bf : Int) (r : Tree T)
    (hl1 : avlBal l1 = true) (hr : avlBal r = true)
    (hbf : bf = (Tree.height r : Int) - (Tree.height l1 + 1)) (habs : bf.natAbs ≤ 1) :
    avlBal (retrace_rem_left l1 x bf r).1 = true
    ∧ 1 + max (Tree.height l1 + 1) (Tree.height r)
        = (if (retrace_rem_left l1 x bf r).2 then Tree.height (retrace_rem_left l1 x bf r).1 + 1
           else Tree.height (retrace_rem_left l1 x bf r).1)
    ∧ Tree.inorder (retrace_rem_left l1 x bf r).1 = Tree.inorder l1 ++ x :: Tree.inorder r := by
  by_cases hb0 : bf > 0
  · have hbfp : bf = 1 := by omega
    have hhr : Tree.height r = Tree.height l1 + 2 := by omega
    cases r with
    | nil => simp [Tree.height] at hhr
    | node c zz bzz d =>
      have habsz : bzz.natAbs ≤ 1 := ((avlBal_node_iff c zz bzz d).mp hr).2.2.2
      have hbofz : Tree.bfOf (Tree.node c zz bzz d) = bzz := rfl
      rw [retrace_rem_left]
      simp only [if_pos hb0, hbofz]
      by_cases hz : bzz < 0
      · have hbzz : bzz = -1 := by omega
        subst hbzz
        obtain ⟨hA, hH, hI⟩ := rotate_right_left_spec l1 x c zz (-1) d hr hl1 hhr rfl
        rw [if_pos hz]
        refine ⟨hA, ?_, by simpa [Tree.inorder] using hI⟩
        rw [hH]
        simp [hhr]
        omega
      · by_cases hz0 : bzz = 0
        · subst hz0
          obtain ⟨hA, hH, hI⟩ := rotate_left_spec l1 x c zz 0 d hr hl1 hhr le_rfl
          rw [if_neg hz]
          refine ⟨hA, ?_, by simpa [Tree.inorder] using hI⟩
          simp at hH
          rw [hH]
          simp [hhr]
          omega
        · have hbzz : bzz = 1 := by omega
          subst hbzz
          obtain ⟨hA, hH, hI⟩ := rotate_left_spec l1 x c zz 1 d hr hl1 hhr (by omega)
          rw [if_neg hz]
          refine ⟨hA, ?_, by simpa [Tree.inorder] using hI⟩
          simp only [if_neg (by omega : ¬ (1:Int) = 0)] at hH
          rw [hH]
          simp [hhr]
          omega
  · by_cases hb1 : bf = 0
    · rw [retrace_rem_left]
      simp only [if_neg hb0, if_pos hb1]
      refine ⟨?_, ?_, by simp [Tree.inorder]⟩
      · rw [avlBal_node_iff]
        exact ⟨hl1, hr, by omega, by omega⟩
      · simp [Tree.height]
        omega
    · rw [retrace_rem_left]
      simp only [if_neg hb0, if_neg hb1]
      refine ⟨?_, ?_, by simp [Tree.inorder]⟩
      · rw [avlBal_node_iff]
        exact ⟨hl1, hr, by omega, by omega⟩
      · simp [Tree.height]
        omega

/-- The retrace step after a right-subtree height decrease; mirror of
`retrace_rem_left_spec`. -/
theorem retrace_rem_right_spec (l : Tree T) (x : T) (bf : Int) (r1 : Tree T)
    (hl : avlBal l = true) (hr1 : avlBal r1 = true)
    (hbf : bf = (Tree.height r1 + 1 : Int) - Tree.height l) (habs : bf.natAbs ≤ 1) :
    avlBal (retrace_rem_right l x bf r1).1 = true
    ∧ 1 + max (Tree.height l) (Tree.height r1 + 1)
        = (if (retrace_rem_right l x bf r1).2 then Tree.height (retrace_rem_right l x bf r1).1 + 1
           else Tree.height (retrace_rem_right l x bf r1).1)
    ∧ Tree.inorder (retrace_rem_right l x bf r1).1 = Tree.inorder l ++ x :: Tree.inorder r1 := by
  by_cases hb0 : bf < 0
  · have hbfm : bf = -1 := by omega
    have hhl : Tree.height l = Tree.height r1 + 2 := by omega
    cases l with
    | nil => simp [Tree.height] at hhl
    | node c zz bzz d =>
      have habsz : bzz.natAbs ≤ 1 := ((avlBal_node_iff c zz bzz d).mp hl).2.2.2
      have hbofz : Tree.bfOf (Tree.node c zz bzz d) = bzz := rfl
      rw [retrace_rem_right]
      simp only [if_pos hb0, hbofz]
      by_cases hz : bzz > 0
      · have hbzz : bzz = 1 := by omega
        subst hbzz
        obtain ⟨hA, hH, hI⟩ := rotate_left_right_spec c zz 1 d x r1 hl hr1 hhl rfl
        rw [if_pos hz]
        refine ⟨hA, ?_, by simpa [Tree.inorder] using hI⟩
        rw [hH]
        simp [hhl]
        omega
      · by_cases hz0 : bzz = 0
        · subst hz0
          obtain ⟨hA, hH, hI⟩ := rotate_right_spec c zz 0 d x r1 hl hr1 hhl le_rfl
          rw [if_neg hz]
          refine ⟨hA, ?_, by simpa [Tree.inorder] using hI⟩
          simp at hH
          rw [hH]
          simp [hhl]
          omega
        · have hbzz : bzz = -1 := by omega
          subst hbzz
          obtain ⟨hA, hH, hI⟩ := rotate_right_spec c zz (-1) d x r1 hl hr1 hhl (by omega)
          rw [if_neg hz]
          refine ⟨hA, ?_, by simpa [Tree.inorder] using hI⟩
          simp only [if_neg (by omega : ¬ (-1:Int) = 0)] at hH
          rw [hH]
          simp [hhl]
          omega
  · by_cases hb1 : bf = 0
    · rw [retrace_rem_right]
      simp only [if_neg hb0, if_pos hb1]
      refine ⟨?_, ?_, by simp [Tree.inorder]⟩
      · rw [avlBal_node_iff]
        exact ⟨hl, hr1, by omega, by omega⟩
      · simp [Tree.height]
        omega
    · rw [retrace_rem_right]
      simp only [if_neg hb0, if_neg hb1]
      refine ⟨?_, ?_, by simp [Tree.inorder]⟩
      · rw [avlBal_node_iff]
        exact ⟨hl, hr1, by omega, by omega⟩
      · simp [Tree.height]
        omega

/-- A completed removal found a comparator-equal stored value. -/
theorem remove_go_mem (cmp : T → T → Int) :
    ∀ (t : Tree T) (v : T) (p : Tree T × Bool), remove_go cmp v t = some p →
      ∃ a ∈ Tree.inorder t, cmp v a = 0 := by
  intro t
  induction t with
  | nil =>
    intro v p h
    simp [remove_go] at h
  | node l x bf r ihl ihr =>
    intro v p h
    by_cases h1 : cmp v x < 0
    · rw [remove_go_lt cmp v l x bf r h1] at h
      rcases hrec : remove_go cmp v l with _ | q
      · rw [hrec] at h
        simp [rem_step_left] at h
      · obtain ⟨a, ha, hq⟩ := ihl v q hrec
        exact ⟨a, by rw [mem_inorder_node]; exact Or.inl ha, hq⟩
    · by_cases h2 : cmp v x = 0
      · exact ⟨x, by rw [mem_inorder_node]; tauto, h2⟩
      · rw [remove_go_gt cmp v l x bf r h1 h2] at h
        rcases hrec : remove_go cmp v r with _ | q
        · rw [hrec] at h
          simp [rem_step_right] at h
        · obtain ⟨a, ha, hq⟩ := ihr v q hrec
          exact ⟨a, by rw [mem_inorder_node]; tauto, hq⟩

/-- The in-order sequence of a nonempty subtree starts with its leftmost value. -/
theorem inorder_leftmost :
    ∀ (t : Tree T) (d : T), t ≠ Tree.nil →
      ∃ rest, Tree.inorder t = leftmost t d :: rest := by
  intro t
  induction t with
  | nil =>
    intro d h
    exact absurd rfl h
  | node l x bf r ihl _ =>
    intro d _
    cases l with
    | nil => exact ⟨Tree.inorder r, by simp [leftmost, Tree.inorder]⟩
    | node a y b c =>
      obtain ⟨rest, hrest⟩ := ihl d (by simp)
      refine ⟨rest ++ x :: Tree.inorder r, ?_⟩
      rw [leftmost]
      rw [show Tree.inorder (Tree.node (Tree.node a y b c) x bf r)
          = Tree.inorder (Tree.node a y b c) ++ x :: Tree.inorder r from rfl, hrest]
      simp

/-- In a strict chain around a pivot Equal to `v`, nothing left of the pivot
compares Equal to `v`. -/
theorem no_eq_in_left_of_eq {cmp : T → T → Int} (hsw : IsSWO cmp) {il ir : List T}
    {x v : T} (hst : (il ++ x :: ir).Pairwise (fun a b => cmp a b < 0))
    (h2 : cmp v x = 0) : ∀ a ∈ il, ¬ (decide (cmp v a = 0) = true) := by
  intro a ha hc
  simp only [decide_eq_true_iff] at hc
  have hax : cmp a x < 0 := ((pairwise_mid il x ir).mp hst).2.2.1 a ha
  have h3 : cmp a v = 0 := hsw.eq_symm v a hc
  have h4 : cmp a x = 0 := hsw.eq_trans a v x h3 h2
  omega

/-- In a strict chain around a pivot strictly less than `v`, nothing up to and
including the pivot compares Equal to `v`. -/
theorem no_eq_in_left_of_gt {cmp : T → T → Int} (hsw : IsSWO cmp) {il ir : List T}
    {x v : T} (hst : (il ++ x :: ir).Pairwise (fun a b => cmp a b < 0))
    (hgt : 0 < cmp v x) : ∀ a ∈ il, ¬ (decide (cmp v a = 0) = true) := by
  intro a ha hc
  simp only [decide_eq_true_iff] at hc
  have hax : cmp a x < 0 := ((pairwise_mid il x ir).mp hst).2.2.1 a ha
  have hxv : cmp x v < 0 := hsw.gt_flip v x hgt
  have h3 : cmp a v < 0 := hsw.lt_trans a x v hax hxv
  have h4 : cmp a v = 0 := hsw.eq_symm v a hc
  omega

/-- The master specification of `remove` with retracing. On a balance-correct
tree a completed removal yields a balance-correct tree whose height decreased
exactly when the flag says so; under the strict-weak-ordering precondition and
the BST ordering the resulting ordered sequence is the old one with exactly the
(unique) Equal-comparing value deleted. -/
theorem remove_go_spec (cmp : T → T → Int) :
    ∀ (t : Tree T) (v : T) (t' : Tree T) (f : Bool), avlBal t = true →
      remove_go cmp v t = some (t', f) →
      avlBal t' = true
      ∧ Tree.height t = (if f then Tree.height t' + 1 else Tree.height t')
      ∧ (IsSWO cmp → SortedT cmp t →
          Tree.inorder t' = (Tree.inorder t).eraseP (fun a => decide (cmp v a = 0))) := by
  intro t
  induction t with
  | nil =>
    intro v t' f hbal hrem
    simp [remove_go] at hrem
  | node l x bf r ihl ihr =>
    intro v t' f hbal hrem
    have hbal0 := hbal
    rw [avlBal_node_iff] at hbal0
    obtain ⟨hal, har, hbf, habs⟩ := hbal0
    by_cases h1 : cmp v x < 0
    · rw [remove_go_lt cmp v l x bf r h1] at hrem
      rcases hrec : remove_go cmp v l with _ | ⟨l1, sh⟩
      · rw [hrec] at hrem
        simp [rem_step_left] at hrem
      · rw [hrec] at hrem
        obtain ⟨ha1, hh1, hi1⟩ := ihl v l1 sh hal hrec
        have hmatch : ∃ a ∈ Tree.inorder l, decide (cmp v a = 0) = true := by
          obtain ⟨a, ha, hq⟩ := remove_go_mem cmp l v (l1, sh) hrec
          exact ⟨a, ha, by simp [hq]⟩
        cases sh with
        | false =>
          simp only [rem_step_left, if_neg (by simp : ¬ (false = true)),
            Option.some_inj, Prod.mk.injEq] at hrem
          obtain ⟨rfl, rfl⟩ := hrem
          replace hh1 : Tree.height l = Tree.height l1 := by simpa using hh1
          refine ⟨?_, ?_, ?_⟩
          · rw [avlBal_node_iff]
            exact ⟨ha1, har, by omega, habs⟩
          · simp [Tree.height, hh1]
          · intro hsw hst
            simp only [SortedT, Tree.inorder] at hst
            obtain ⟨a, ha, hq⟩ := hmatch
            simp only [Tree.inorder]
            have herase : (Tree.inorder l ++ x :: Tree.inorder r).eraseP
                  (fun b => decide (cmp v b = 0))
                = (Tree.inorder l).eraseP (fun b => decide (cmp v b = 0))
                    ++ x :: Tree.inorder r :=
              @List.eraseP_append_left T (fun b => decide (cmp v b = 0)) a hq
                (Tree.inorder l) (x :: Tree.inorder r) ha
            rw [herase, hi1 hsw (by
              rw [SortedT]
              exact ((pairwise_mid _ _ _).mp hst).1)]
        | true =>
          simp only [rem_step_left, if_pos rfl, if_true, Option.some_inj] at hrem
          replace hh1 : Tree.height l = Tree.height l1 + 1 := by simpa using hh1
          rcases hret : retrace_rem_left l1 x bf r with ⟨t2, f2⟩
          rw [hret] at hrem
          obtain ⟨hA, hH, hI⟩ := retrace_rem_left_spec l1 x bf r ha1 har
            (by omega) habs
          rw [hret] at hA hH hI
          simp only at hA hH hI
          injection hrem with he1 he2
          subst he1
          subst he2
          refine ⟨hA, ?_, ?_⟩
          · rw [show Tree.height (Tree.node l x bf r)
                = 1 + max (Tree.height l1 + 1) (Tree.height r) from by
              simp [Tree.height, hh1]]
            exact hH
          · intro hsw hst
            simp only [SortedT, Tree.inorder] at hst
            obtain ⟨a, ha, hq⟩ := hmatch
            simp only [Tree.inorder]
            have herase : (Tree.inorder l ++ x :: Tree.inorder r).eraseP
                  (fun b => decide (cmp v b = 0))
                = (Tree.inorder l).eraseP (fun b => decide (cmp v b = 0))
                    ++ x :: Tree.inorder r :=
              @List.eraseP_append_left T (fun b => decide (cmp v b = 0)) a hq
                (Tree.inorder l) (x :: Tree.inorder r) ha
            rw [herase, hI, hi1 hsw (by
              rw [SortedT]
              exact ((pairwise_mid _ _ _).mp hst).1)]
    · by_cases h2 : cmp v x = 0
      · cases r with
        | nil =>
          rw [remove_go_found_rnil cmp v l x bf h2] at hrem
          simp only [Option.some_inj, Prod.mk.injEq] at hrem
          obtain ⟨rfl, rfl⟩ := hrem
          refine ⟨hal, ?_, ?_⟩
          · simp only [Tree.height, eq_self_iff_true, if_true]
            omega
          · intro hsw hst
            simp only [SortedT, Tree.inorder] at hst
            simp only [Tree.inorder]
            rw [List.eraseP_append_right _ (no_eq_in_left_of_eq hsw hst h2)]
            simp [h2]
        | node rl rx rbf rr =>
          cases l with
          | nil =>
            rw [remove_go_found_lnil cmp v x bf rl rx rbf rr h2] at hrem
            simp only [Option.some_inj, Prod.mk.injEq] at hrem
            obtain ⟨rfl, rfl⟩ := hrem
            refine ⟨har, ?_, ?_⟩
            · simp only [Tree.height, eq_self_iff_true, if_true]
              omega
            · intro hsw hst
              simp only [Tree.inorder, List.nil_append]
              rw [List.eraseP_cons_of_pos (by simp [h2])]
          | node ll lx lbf lr =>
            rw [remove_go_found_two cmp v ll lx lbf lr x bf rl rx rbf rr h2] at hrem
            rcases hrec : remove_go cmp (leftmost (Tree.node rl rx rbf rr) x)
                (Tree.node rl rx rbf rr) with _ | ⟨r1, sh⟩
            · rw [hrec] at hrem
              simp [rem_step_right] at hrem
            · rw [hrec] at hrem
              obtain ⟨ha1, hh1, hi1⟩ :=
                ihr (leftmost (Tree.node rl rx rbf rr) x) r1 sh har hrec
              obtain ⟨rest, hrest⟩ := inorder_leftmost (Tree.node rl rx rbf rr) x (by simp)
              cases sh with
              | false =>
                simp only [rem_step_right, if_neg (by simp : ¬ (false = true)),
                  Option.some_inj, Prod.mk.injEq] at hrem
                obtain ⟨rfl, rfl⟩ := hrem
                replace hh1 : Tree.height (Tree.node rl rx rbf rr) = Tree.height r1 := by
                  simpa using hh1
                refine ⟨?_, ?_, ?_⟩
                · rw [avlBal_node_iff]
                  exact ⟨hal, ha1, by omega, habs⟩
                · simp only [Tree.height] at hh1
                  simp only [Tree.height, if_neg (by simp : ¬ false = true)]
                  omega
                · intro hsw hst
                  rw [SortedT] at hst
                  have hst2 : (Tree.inorder (Tree.node ll lx lbf lr)
                      ++ x :: Tree.inorder (Tree.node rl rx rbf rr)).Pairwise
                        (fun a b => cmp a b < 0) := hst
                  have hsr : SortedT cmp (Tree.node rl rx rbf rr) := by
                    rw [SortedT]
                    exact ((pairwise_mid _ _ _).mp hst2).2.1
                  have hir : Tree.inorder r1 = rest := by
                    rw [hi1 hsw hsr, hrest,
                      List.eraseP_cons_of_pos (by simp [hsw.refl_zero])]
                  rw [show Tree.inorder (Tree.node (Tree.node ll lx lbf lr)
                        (leftmost (Tree.node rl rx rbf rr) x) bf r1)
                      = Tree.inorder (Tree.node ll lx lbf lr)
                          ++ leftmost (Tree.node rl rx rbf rr) x :: Tree.inorder r1 from rfl]
                  rw [show Tree.inorder (Tree.node (Tree.node ll lx lbf lr) x bf
                        (Tree.node rl rx rbf rr))
                      = Tree.inorder (Tree.node ll lx lbf lr)
                          ++ x :: Tree.inorder (Tree.node rl rx rbf rr) from rfl]
                  rw [List.eraseP_append_right _ (no_eq_in_left_of_eq hsw hst2 h2),
                    List.eraseP_cons_of_pos (by simp [h2]), hir, hrest]
              | true =>
                simp only [rem_step_right, if_pos rfl, if_true, Option.some_inj] at hrem
                replace hh1 : Tree.height (Tree.node rl rx rbf rr) = Tree.height r1 + 1 := by
                  simpa using hh1
                rcases hret : retrace_rem_right (Tree.node ll lx lbf lr)
                    (leftmost (Tree.node rl rx rbf rr) x) bf r1 with ⟨t2, f2⟩
                rw [hret] at hrem
                obtain ⟨hA, hH, hI⟩ := retrace_rem_right_spec (Tree.node ll lx lbf lr)
                  (leftmost (Tree.node rl rx rbf rr) x) bf r1 hal ha1 (by omega) habs
                rw [hret] at hA hH hI
                simp only at hA hH hI
                injection hrem with he1 he2
                subst he1
                subst he2
                refine ⟨hA, ?_, ?_⟩
                · rw [show Tree.height (Tree.node (Tree.node ll lx lbf lr) x bf
                      (Tree.node rl rx rbf rr))
                    = 1 + max (Tree.height (Tree.node ll lx lbf lr))
                        (Tree.height r1 + 1) from by
                    simp only [Tree.height] at hh1
                    simp only [Tree.height]
                    omega]
                  exact hH
                · intro hsw hst
                  rw [SortedT] at hst
                  have hst2 : (Tree.inorder (Tree.node ll lx lbf lr)
                      ++ x :: Tree.inorder (Tree.node rl rx rbf rr)).Pairwise
                        (fun a b => cmp a b < 0) := hst
                  have hsr : SortedT cmp (Tree.node rl rx rbf rr) := by
                    rw [SortedT]
                    exact ((pairwise_mid _ _ _).mp hst2).2.1
                  have hir : Tree.inorder r1 = rest := by
                    rw [hi1 hsw hsr, hrest,
                      List.eraseP_cons_of_pos (by simp [hsw.refl_zero])]
                  rw [hI]
                  rw [show Tree.inorder (Tree.node (Tree.node ll lx lbf lr) x bf
                        (Tree.node rl rx rbf rr))
                      = Tree.inorder (Tree.node ll lx lbf lr)
                          ++ x :: Tree.inorder (Tree.node rl rx rbf rr) from rfl]
                  rw [List.eraseP_append_right _ (no_eq_in_left_of_eq hsw hst2 h2),
                    List.eraseP_cons_of_pos (by simp [h2]), hir, hrest]
      · rw [remove_go_gt cmp v l x bf r h1 h2] at hrem
        rcases hrec : remove_go cmp v r with _ | ⟨r1, sh⟩
        · rw [hrec] at hrem
          simp [rem_step_right] at hrem
        · rw [hrec] at hrem
          obtain ⟨ha1, hh1, hi1⟩ := ihr v r1 sh har hrec
          cases sh with
          | false =>
            simp only [rem_step_right, if_neg (by simp : ¬ (false = true)),
              Option.some_inj, Prod.mk.injEq] at hrem
            obtain ⟨rfl, rfl⟩ := hrem
            replace hh1 : Tree.height r = Tree.height r1 := by simpa using hh1
            refine ⟨?_, ?_, ?_⟩
            · rw [avlBal_node_iff]
              exact ⟨hal, ha1, by omega, habs⟩
            · simp [Tree.height, hh1]
            · intro hsw hst
              simp only [SortedT, Tree.inorder] at hst
              simp only [Tree.inorder]
              rw [List.eraseP_append_right _ (no_eq_in_left_of_gt hsw hst (by omega)),
                List.eraseP_cons_of_neg (by simp [h2]), hi1 hsw (by
                  rw [SortedT]
                  exact ((pairwise_mid _ _ _).mp hst).2.1)]
          | true =>
            simp only [rem_step_right, if_pos rfl, if_true, Option.some_inj] at hrem
            replace hh1 : Tree.height r = Tree.height r1 + 1 := by simpa using hh1
            rcases hret : retrace_rem_right l x bf r1 with ⟨t2, f2⟩
            rw [hret] at hrem
            obtain ⟨hA, hH, hI⟩ := retrace_rem_right_spec l x bf r1 hal ha1
              (by omega) habs
            rw [hret] at hA hH hI
            simp only at hA hH hI
            injection hrem with he1 he2
            subst he1
            subst he2
            refine ⟨hA, ?_, ?_⟩
            · rw [show Tree.height (Tree.node l x bf r)
                  = 1 + max (Tree.height l) (Tree.height r1 + 1) from by
                simp [Tree.height, hh1]]
              exact hH
            · intro hsw hst
              simp only [SortedT, Tree.inorder] at hst
              simp only [Tree.inorder]
              rw [List.eraseP_append_right _ (no_eq_in_left_of_gt hsw hst (by omega)),
                List.eraseP_cons_of_neg (by simp [h2]), hI, hi1 hsw (by
                  rw [SortedT]
                  exact ((pairwise_mid _ _ _).mp hst).2.1)]

/-- An aborted insertion means the descent reached an Equal-comparing stored
value (line 131): the recursion returns none only at the duplicate test. -/
theorem insert_go_none_mem (cmp : T → T → Int) (v : T) :
    ∀ t : Tree T, insert_go cmp v t = none → ∃ a ∈ Tree.inorder t, cmp v a = 0 := by
  intro t
  induction t with
  | nil =>
    intro h
    simp [insert_go] at h
  | node l x bf r ihl ihr =>
    intro h
    by_cases h1 : cmp v x < 0
    · rw [insert_go_lt cmp v l x bf r h1] at h
      rcases hrec : insert_go cmp v l with _ | ⟨l1, grew⟩
      · obtain ⟨a, ha, hq⟩ := ihl hrec
        exact ⟨a, by rw [mem_inorder_node]; tauto, hq⟩
      · rw [hrec] at h
        cases grew <;> simp at h
    · by_cases h2 : cmp v x = 0
      · exact ⟨x, by rw [mem_inorder_node]; tauto, h2⟩
      · rw [insert_go_gt cmp v l x bf r h1 h2] at h
        rcases hrec : insert_go cmp v r with _ | ⟨r1, grew⟩
        · obtain ⟨a, ha, hq⟩ := ihr hrec
          exact ⟨a, by rw [mem_inorder_node]; tauto, hq⟩
        · rw [hrec] at h
          cases grew <;> simp at h

/-- Under the ordering precondition the removal descent cannot miss a stored
Equal-comparing value: the removal completes whenever one is present. -/
theorem remove_go_isSome_of_present {cmp : T → T → Int} (hsw : IsSWO cmp) :
    ∀ (t : Tree T) (v : T), SortedT cmp t →
      (∃ a ∈ Tree.inorder t, cmp v a = 0) → (remove_go cmp v t).isSome = true := by
  intro t
  induction t with
  | nil =>
    intro v _ hpres
    simp [Tree.inorder] at hpres
  | node l x bf r ihl ihr =>
    intro v hst hpres
    obtain ⟨hsl, hsr, hlx, hxr, _⟩ := (sorted_node_iff cmp l x bf r).mp hst
    obtain ⟨a, ha, hq⟩ := hpres
    rw [mem_inorder_node] at ha
    by_cases h1 : cmp v x < 0
    · have hal : a ∈ Tree.inorder l := by
        rcases ha with ha | rfl | ha
        · exact ha
        · exact absurd hq (by omega)
        · exact absurd hq (by
            have := hsw.lt_trans v x a h1 (hxr a ha)
            omega)
      have hrecSome := ihl v hsl ⟨a, hal, hq⟩
      rw [remove_go_lt cmp v l x bf r h1]
      rcases hrec : remove_go cmp v l with _ | ⟨l1, s⟩
      · rw [hrec] at hrecSome
        simp at hrecSome
      · cases s <;> simp [rem_step_left]
    · by_cases h2 : cmp v x = 0
      · cases r with
        | nil =>
          rw [remove_go_found_rnil cmp v l x bf h2]
          rfl
        | node rl rx rbf rr =>
          cases l with
          | nil =>
            rw [remove_go_found_lnil cmp v x bf rl rx rbf rr h2]
            rfl
          | node ll lx lbf lr =>
            rw [remove_go_found_two cmp v ll lx lbf lr x bf rl rx rbf rr h2]
            obtain ⟨rest, hrest⟩ :=
              inorder_leftmost (Tree.node rl rx rbf rr) x (by simp)
            have hmem : leftmost (Tree.node rl rx rbf rr) x
                ∈ Tree.inorder (Tree.node rl rx rbf rr) := by
              rw [hrest]
              exact List.mem_cons_self _ _
            have hrecSome := ihr (leftmost (Tree.node rl rx rbf rr) x) hsr
              ⟨leftmost (Tree.node rl rx rbf rr) x, hmem, hsw.refl_zero _⟩
            rcases hrec : remove_go cmp (leftmost (Tree.node rl rx rbf rr) x)
                (Tree.node rl rx rbf rr) with _ | ⟨r1, s⟩
            · rw [hrec] at hrecSome
              simp at hrecSome
            · cases s <;> simp [rem_step_right]
      · have hgt : 0 < cmp v x := by omega
        have har : a ∈ Tree.inorder r := by
          rcases ha with ha | rfl | ha
          · exact absurd hq (by
              have h3 := hsw.lt_trans a x v (hlx a ha) (hsw.gt_flip v x hgt)
              have h4 := (hsw.anti a v).mp h3
              omega)
          · exact absurd hq (by omega)
          · exact ha
        have hrecSome := ihr v hsr ⟨a, har, hq⟩
        rw [remove_go_gt cmp v l x bf r h1 h2]
        rcases hrec : remove_go cmp v r with _ | ⟨r1, s⟩
        · rw [hrec] at hrecSome
          simp at hrecSome
        · cases s <;> simp [rem_step_right]

/-- The global state invariant of the container: every reachable state is
balance-correct, and under the ordering precondition its ordered sequence is
strictly increasing and the stored count equals the sequence length. -/
theorem reachable_inv (cmp : T → T → Int) (g : GAVL T) (h : Reachable cmp g) :
    avlBal g.root = true
    ∧ (IsSWO cmp → SortedT cmp g.root ∧ g.size = (Tree.inorder g.root).length) := by
  induction h with
  | empty =>
    exact ⟨rfl, fun _ => ⟨List.Pairwise.nil, rfl⟩⟩
  | ins v hg ih =>
    rename_i g0
    obtain ⟨hbal, hrest⟩ := ih
    rcases hins : insert_go cmp v g0.root with _ | ⟨t, gr⟩
    · have hfix : GAVL.insert cmp v g0 = g0 := by rw [GAVL.insert, hins]
      rw [hfix]
      exact ⟨hbal, hrest⟩
    · obtain ⟨hA, hH, hP, hS, _⟩ := insert_go_spec cmp v g0.root t gr hbal hins
      have hfix : GAVL.insert cmp v g0 = ⟨t, g0.size + 1⟩ := by
        rw [GAVL.insert, hins]
      rw [hfix]
      refine ⟨hA, fun hsw => ⟨hS hsw (hrest hsw).1, ?_⟩⟩
      show g0.size + 1 = (Tree.inorder t).length
      have hlen := hP.length_eq
      simp only [List.length_cons] at hlen
      rw [hlen, (hrest hsw).2]
  | rem v hg ih =>
    rename_i g0
    obtain ⟨hbal, hrest⟩ := ih
    rcases hrem : remove_go cmp v g0.root with _ | ⟨t, f⟩
    · have hfix : GAVL.remove cmp v g0 = g0 := by rw [GAVL.remove, hrem]
      rw [hfix]
      exact ⟨hbal, hrest⟩
    · obtain ⟨hA, hH, hEr⟩ := remove_go_spec cmp g0.root v t f hbal hrem
      have hfix : GAVL.remove cmp v g0 = ⟨t, g0.size - 1⟩ := by
        rw [GAVL.remove, hrem]
      rw [hfix]
      refine ⟨hA, fun hsw => ⟨?_, ?_⟩⟩
      · show SortedT cmp t
        rw [SortedT, hEr hsw (hrest hsw).1]
        exact List.Pairwise.sublist (List.eraseP_sublist _) (hrest hsw).1
      · show g0.size - 1 = (Tree.inorder t).length
        obtain ⟨a, ha, hq⟩ := remove_go_mem cmp g0.root v (t, f) hrem
        have hpa : decide (cmp v a = 0) = true := by simpa using hq
        obtain ⟨a2, l1, l2, _, _, hdec, herase⟩ :=
          @List.exists_of_eraseP T (fun b => decide (cmp v b = 0))
            (Tree.inorder g0.root) a ha hpa
        rw [hEr hsw (hrest hsw).1, herase, (hrest hsw).2, hdec]
        simp only [List.length_append, List.length_cons]
        omega

/-- On a balance-correct tree every node subtree carries the true height
difference with magnitude at most one. -/
theorem avl_node_mem :
    ∀ (t l : Tree T) (x : T) (bf : Int) (r : Tree T), avlBal t = true →
      Tree.node l x bf r ∈ nodesOf t →
        bf = (Tree.height r : Int) - (Tree.height l : Int)
        ∧ (bf = -1 ∨ bf = 0 ∨ bf = 1) := by
  intro t
  induction t with
  | nil =>
    intro l x bf r _ hm
    simp [nodesOf] at hm
  | node tl tx tbf tr ihl ihr =>
    intro l x bf r hb hm
    obtain ⟨hbl, hbr, hbf, habs⟩ := (avlBal_node_iff tl tx tbf tr).mp hb
    rw [nodesOf] at hm
    rcases List.mem_cons.mp hm with heq | hm2
    · injection heq with h1 h2 h3 h4
      subst h1
      subst h2
      subst h3
      subst h4
      exact ⟨hbf, by omega⟩
    · rcases List.mem_append.mp hm2 with hmem | hmem
      · exact ihl l x bf r hbl hmem
      · exact ihr l x bf r hbr hmem

/-- C1. For every reachable container state (any completed sequence of public
insert and remove calls starting from the empty tree), every node's stored
balance factor equals the height of its right subtree minus the height of its
left subtree and lies in the set of minus one, zero, and plus one. -/
theorem c1_balance_invariant (cmp : T → T → Int) (g : GAVL T)
    (h : Reachable cmp g) :
    ∀ (l : Tree T) (x : T) (bf : Int) (r : Tree T),
      Tree.node l x bf r ∈ nodesOf g.root →
        bf = (Tree.height r : Int) - (Tree.height l : Int)
        ∧ (bf = -1 ∨ bf = 0 ∨ bf = 1) := by
  intro l x bf r hm
  exact avl_node_mem g.root l x bf r (reachable_inv cmp g h).1 hm

/-- Witness for C1: the state reached by inserting 1 then 2 contains the leaf
node holding 2, whose balance factor 0 satisfies the invariant. -/
theorem c1_witness :
    Tree.node Tree.nil (2 : Int) 0 Tree.nil
        ∈ nodesOf (GAVL.insert icmp 2 (GAVL.insert icmp 1 GAVL.empty)).root
    ∧ ((0 : Int) = (Tree.height (Tree.nil : Tree Int) : Int)
          - (Tree.height (Tree.nil : Tree Int) : Int)
        ∧ ((0 : Int) = -1 ∨ (0 : Int) = 0 ∨ (0 : Int) = 1)) :=
  ⟨by decide,
   c1_balance_invariant icmp _ (Reachable.ins 2 (Reachable.ins 1 Reachable.empty))
     Tree.nil 2 0 Tree.nil (by decide)⟩

/-- Any fold of public inserts from the empty container is a reachable state. -/
theorem build_reachable (cmp : T → T → Int) (vs : List T) :
    Reachable cmp (vs.foldl (fun g v => GAVL.insert cmp v g) GAVL.empty) := by
  induction vs using List.reverseRecOn with
  | nil => exact Reachable.empty
  | append_singleton vs v ih =>
    rw [List.foldl_append]
    exact Reachable.ins v ih

/-- Folding pairwise non-Equal inserts stores exactly the given values. -/
theorem build_perm {cmp : T → T → Int} (hsw : IsSWO cmp) :
    ∀ vs : List T, vs.Pairwise (fun a b => cmp a b ≠ 0) →
      (Tree.inorder ((vs.foldl (fun g v => GAVL.insert cmp v g)
        GAVL.empty).root)).Perm vs := by
  intro vs
  induction vs using List.reverseRecOn with
  | nil =>
    intro _
    exact List.Perm.refl _
  | append_singleton vs v ih =>
    intro hp
    rw [List.pairwise_append] at hp
    obtain ⟨hp1, _, hcross⟩ := hp
    have hPerm := ih hp1
    set g0 := vs.foldl (fun g v => GAVL.insert cmp v g) GAVL.empty with hg0
    rw [List.foldl_append]
    show (Tree.inorder ((GAVL.insert cmp v g0).root)).Perm (vs ++ [v])
    have hbal := (reachable_inv cmp g0 (build_reachable cmp vs)).1
    rcases hins : insert_go cmp v g0.root with _ | ⟨t, gr⟩
    · exfalso
      obtain ⟨a, ha, hq⟩ := insert_go_none_mem cmp v _ hins
      exact hcross a (hPerm.mem_iff.mp ha) v (by simp) (hsw.eq_symm v a hq)
    · obtain ⟨_, _, hP, _, _⟩ := insert_go_spec cmp v g0.root t gr hbal hins
      have hroot : (GAVL.insert cmp v g0).root = t := by rw [GAVL.insert, hins]
      rw [hroot]
      exact (hP.trans (hPerm.cons v)).trans (List.perm_append_singleton v vs).symm

/-- C2. Under the strict-weak-ordering precondition the ordered sequence of
every reachable state is non-decreasing under the comparator, and the round
trip holds: after inserting pairwise non-Equal values into the empty container
the ordered sequence is exactly those values sorted strictly by the comparator
(any strictly sorted arrangement of them equals the output). -/
theorem c2_ordered_sequence (cmp : T → T → Int) (hsw : IsSWO cmp) :
    (∀ g : GAVL T, Reachable cmp g →
        (to_stl_vector g.root).Pairwise (fun a b => cmp a b ≤ 0))
    ∧ (∀ vs : List T, vs.Pairwise (fun a b => cmp a b ≠ 0) →
        ∀ l : List T, l.Perm vs → l.Pairwise (fun a b => cmp a b < 0) →
          to_stl_vector ((vs.foldl (fun g v => GAVL.insert cmp v g)
            GAVL.empty).root) = l) := by
  constructor
  · intro g hr
    rw [to_stl_vector_eq_inorder]
    exact List.Pairwise.imp (fun hab => le_of_lt hab)
      (((reachable_inv cmp g hr).2 hsw).1)
  · intro vs hp l hl hls
    haveI : IsAntisymm T (fun a b => cmp a b < 0) :=
      ⟨fun a b h1 h2 => absurd ((hsw.anti a b).mp h1) (by omega)⟩
    rw [to_stl_vector_eq_inorder]
    refine List.eq_of_perm_of_sorted ((build_perm hsw vs hp).trans hl.symm) ?_ hls
    exact ((reachable_inv cmp _ (build_reachable cmp vs)).2 hsw).1

/-- Witness for C2 at the integer comparator: a concrete reachable state and a
concrete three-value round trip. -/
theorem c2_witness :
    (to_stl_vector (GAVL.insert icmp 1 GAVL.empty).root).Pairwise
        (fun a b => icmp a b ≤ 0)
    ∧ to_stl_vector ((([3, 1, 4] : List Int).foldl
        (fun g v => GAVL.insert icmp v g) GAVL.empty).root) = [1, 3, 4] :=
  ⟨(c2_ordered_sequence icmp icmp_swo).1 _ (Reachable.ins 1 Reachable.empty),
   (c2_ordered_sequence icmp icmp_swo).2 [3, 1, 4] (by decide) [1, 3, 4]
     (by decide) (by decide)⟩

/-- C3. Removing a present value from a reachable state (under the ordering
precondition) deletes exactly one Equal-comparing value from the ordered
sequence — the sequence splits as pre, the deleted value, post, and becomes
pre followed by post — and the stored size decreases by exactly one. -/
theorem c3_remove_present (cmp : T → T → Int) (hsw : IsSWO cmp) (g : GAVL T)
    (hreach : Reachable cmp g) (v : T)
    (hpres : ∃ a ∈ Tree.inorder g.root, cmp v a = 0) :
    ∃ (pre post : List T) (x0 : T),
      cmp v x0 = 0
      ∧ to_stl_vector g.root = pre ++ x0 :: post
      ∧ to_stl_vector (GAVL.remove cmp v g).root = pre ++ post
      ∧ (GAVL.remove cmp v g).size + 1 = g.size := by
  obtain ⟨hbal, hrest⟩ := reachable_inv cmp g hreach
  obtain ⟨hsorted, hsize⟩ := hrest hsw
  have hsome := remove_go_isSome_of_present hsw g.root v hsorted hpres
  rcases hrem : remove_go cmp v g.root with _ | ⟨t, f⟩
  · rw [hrem] at hsome
    simp at hsome
  · obtain ⟨hA, hH, hEr⟩ := remove_go_spec cmp g.root v t f hbal hrem
    obtain ⟨a, ha, hq⟩ := hpres
    have hpa : decide (cmp v a = 0) = true := by simpa using hq
    obtain ⟨a2, l1, l2, _, hpa2, hdec, herase⟩ :=
      @List.exists_of_eraseP T (fun b => decide (cmp v b = 0))
        (Tree.inorder g.root) a ha hpa
    refine ⟨l1, l2, a2, of_decide_eq_true hpa2, ?_, ?_, ?_⟩
    · rw [to_stl_vector_eq_inorder]
      exact hdec
    · rw [show (GAVL.remove cmp v g).root = t from by rw [GAVL.remove, hrem],
        to_stl_vector_eq_inorder, hEr hsw hsorted, herase]
    · rw [show (GAVL.remove cmp v g).size = g.size - 1 from by
        rw [GAVL.remove, hrem]]
      rw [hsize, hdec]
      simp only [List.length_append, List.length_cons]
      omega

/-- Witness for C3: removing 3 from the tree built by inserting 3, 1, 4. -/
theorem c3_witness :
    (∃ a ∈ Tree.inorder gW.root, icmp 3 a = 0)
    ∧ (∃ (pre post : List Int) (x0 : Int),
        icmp 3 x0 = 0
        ∧ to_stl_vector gW.root = pre ++ x0 :: post
        ∧ to_stl_vector (GAVL.remove icmp 3 gW).root = pre ++ post
        ∧ (GAVL.remove icmp 3 gW).size + 1 = gW.size) :=
  ⟨by decide,
   c3_remove_present icmp icmp_swo gW
     (by
       have hgw : gW = GAVL.insert icmp 4 (GAVL.insert icmp 1
           (GAVL.insert icmp 3 GAVL.empty)) := rfl
       rw [hgw]
       exact Reachable.ins 4 (Reachable.ins 1 (Reachable.ins 3 Reachable.empty)))
     3 (by decide)⟩


/-- Equal-comparing values are interchangeable on the left of a strict
comparison. -/
theorem IsSWO.eq_lt_trans {cmp : T → T → Int} (hsw : IsSWO cmp) (v x a : T)
    (h1 : cmp v x = 0) (h2 : cmp x a < 0) : cmp v a < 0 := by
  rcases lt_trichotomy (cmp v a) 0 with h | h | h
  · exact h
  · exfalso
    have h3 : cmp a v = 0 := hsw.eq_symm v a h
    have h4 : cmp a x = 0 := hsw.eq_trans a v x h3 h1
    have h5 : 0 < cmp a x := (hsw.anti x a).mp h2
    omega
  · exfalso
    have h3 : cmp a v < 0 := by
      have := hsw.anti a v
      omega
    have h4 : cmp x v < 0 := hsw.lt_trans x a v h2 h3
    have h5 : cmp x v = 0 := hsw.eq_symm v x h1
    omega

/-- Equal-comparing values are interchangeable on the right of a strict
comparison. -/
theorem IsSWO.lt_eq_trans {cmp : T → T → Int} (hsw : IsSWO cmp) (a x v : T)
    (h1 : cmp a x < 0) (h2 : cmp x v = 0) : cmp a v < 0 := by
  rcases lt_trichotomy (cmp a v) 0 with h | h | h
  · exact h
  · exfalso
    have h3 : cmp v x = 0 := hsw.eq_symm x v h2
    have h4 : cmp a x = 0 := hsw.eq_trans a v x h h3
    omega
  · exfalso
    have h3 : cmp v a < 0 := by
      have := hsw.anti v a
      omega
    have h4 : cmp v x < 0 := hsw.lt_trans v a x h3 h1
    have h5 : cmp v x = 0 := hsw.eq_symm x v h2
    omega

/-- The reverse in-order walk is the reversal of the in-order walk. -/
theorem revInorder_eq_reverse : ∀ t : Tree T,
    Tree.revInorder t = (Tree.inorder t).reverse := by
  intro t
  induction t with
  | nil => rfl
  | node l x bf r ihl ihr =>
    show Tree.revInorder r ++ x :: Tree.revInorder l
        = (Tree.inorder l ++ x :: Tree.inorder r).reverse
    rw [ihl, ihr]
    simp

/-- Membership in the reverse in-order walk is membership in the tree. -/
theorem mem_revInorder (a : T) (t : Tree T) :
    a ∈ Tree.revInorder t ↔ a ∈ Tree.inorder t := by
  rw [revInorder_eq_reverse, List.mem_reverse]

/-- In a chain, the first value found by a scan dominates every qualifying
value: any other qualifier is the found value itself or lies further along. -/
theorem find_first_le {q : T → Bool} {R : T → T → Prop} :
    ∀ L : List T, L.Pairwise R → ∀ w, L.find? q = some w →
      ∀ a ∈ L, q a = true → a = w ∨ R w a := by
  intro L
  induction L with
  | nil =>
    intro _ w h
    simp at h
  | cons b L ih =>
    intro hp w hf a ha hq
    obtain ⟨hb, hL⟩ := List.pairwise_cons.mp hp
    by_cases hqb : q b = true
    · rw [List.find?_cons_of_pos L hqb] at hf
      injection hf with hf
      subst hf
      rcases List.mem_cons.mp ha with rfl | ha2
      · exact Or.inl rfl
      · exact Or.inr (hb a ha2)
    · rw [List.find?_cons_of_neg L hqb] at hf
      rcases List.mem_cons.mp ha with rfl | ha2
      · exact absurd hq hqb
      · exact ih hL w hf a ha2 hq

/-- On a BST-ordered tree the backward scan sequence and the plain reverse
in-order sequence agree under the qualifying test: values revisited or skipped
by the stack walk all fail the strictly-preceding test. -/
theorem find_WB_eq {cmp : T → T → Int} (hsw : IsSWO cmp) (v : T) (cond : T → Bool) :
    ∀ t : Tree T, SortedT cmp t →
      (WB cmp v t).find? (qualB cmp v cond)
        = (Tree.revInorder t).find? (qualB cmp v cond) := by
  intro t
  induction t with
  | nil =>
    intro _
    rfl
  | node l x bf r ihl ihr =>
    intro hs
    obtain ⟨hsl, hsr, hlx, hxr, _⟩ := (sorted_node_iff cmp l x bf r).mp hs
    by_cases h1 : cmp v x < 0
    · have hr_none : (Tree.revInorder r).find? (qualB cmp v cond) = none := by
        rw [List.find?_eq_none]
        intro a ha
        have hmem : a ∈ Tree.inorder r := (mem_revInorder a r).mp ha
        have hva : cmp v a < 0 := hsw.lt_trans v x a h1 (hxr a hmem)
        have hav : 0 < cmp a v := (hsw.anti v a).mp hva
        simp only [qualB, Bool.and_eq_true, decide_eq_true_eq, not_and]
        intro hlt
        exact absurd hlt (by omega)
      have hx_neg : ¬ qualB cmp v cond x = true := by
        have hxv : 0 < cmp x v := (hsw.anti v x).mp h1
        simp only [qualB, Bool.and_eq_true, decide_eq_true_eq, not_and]
        intro hlt
        exact absurd hlt (by omega)
      cases l with
      | nil =>
        rw [show WB cmp v (Tree.node Tree.nil x bf r)
            = Tree.revInorder r ++ [x] from by
          rw [WB.eq_def]
          simp [h1]]
        rfl
      | node la ya ba ca =>
        rw [show WB cmp v (Tree.node (Tree.node la ya ba ca) x bf r)
            = WB cmp v (Tree.node la ya ba ca)
                ++ x :: Tree.revInorder (Tree.node la ya ba ca) from by
          rw [WB.eq_def]
          simp [h1]]
        rw [show Tree.revInorder (Tree.node (Tree.node la ya ba ca) x bf r)
            = Tree.revInorder r ++ x :: Tree.revInorder (Tree.node la ya ba ca)
            from rfl]
        rw [List.find?_append, List.find?_append, ihl hsl, hr_none,
          List.find?_cons_of_neg _ hx_neg]
        cases (Tree.revInorder (Tree.node la ya ba ca)).find? (qualB cmp v cond)
          <;> rfl
    · by_cases h2 : cmp v x = 0
      · have hr_none : (Tree.revInorder r).find? (qualB cmp v cond) = none := by
          rw [List.find?_eq_none]
          intro a ha
          have hmem : a ∈ Tree.inorder r := (mem_revInorder a r).mp ha
          have hva : cmp v a < 0 := hsw.eq_lt_trans v x a h2 (hxr a hmem)
          have hav : 0 < cmp a v := (hsw.anti v a).mp hva
          simp only [qualB, Bool.and_eq_true, decide_eq_true_eq, not_and]
          intro hlt
          exact absurd hlt (by omega)
        have hx_neg : ¬ qualB cmp v cond x = true := by
          have hxv : cmp x v = 0 := hsw.eq_symm v x h2
          simp only [qualB, Bool.and_eq_true, decide_eq_true_eq, not_and]
          intro hlt
          exact absurd hlt (by omega)
        cases l with
        | nil =>
          rw [show WB cmp v (Tree.node Tree.nil x bf r) = [] from by
            rw [WB.eq_def]
            simp [h1, h2]]
          rw [show Tree.revInorder (Tree.node Tree.nil x bf r)
              = Tree.revInorder r ++ x :: ([] : List T) from rfl]
          rw [List.find?_append, hr_none, List.find?_cons_of_neg _ hx_neg]
          rfl
        | node la ya ba ca =>
          rw [show WB cmp v (Tree.node (Tree.node la ya ba ca) x bf r)
              = Tree.revInorder (Tree.node la ya ba ca)
                  ++ x :: Tree.revInorder (Tree.node la ya ba ca) from by
            rw [WB.eq_def]
            simp [h1, h2]]
          rw [show Tree.revInorder (Tree.node (Tree.node la ya ba ca) x bf r)
              = Tree.revInorder r ++ x :: Tree.revInorder (Tree.node la ya ba ca)
              from rfl]
          rw [List.find?_append, List.find?_append, hr_none,
            List.find?_cons_of_neg _ hx_neg]
          cases (Tree.revInorder (Tree.node la ya ba ca)).find? (qualB cmp v cond)
            <;> rfl
      · rw [show WB cmp v (Tree.node l x bf r)
            = WB cmp v r ++ x :: Tree.revInorder l from by
          rw [WB.eq_def]
          simp [h1, h2]]
        rw [show Tree.revInorder (Tree.node l x bf r)
            = Tree.revInorder r ++ x :: Tree.revInorder l from rfl]
        rw [List.find?_append, List.find?_append, ihr hsr]

/-- On a BST-ordered tree the forward scan sequence and the plain in-order
sequence agree under the qualifying test. -/
theorem find_WA_eq {cmp : T → T → Int} (hsw : IsSWO cmp) (v : T) (cond : T → Bool) :
    ∀ t : Tree T, SortedT cmp t →
      (WA cmp v t).find? (qualA cmp v cond)
        = (Tree.inorder t).find? (qualA cmp v cond) := by
  intro t
  induction t with
  | nil =>
    intro _
    rfl
  | node l x bf r ihl ihr =>
    intro hs
    obtain ⟨hsl, hsr, hlx, hxr, _⟩ := (sorted_node_iff cmp l x bf r).mp hs
    by_cases h1 : cmp v x < 0
    · rw [show WA cmp v (Tree.node l x bf r)
          = WA cmp v l ++ x :: Tree.inorder r from by
        rw [WA.eq_def]
        simp [h1]]
      rw [show Tree.inorder (Tree.node l x bf r)
          = Tree.inorder l ++ x :: Tree.inorder r from rfl]
      rw [List.find?_append, List.find?_append, ihl hsl]
    · by_cases h2 : cmp v x = 0
      · have hl_none : (Tree.inorder l).find? (qualA cmp v cond) = none := by
          rw [List.find?_eq_none]
          intro a ha
          have hav : cmp a v < 0 := hsw.lt_eq_trans a x v (hlx a ha) (hsw.eq_symm v x h2)
          simp only [qualA, Bool.and_eq_true, decide_eq_true_eq, not_and]
          intro hgt
          exact absurd hgt (by omega)
        have hx_neg : ¬ qualA cmp v cond x = true := by
          have hxv : cmp x v = 0 := hsw.eq_symm v x h2
          simp only [qualA, Bool.and_eq_true, decide_eq_true_eq, not_and]
          intro hgt
          exact absurd hgt (by omega)
        cases r with
        | nil =>
          rw [show WA cmp v (Tree.node l x bf Tree.nil) = [] from by
            rw [WA.eq_def]
            simp [h1, h2]]
          rw [show Tree.inorder (Tree.node l x bf Tree.nil)
              = Tree.inorder l ++ x :: ([] : List T) from rfl]
          rw [List.find?_append, hl_none, List.find?_cons_of_neg _ hx_neg]
          rfl
        | node ra ya ba ca =>
          rw [show WA cmp v (Tree.node l x bf (Tree.node ra ya ba ca))
              = Tree.inorder (Tree.node ra ya ba ca)
                  ++ x :: Tree.inorder (Tree.node ra ya ba ca) from by
            rw [WA.eq_def]
            simp [h1, h2]]
          rw [show Tree.inorder (Tree.node l x bf (Tree.node ra ya ba ca))
              = Tree.inorder l ++ x :: Tree.inorder (Tree.node ra ya ba ca)
              from rfl]
          rw [List.find?_append, List.find?_append, hl_none,
            List.find?_cons_of_neg _ hx_neg]
          cases (Tree.inorder (Tree.node ra ya ba ca)).find? (qualA cmp v cond)
            <;> rfl
      · have hgt : 0 < cmp v x := by omega
        have hl_none : (Tree.inorder l).find? (qualA cmp v cond) = none := by
          rw [List.find?_eq_none]
          intro a ha
          have hav : cmp a v < 0 :=
            hsw.lt_trans a x v (hlx a ha) (hsw.gt_flip v x hgt)
          simp only [qualA, Bool.and_eq_true, decide_eq_true_eq, not_and]
          intro hgt2
          exact absurd hgt2 (by omega)
        have hx_neg : ¬ qualA cmp v cond x = true := by
          have hxv : cmp x v < 0 := hsw.gt_flip v x hgt
          simp only [qualA, Bool.and_eq_true, decide_eq_true_eq, not_and]
          intro hgt2
          exact absurd hgt2 (by omega)
        cases r with
        | nil =>
          rw [show WA cmp v (Tree.node l x bf Tree.nil)
              = Tree.inorder l ++ [x] from by
            rw [WA.eq_def]
            simp [h1, h2]]
          rfl
        | node ra ya ba ca =>
          rw [show WA cmp v (Tree.node l x bf (Tree.node ra ya ba ca))
              = WA cmp v (Tree.node ra ya ba ca)
                  ++ x :: Tree.inorder (Tree.node ra ya ba ca) from by
            rw [WA.eq_def]
            simp [h1, h2]]
          rw [show Tree.inorder (Tree.node l x bf (Tree.node ra ya ba ca))
              = Tree.inorder l ++ x :: Tree.inorder (Tree.node ra ya ba ca)
              from rfl]
          rw [List.find?_append, List.find?_append, ihr hsr, hl_none,
            List.find?_cons_of_neg _ hx_neg]
          cases (Tree.inorder (Tree.node ra ya ba ca)).find? (qualA cmp v cond)
            <;> rfl

/-- C5. On a BST-ordered tree under the strict-weak-ordering precondition,
search_before reports not-found exactly when no stored value is strictly Less
than v and passes the predicate, and on success returns the greatest such value
(every other qualifier compares at or below it); search_after reports not-found
exactly when no stored value is strictly Greater than v and passes the
predicate, and on success returns the least such value. -/
theorem c5_search_before_after (cmp : T → T → Int) (hsw : IsSWO cmp)
    (t : Tree T) (hs : SortedT cmp t) (v : T) (cond : T → Bool) (ref : T) :
    (((search_before cmp v cond t ref).1 = false ↔
        ∀ a ∈ Tree.inorder t, ¬(cmp a v < 0 ∧ cond a = true))
      ∧ ∀ w, search_before cmp v cond t ref = (true, w) →
          w ∈ Tree.inorder t ∧ cmp w v < 0 ∧ cond w = true
          ∧ ∀ a ∈ Tree.inorder t, cmp a v < 0 → cond a = true → cmp a w ≤ 0)
    ∧ (((search_after cmp v cond t ref).1 = false ↔
        ∀ a ∈ Tree.inorder t, ¬(0 < cmp a v ∧ cond a = true))
      ∧ ∀ w, search_after cmp v cond t ref = (true, w) →
          w ∈ Tree.inorder t ∧ 0 < cmp w v ∧ cond w = true
          ∧ ∀ a ∈ Tree.inorder t, 0 < cmp a v → cond a = true → 0 ≤ cmp a w) := by
  have hB : search_before_opt cmp v cond t
      = (Tree.revInorder t).find? (qualB cmp v cond) := by
    rw [search_before_opt_eq, find_WB_eq hsw v cond t hs]
  have hA : search_after_opt cmp v cond t
      = (Tree.inorder t).find? (qualA cmp v cond) := by
    rw [search_after_opt_eq, find_WA_eq hsw v cond t hs]
  have hnoneB : search_before_opt cmp v cond t = none ↔
      ∀ a ∈ Tree.inorder t, ¬(cmp a v < 0 ∧ cond a = true) := by
    rw [hB, List.find?_eq_none]
    constructor
    · intro h a ha
      have h2 := h a ((mem_revInorder a t).mpr ha)
      simpa [qualB] using h2
    · intro h a ha
      have h2 := h a ((mem_revInorder a t).mp ha)
      simpa [qualB] using h2
  have hnoneA : search_after_opt cmp v cond t = none ↔
      ∀ a ∈ Tree.inorder t, ¬(0 < cmp a v ∧ cond a = true) := by
    rw [hA, List.find?_eq_none]
    constructor
    · intro h a ha
      have h2 := h a ha
      simpa [qualA] using h2
    · intro h a ha
      have h2 := h a ha
      simpa [qualA] using h2
  have hsomeB : ∀ w, search_before_opt cmp v cond t = some w →
      w ∈ Tree.inorder t ∧ cmp w v < 0 ∧ cond w = true
      ∧ ∀ a ∈ Tree.inorder t, cmp a v < 0 → cond a = true → cmp a w ≤ 0 := by
    intro w hw
    rw [hB] at hw
    have hmem : w ∈ Tree.inorder t :=
      (mem_revInorder w t).mp (List.mem_of_find?_eq_some hw)
    have hq2 : cmp w v < 0 ∧ cond w = true := by
      simpa [qualB] using List.find?_some hw
    refine ⟨hmem, hq2.1, hq2.2, ?_⟩
    intro a ha hlt hcond
    have hpair : (Tree.revInorder t).Pairwise (fun a b => cmp b a < 0) := by
      rw [revInorder_eq_reverse]
      exact List.pairwise_reverse.mpr hs
    have hqa : qualB cmp v cond a = true := by simp [qualB, hlt, hcond]
    rcases find_first_le (Tree.revInorder t) hpair w hw a
        ((mem_revInorder a t).mpr ha) hqa with heq | hlt2
    · subst heq
      have := hsw.refl_zero a
      omega
    · omega
  have hsomeA : ∀ w, search_after_opt cmp v cond t = some w →
      w ∈ Tree.inorder t ∧ 0 < cmp w v ∧ cond w = true
      ∧ ∀ a ∈ Tree.inorder t, 0 < cmp a v → cond a = true → 0 ≤ cmp a w := by
    intro w hw
    rw [hA] at hw
    have hmem : w ∈ Tree.inorder t := List.mem_of_find?_eq_some hw
    have hq2 : 0 < cmp w v ∧ cond w = true := by
      simpa [qualA] using List.find?_some hw
    refine ⟨hmem, hq2.1, hq2.2, ?_⟩
    intro a ha hgt hcond
    have hqa : qualA cmp v cond a = true := by simp [qualA, hgt, hcond]
    rcases find_first_le (Tree.inorder t) hs w hw a ha hqa with heq | hlt2
    · subst heq
      have := hsw.refl_zero a
      omega
    · have := (hsw.anti w a).mp hlt2
      omega
  refine ⟨⟨?_, ?_⟩, ?_, ?_⟩
  · rcases hopt : search_before_opt cmp v cond t with _ | w
    · simp only [search_before, hopt]
      exact iff_of_true trivial (hnoneB.mp hopt)
    · simp only [search_before, hopt]
      refine iff_of_false (by simp) (fun h => ?_)
      have h2 := hnoneB.mpr h
      rw [hopt] at h2
      exact Option.noConfusion h2
  · intro w hw
    rcases hopt : search_before_opt cmp v cond t with _ | w2
    · rw [search_before, hopt] at hw
      simp at hw
    · rw [search_before, hopt] at hw
      simp at hw
      subst hw
      exact hsomeB w2 hopt
  · rcases hopt : search_after_opt cmp v cond t with _ | w
    · simp only [search_after, hopt]
      exact iff_of_true trivial (hnoneA.mp hopt)
    · simp only [search_after, hopt]
      refine iff_of_false (by simp) (fun h => ?_)
      have h2 := hnoneA.mpr h
      rw [hopt] at h2
      exact Option.noConfusion h2
  · intro w hw
    rcases hopt : search_after_opt cmp v cond t with _ | w2
    · rw [search_after, hopt] at hw
      simp at hw
    · rw [search_after, hopt] at hw
      simp at hw
      subst hw
      exact hsomeA w2 hopt

/-- Witness for C5 on the concrete sorted tree holding 1, 3, 4, querying
around 3 with the always-true predicate. -/
theorem c5_witness :
    ((Tree.inorder gW.root).Pairwise (fun a b => icmp a b < 0))
    ∧ ((((search_before icmp 3 (fun _ => true) gW.root 0).1 = false ↔
          ∀ a ∈ Tree.inorder gW.root, ¬(icmp a 3 < 0 ∧ (fun _ => true) a = true))
        ∧ ∀ w, search_before icmp 3 (fun _ => true) gW.root 0 = (true, w) →
            w ∈ Tree.inorder gW.root ∧ icmp w 3 < 0 ∧ (fun _ => true) w = true
            ∧ ∀ a ∈ Tree.inorder gW.root, icmp a 3 < 0 →
                (fun _ => true) a = true → icmp a w ≤ 0)
      ∧ (((search_after icmp 3 (fun _ => true) gW.root 0).1 = false ↔
          ∀ a ∈ Tree.inorder gW.root, ¬(0 < icmp a 3 ∧ (fun _ => true) a = true))
        ∧ ∀ w, search_after icmp 3 (fun _ => true) gW.root 0 = (true, w) →
            w ∈ Tree.inorder gW.root ∧ 0 < icmp w 3 ∧ (fun _ => true) w = true
            ∧ ∀ a ∈ Tree.inorder gW.root, 0 < icmp a 3 →
                (fun _ => true) a = true → 0 ≤ icmp a w)) :=
  ⟨by decide,
   c5_search_before_after icmp icmp_swo gW.root
     (by show (Tree.inorder gW.root).Pairwise (fun a b => icmp a b < 0); decide)
     3 (fun _ => true) 0⟩


/-- Any binary tree with n stored values has n + 1 bounded by 2 to its height. -/
theorem length_lt_pow_height : ∀ t : Tree T,
    (Tree.inorder t).length + 1 ≤ 2 ^ Tree.height t := by
  intro t
  induction t with
  | nil => simp [Tree.inorder, Tree.height]
  | node l x bf r ihl ihr =>
    have hlen : (Tree.inorder (Tree.node l x bf r)).length
        = (Tree.inorder l).length + (Tree.inorder r).length + 1 := by
      simp [Tree.inorder]
      omega
    have hh : Tree.height (Tree.node l x bf r)
        = 1 + max (Tree.height l) (Tree.height r) := rfl
    have h2l : 2 ^ Tree.height l ≤ 2 ^ max (Tree.height l) (Tree.height r) :=
      Nat.pow_le_pow_right (by norm_num) (le_max_left _ _)
    have h2r : 2 ^ Tree.height r ≤ 2 ^ max (Tree.height l) (Tree.height r) :=
      Nat.pow_le_pow_right (by norm_num) (le_max_right _ _)
    have hpow : 2 ^ (1 + max (Tree.height l) (Tree.height r))
        = 2 * 2 ^ max (Tree.height l) (Tree.height r) := by
      rw [pow_add, pow_one]
    rw [hlen, hh, hpow]
    omega

/-- A balance-correct tree of height h holds at least Fib(h+2) − 1 values: the
minimal AVL shapes are the Fibonacci trees. -/
theorem fib_le_avl : ∀ t : Tree T, avlBal t = true →
    Nat.fib (Tree.height t + 2) ≤ (Tree.inorder t).length + 1 := by
  intro t
  induction t with
  | nil =>
    intro _
    show Nat.fib (0 + 2) ≤ 0 + 1
    decide
  | node l x bf r ihl ihr =>
    intro hb
    obtain ⟨hal, har, hbf, habs⟩ := (avlBal_node_iff l x bf r).mp hb
    have hlen : (Tree.inorder (Tree.node l x bf r)).length
        = (Tree.inorder l).length + (Tree.inorder r).length + 1 := by
      simp [Tree.inorder]
      omega
    have hh : Tree.height (Tree.node l x bf r)
        = 1 + max (Tree.height l) (Tree.height r) := rfl
    have hIl := ihl hal
    have hIr := ihr har
    have hdiff : Tree.height l ≤ Tree.height r + 1
        ∧ Tree.height r ≤ Tree.height l + 1 := by
      constructor <;> omega
    rw [hlen, hh]
    rcases le_total (Tree.height l) (Tree.height r) with hc | hc
    · rw [Nat.max_eq_right hc]
      have hfe : Nat.fib (1 + Tree.height r + 2)
          = Nat.fib (Tree.height r + 1) + Nat.fib (Tree.height r + 2) := by
        rw [show 1 + Tree.height r + 2 = Tree.height r + 1 + 2 from by omega,
          @Nat.fib_add_two (Tree.height r + 1),
          show Tree.height r + 1 + 1 = Tree.height r + 2 from by omega]
      have hmono : Nat.fib (Tree.height r + 1) ≤ Nat.fib (Tree.height l + 2) :=
        Nat.fib_mono (by omega)
      omega
    · rw [Nat.max_eq_left hc]
      have hfe : Nat.fib (1 + Tree.height l + 2)
          = Nat.fib (Tree.height l + 1) + Nat.fib (Tree.height l + 2) := by
        rw [show 1 + Tree.height l + 2 = Tree.height l + 1 + 2 from by omega,
          @Nat.fib_add_two (Tree.height l + 1),
          show Tree.height l + 1 + 1 = Tree.height l + 2 from by omega]
      have hmono : Nat.fib (Tree.height l + 1) ≤ Nat.fib (Tree.height r + 2) :=
        Nat.fib_mono (by omega)
      omega

/-- The lower bound formula of height_bounds is sound for any tree shape. -/
theorem hb_lower (n h : ℕ) (hle : n + 1 ≤ 2 ^ h) :
    ⌊Real.logb 2 ((n : ℝ) + 1)⌋ ≤ (h : ℤ) := by
  have hx : (0:ℝ) < (n : ℝ) + 1 := by positivity
  have hle2 : ((n : ℝ) + 1) ≤ (2 : ℝ) ^ h := by exact_mod_cast hle
  have h2 : Real.logb 2 ((n : ℝ) + 1) ≤ Real.logb 2 ((2 : ℝ) ^ h) :=
    (Real.logb_le_logb (by norm_num) hx (by positivity)).mpr hle2
  have h3 : Real.logb 2 ((2 : ℝ) ^ h) = (h : ℝ) := by
    rw [Real.logb_pow, Real.logb_self_eq_one (by norm_num)]
    ring
  have h4 := Int.floor_mono (h2.trans (le_of_eq h3))
  rwa [Int.floor_natCast] at h4

/-- The upper bound formula of height_bounds is sound for Fibonacci-dense
trees: out of Fib(h+2) ≤ n + 1 the golden-ratio logarithm bound follows. -/
theorem hb_upper (n h : ℕ) (hfib : Nat.fib (h + 2) ≤ n + 1) :
    (h : ℤ) ≤ ⌈hbC * Real.logb 2 ((n : ℝ) + 2) + hbB⌉ - 1 := by
  have hs5 : (0:ℝ) < Real.sqrt 5 := Real.sqrt_pos.mpr (by norm_num)
  have hsqrt1 : (1:ℝ) < Real.sqrt 5 := by
    rw [show (1:ℝ) = Real.sqrt 1 from (Real.sqrt_one).symm]
    exact Real.sqrt_lt_sqrt (by norm_num) (by norm_num)
  have hbinet := Real.coe_fib_eq (h + 2)
  have hmul : Real.sqrt 5 * (Nat.fib (h + 2) : ℝ)
      = goldenRatio ^ (h + 2) - goldenConj ^ (h + 2) := by
    rw [hbinet]
    field_simp
    ring
  have habs : |goldenConj| < 1 :=
    abs_lt.mpr ⟨neg_one_lt_goldConj, lt_trans goldConj_neg one_pos⟩
  have hpsi : goldenConj ^ (h + 2) ≤ 1 := by
    refine (le_abs_self _).trans ?_
    rw [abs_pow]
    exact pow_le_one₀ (abs_nonneg _) habs.le
  have h1 : goldenRatio ^ (h + 2) ≤ Real.sqrt 5 * (Nat.fib (h + 2) : ℝ) + 1 := by
    have hx := hmul
    linarith
  have hfibR : (Nat.fib (h + 2) : ℝ) ≤ (n : ℝ) + 1 := by exact_mod_cast hfib
  have h2 : Real.sqrt 5 * (Nat.fib (h + 2) : ℝ) + 1 < Real.sqrt 5 * ((n : ℝ) + 2) := by
    have hm := mul_le_mul_of_nonneg_left hfibR (le_of_lt hs5)
    have hd : Real.sqrt 5 * ((n : ℝ) + 2)
        = Real.sqrt 5 * ((n : ℝ) + 1) + Real.sqrt 5 := by ring
    linarith
  have h3 : goldenRatio ^ (h + 2) < Real.sqrt 5 * ((n : ℝ) + 2) :=
    lt_of_le_of_lt h1 h2
  have hgpos : (0:ℝ) < goldenRatio ^ (h + 2) := pow_pos gold_pos _
  have h4 : Real.logb 2 (goldenRatio ^ (h + 2))
      < Real.logb 2 (Real.sqrt 5 * ((n : ℝ) + 2)) :=
    Real.logb_lt_logb (by norm_num) hgpos h3
  have h5 : Real.logb 2 (goldenRatio ^ (h + 2))
      = ((h : ℝ) + 2) * Real.logb 2 goldenRatio := by
    rw [Real.logb_pow]
    push_cast
    ring
  have h6 : Real.logb 2 (Real.sqrt 5 * ((n : ℝ) + 2))
      = Real.logb 2 (Real.sqrt 5) + Real.logb 2 ((n : ℝ) + 2) :=
    Real.logb_mul (ne_of_gt hs5) (by positivity)
  have h7 : Real.logb 2 (Real.sqrt 5) = (1 / 2 : ℝ) * Real.logb 2 5 := by
    rw [Real.sqrt_eq_rpow, Real.logb, Real.logb, Real.log_rpow (by norm_num)]
    ring
  have hL : (0:ℝ) < Real.logb 2 goldenRatio := Real.logb_pos (by norm_num) one_lt_gold
  have hLne : Real.logb 2 goldenRatio ≠ 0 := ne_of_gt hL
  have h8 : ((h : ℝ) + 2) < (Real.logb 2 ((n : ℝ) + 2) + 1 / 2 * Real.logb 2 5)
      / Real.logb 2 goldenRatio := by
    rw [lt_div_iff₀ hL]
    linarith
  have h9 : 1 / Real.logb 2 goldenRatio * Real.logb 2 ((n : ℝ) + 2)
      + (1 / Real.logb 2 goldenRatio / 2 * Real.logb 2 5 - 2)
      = (Real.logb 2 ((n : ℝ) + 2) + 1 / 2 * Real.logb 2 5)
          / Real.logb 2 goldenRatio - 2 := by
    field_simp
    ring
  have hfinal : (h : ℝ) < hbC * Real.logb 2 ((n : ℝ) + 2) + hbB := by
    rw [show hbB = hbC / 2 * Real.logb 2 5 - 2 from rfl,
      show hbC = 1 / Real.logb 2 goldenRatio from rfl, h9]
    linarith
  have hceil : (h : ℤ) < ⌈hbC * Real.logb 2 ((n : ℝ) + 2) + hbB⌉ := by
    rw [Int.lt_ceil]
    push_cast
    exact hfinal
  omega

/-- C6. For every reachable container state (under the strict-weak-ordering
precondition) with current size n, height_bounds returns exactly the pair
(floor(log2(n+1)), ceil(c * log2(n+2) + b) − 1) with the source constants, and
the iterative height lies between the two bounds. -/
theorem c6_height_bounds (cmp : T → T → Int) (hsw : IsSWO cmp) (g : GAVL T)
    (h : Reachable cmp g) :
    height_bounds g.size
      = (⌊Real.logb 2 ((g.size : ℝ) + 1)⌋,
         ⌈hbC * Real.logb 2 ((g.size : ℝ) + 2) + hbB⌉ - 1)
    ∧ (height_bounds g.size).1 ≤ (heightC g.root : ℤ)
    ∧ (heightC g.root : ℤ) ≤ (height_bounds g.size).2 := by
  obtain ⟨hbal, hrest⟩ := reachable_inv cmp g h
  obtain ⟨_, hsize⟩ := hrest hsw
  refine ⟨rfl, ?_, ?_⟩
  · show ⌊Real.logb 2 ((g.size : ℝ) + 1)⌋ ≤ (heightC g.root : ℤ)
    rw [heightC_eq_height, hsize]
    exact hb_lower (Tree.inorder g.root).length (Tree.height g.root)
      (length_lt_pow_height g.root)
  · show (heightC g.root : ℤ) ≤ ⌈hbC * Real.logb 2 ((g.size : ℝ) + 2) + hbB⌉ - 1
    rw [heightC_eq_height, hsize]
    exact hb_upper (Tree.inorder g.root).length (Tree.height g.root)
      (fib_le_avl g.root hbal)

/-- Witness for C6: the single-value state reached by one insert. -/
theorem c6_witness :
    height_bounds (GAVL.insert icmp 1 GAVL.empty).size
      = (⌊Real.logb 2 (((GAVL.insert icmp 1 GAVL.empty).size : ℝ) + 1)⌋,
         ⌈hbC * Real.logb 2 (((GAVL.insert icmp 1 GAVL.empty).size : ℝ) + 2)
            + hbB⌉ - 1)
    ∧ (height_bounds (GAVL.insert icmp 1 GAVL.empty).size).1
        ≤ (heightC (GAVL.insert icmp 1 GAVL.empty).root : ℤ)
    ∧ (heightC (GAVL.insert icmp 1 GAVL.empty).root : ℤ)
        ≤ (height_bounds (GAVL.insert icmp 1 GAVL.empty).size).2 :=
  c6_height_bounds icmp icmp_swo (GAVL.insert icmp 1 GAVL.empty)
    (Reachable.ins 1 Reachable.empty)


/-- Sign-equivalence of two tri-outcome comparators: they classify every pair
identically as Less, Equal, or Greater. All operations consult the comparator
only through this classification. -/
def SignEq (cmp1 cmp2 : T → T → Int) : Prop :=
  ∀ a b, (cmp1 a b < 0 ↔ cmp2 a b < 0) ∧ (cmp1 a b = 0 ↔ cmp2 a b = 0)

/-- Sign-equivalent comparators agree on the Greater classification too. -/
theorem SignEq.gt_iff {cmp1 cmp2 : T → T → Int} (h : SignEq cmp1 cmp2) (a b : T) :
    0 < cmp1 a b ↔ 0 < cmp2 a b := by
  obtain ⟨h1, h2⟩ := h a b
  constructor
  · intro hgt
    rcases lt_trichotomy (cmp2 a b) 0 with hc | hc | hc
    · exact absurd (h1.mpr hc) (by omega)
    · exact absurd (h2.mpr hc) (by omega)
    · exact hc
  · intro hgt
    rcases lt_trichotomy (cmp1 a b) 0 with hc | hc | hc
    · exact absurd (h1.mp hc) (by omega)
    · exact absurd (h2.mp hc) (by omega)
    · exact hc

/-- The backward qualifying test depends only on the sign classification. -/
theorem qualB_congr {cmp1 cmp2 : T → T → Int} (h : SignEq cmp1 cmp2) (v : T)
    (cond : T → Bool) : qualB cmp1 v cond = qualB cmp2 v cond := by
  funext a
  simp only [qualB]
  rw [decide_eq_decide.mpr (h a v).1]

/-- The forward qualifying test depends only on the sign classification. -/
theorem qualA_congr {cmp1 cmp2 : T → T → Int} (h : SignEq cmp1 cmp2) (v : T)
    (cond : T → Bool) : qualA cmp1 v cond = qualA cmp2 v cond := by
  funext a
  simp only [qualA]
  rw [decide_eq_decide.mpr (h.gt_iff a v)]

/-- The backward scan loop is invariant under sign-equivalent comparators. -/
theorem scan_before_congr {cmp1 cmp2 : T → T → Int} (h : SignEq cmp1 cmp2) (v : T)
    (cond : T → Bool) (s : List (Tree T)) (down : Bool) (hnil : Tree.nil ∉ s) :
    scan_before cmp1 v cond s down = scan_before cmp2 v cond s down := by
  rw [scan_before_eq cmp1 v cond s down hnil, scan_before_eq cmp2 v cond s down hnil,
    qualB_congr h v cond]

/-- The forward scan loop is invariant under sign-equivalent comparators. -/
theorem scan_after_congr {cmp1 cmp2 : T → T → Int} (h : SignEq cmp1 cmp2) (v : T)
    (cond : T → Bool) (s : List (Tree T)) (down : Bool) (hnil : Tree.nil ∉ s) :
    scan_after cmp1 v cond s down = scan_after cmp2 v cond s down := by
  rw [scan_after_eq cmp1 v cond s down hnil, scan_after_eq cmp2 v cond s down hnil,
    qualA_congr h v cond]

/-- The recorded descent path is invariant under sign-equivalent comparators. -/
theorem descend_congr {cmp1 cmp2 : T → T → Int} (h : SignEq cmp1 cmp2) (v : T) :
    ∀ (t : Tree T) (acc : List (Tree T)), descend cmp1 v t acc = descend cmp2 v t acc := by
  intro t
  induction t with
  | nil =>
    intro acc
    rfl
  | node l x bf r ihl ihr =>
    intro acc
    simp only [descend]
    rcases lt_trichotomy (cmp1 v x) 0 with h1 | h1 | h1
    · rw [if_pos h1, if_pos ((h v x).1.mp h1)]
      exact ihl _
    · have h1b : ¬ cmp1 v x < 0 := by omega
      have h1c : ¬ cmp2 v x < 0 := by
        have := (h v x).2.mp h1
        omega
      rw [if_neg h1b, if_neg h1c, if_pos h1, if_pos ((h v x).2.mp h1)]
    · have h1b : ¬ cmp1 v x < 0 := by omega
      have h2b : ¬ cmp1 v x = 0 := by omega
      have h1c : ¬ cmp2 v x < 0 := fun hc => h1b ((h v x).1.mpr hc)
      have h2c : ¬ cmp2 v x = 0 := fun hc => h2b ((h v x).2.mpr hc)
      rw [if_neg h1b, if_neg h1c, if_neg h2b, if_neg h2c]
      exact ihr _

/-- The find descent is invariant under sign-equivalent comparators. -/
theorem findT_congr {cmp1 cmp2 : T → T → Int} (h : SignEq cmp1 cmp2) (v : T) :
    ∀ t : Tree T, findT cmp1 v t = findT cmp2 v t := by
  intro t
  induction t with
  | nil => rfl
  | node l x bf r ihl ihr =>
    simp only [findT]
    rcases lt_trichotomy (cmp1 v x) 0 with h1 | h1 | h1
    · rw [if_pos h1, if_pos ((h v x).1.mp h1)]
      exact ihl
    · have h1b : ¬ cmp1 v x < 0 := by omega
      have h1c : ¬ cmp2 v x < 0 := by
        have := (h v x).2.mp h1
        omega
      rw [if_neg h1b, if_neg h1c, if_pos h1, if_pos ((h v x).2.mp h1)]
    · have h1b : ¬ cmp1 v x < 0 := by omega
      have h2b : ¬ cmp1 v x = 0 := by omega
      have h1c : ¬ cmp2 v x < 0 := fun hc => h1b ((h v x).1.mpr hc)
      have h2c : ¬ cmp2 v x = 0 := fun hc => h2b ((h v x).2.mpr hc)
      rw [if_neg h1b, if_neg h1c, if_neg h2b, if_neg h2c]
      exact ihr

/-- The parent descent is invariant under sign-equivalent comparators. -/
theorem parent_go_congr {cmp1 cmp2 : T → T → Int} (h : SignEq cmp1 cmp2) (v : T) :
    ∀ (t : Tree T) (pd : Option T), parent_go cmp1 v t pd = parent_go cmp2 v t pd := by
  intro t
  induction t with
  | nil =>
    intro pd
    rfl
  | node l x bf r ihl ihr =>
    intro pd
    simp only [parent_go]
    rcases lt_trichotomy (cmp1 v x) 0 with h1 | h1 | h1
    · rw [if_pos h1, if_pos ((h v x).1.mp h1)]
      exact ihl _
    · have h1b : ¬ cmp1 v x < 0 := by omega
      have h1c : ¬ cmp2 v x < 0 := by
        have := (h v x).2.mp h1
        omega
      rw [if_neg h1b, if_neg h1c, if_pos h1, if_pos ((h v x).2.mp h1)]
    · have h1b : ¬ cmp1 v x < 0 := by omega
      have h2b : ¬ cmp1 v x = 0 := by omega
      have h1c : ¬ cmp2 v x < 0 := fun hc => h1b ((h v x).1.mpr hc)
      have h2c : ¬ cmp2 v x = 0 := fun hc => h2b ((h v x).2.mpr hc)
      rw [if_neg h1b, if_neg h1c, if_neg h2b, if_neg h2c]
      exact ihr _

/-- The insertion (with retracing) is invariant under sign-equivalent
comparators. -/
theorem insert_go_congr {cmp1 cmp2 : T → T → Int} (h : SignEq cmp1 cmp2) (v : T) :
    ∀ t : Tree T, insert_go cmp1 v t = insert_go cmp2 v t := by
  intro t
  induction t with
  | nil => rfl
  | node l x bf r ihl ihr =>
    by_cases h1 : cmp1 v x < 0
    · rw [insert_go_lt cmp1 v l x bf r h1,
        insert_go_lt cmp2 v l x bf r ((h v x).1.mp h1), ihl]
    · by_cases h2 : cmp1 v x = 0
      · rw [insert_go_eq cmp1 v l x bf r h2,
          insert_go_eq cmp2 v l x bf r ((h v x).2.mp h2)]
      · have h1c : ¬ cmp2 v x < 0 := fun hc => h1 ((h v x).1.mpr hc)
        have h2c : ¬ cmp2 v x = 0 := fun hc => h2 ((h v x).2.mpr hc)
        rw [insert_go_gt cmp1 v l x bf r h1 h2,
          insert_go_gt cmp2 v l x bf r h1c h2c, ihr]

/-- The removal (successor restart included) is invariant under sign-equivalent
comparators. -/
theorem remove_go_congr {cmp1 cmp2 : T → T → Int} (h : SignEq cmp1 cmp2) :
    ∀ (t : Tree T) (v : T), remove_go cmp1 v t = remove_go cmp2 v t := by
  intro t
  induction t with
  | nil =>
    intro v
    rfl
  | node l x bf r ihl ihr =>
    intro v
    by_cases h1 : cmp1 v x < 0
    · rw [remove_go_lt cmp1 v l x bf r h1,
        remove_go_lt cmp2 v l x bf r ((h v x).1.mp h1), ihl v]
    · by_cases h2 : cmp1 v x = 0
      · have h2c : cmp2 v x = 0 := (h v x).2.mp h2
        cases r with
        | nil =>
          rw [remove_go_found_rnil cmp1 v l x bf h2,
            remove_go_found_rnil cmp2 v l x bf h2c]
        | node rl rx rbf rr =>
          cases l with
          | nil =>
            rw [remove_go_found_lnil cmp1 v x bf rl rx rbf rr h2,
              remove_go_found_lnil cmp2 v x bf rl rx rbf rr h2c]
          | node ll lx lbf lr =>
            rw [remove_go_found_two cmp1 v ll lx lbf lr x bf rl rx rbf rr h2,
              remove_go_found_two cmp2 v ll lx lbf lr x bf rl rx rbf rr h2c,
              ihr (leftmost (Tree.node rl rx rbf rr) x)]
      · have h1c : ¬ cmp2 v x < 0 := fun hc => h1 ((h v x).1.mpr hc)
        have h2c : ¬ cmp2 v x = 0 := fun hc => h2 ((h v x).2.mpr hc)
        rw [remove_go_gt cmp1 v l x bf r h1 h2,
          remove_go_gt cmp2 v l x bf r h1c h2c, ihr v]

/-- The post-descent step of search_before is invariant under sign-equivalent
comparators. -/
theorem before_from_stack_congr {cmp1 cmp2 : T → T → Int} (h : SignEq cmp1 cmp2)
    (v : T) (cond : T → Bool) :
    ∀ s : List (Tree T), Tree.nil ∉ s →
      before_from_stack cmp1 v cond s = before_from_stack cmp2 v cond s := by
  intro s hnil
  rcases s with _ | ⟨q, qs⟩
  · rfl
  rcases q with _ | ⟨lq, xq, bq, rq⟩
  · rfl
  simp only [List.mem_cons, not_or] at hnil
  rcases lq with _ | ⟨a, y, b, c⟩
  · rcases qs with _ | ⟨p, ps⟩
    · simp only [before_from_stack]
      by_cases h2 : cmp1 v xq = 0
      · rw [if_pos h2, if_pos ((h v xq).2.mp h2)]
      · have h2c : ¬ cmp2 v xq = 0 := fun hc => h2 ((h v xq).2.mpr hc)
        rw [if_neg h2, if_neg h2c,
          scan_before_congr h v cond [Tree.node Tree.nil xq bq rq] true (by simp)]
    · simp only [before_from_stack]
      by_cases h2 : cmp1 v xq = 0
      · rw [if_pos h2, if_pos ((h v xq).2.mp h2),
          scan_before_congr h v cond (p :: ps) false (by simpa using hnil.2)]
      · have h2c : ¬ cmp2 v xq = 0 := fun hc => h2 ((h v xq).2.mpr hc)
        rw [if_neg h2, if_neg h2c,
          scan_before_congr h v cond (Tree.node Tree.nil xq bq rq :: p :: ps) true (by
            simp only [List.mem_cons, not_or]
            refine ⟨by simp, ?_⟩
            simpa using hnil.2)]
  · simp only [before_from_stack]
    by_cases h2 : cmp1 v xq = 0
    · rw [if_pos h2, if_pos ((h v xq).2.mp h2),
        scan_before_congr h v cond (Tree.node a y b c
            :: Tree.node (Tree.node a y b c) xq bq rq :: qs) true (by
          simp only [List.mem_cons, not_or]
          exact ⟨by simp, by simp, hnil.2⟩)]
    · have h2c : ¬ cmp2 v xq = 0 := fun hc => h2 ((h v xq).2.mpr hc)
      rw [if_neg h2, if_neg h2c,
        scan_before_congr h v cond (Tree.node (Tree.node a y b c) xq bq rq :: qs) true (by
          simp only [List.mem_cons, not_or]
          exact ⟨by simp, hnil.2⟩)]

/-- The post-descent step of search_after is invariant under sign-equivalent
comparators. -/
theorem after_from_stack_congr {cmp1 cmp2 : T → T → Int} (h : SignEq cmp1 cmp2)
    (v : T) (cond : T → Bool) :
    ∀ s : List (Tree T), Tree.nil ∉ s →
      after_from_stack cmp1 v cond s = after_from_stack cmp2 v cond s := by
  intro s hnil
  rcases s with _ | ⟨q, qs⟩
  · rfl
  rcases q with _ | ⟨lq, xq, bq, rq⟩
  · rfl
  simp only [List.mem_cons, not_or] at hnil
  rcases rq with _ | ⟨a, y, b, c⟩
  · rcases qs with _ | ⟨p, ps⟩
    · simp only [after_from_stack]
      by_cases h2 : cmp1 v xq = 0
      · rw [if_pos h2, if_pos ((h v xq).2.mp h2)]
      · have h2c : ¬ cmp2 v xq = 0 := fun hc => h2 ((h v xq).2.mpr hc)
        rw [if_neg h2, if_neg h2c,
          scan_after_congr h v cond [Tree.node lq xq bq Tree.nil] true (by simp)]
    · simp only [after_from_stack]
      by_cases h2 : cmp1 v xq = 0
      · rw [if_pos h2, if_pos ((h v xq).2.mp h2),
          scan_after_congr h v cond (p :: ps) false (by simpa using hnil.2)]
      · have h2c : ¬ cmp2 v xq = 0 := fun hc => h2 ((h v xq).2.mpr hc)
        rw [if_neg h2, if_neg h2c,
          scan_after_congr h v cond (Tree.node lq xq bq Tree.nil :: p :: ps) true (by
            simp only [List.mem_cons, not_or]
            refine ⟨by simp, ?_⟩
            simpa using hnil.2)]
  · simp only [after_from_stack]
    by_cases h2 : cmp1 v xq = 0
    · rw [if_pos h2, if_pos ((h v xq).2.mp h2),
        scan_after_congr h v cond (Tree.node a y b c
            :: Tree.node lq xq bq (Tree.node a y b c) :: qs) true (by
          simp only [List.mem_cons, not_or]
          exact ⟨by simp, by simp, hnil.2⟩)]
    · have h2c : ¬ cmp2 v xq = 0 := fun hc => h2 ((h v xq).2.mpr hc)
      rw [if_neg h2, if_neg h2c,
        scan_after_congr h v cond (Tree.node lq xq bq (Tree.node a y b c) :: qs) true (by
          simp only [List.mem_cons, not_or]
          exact ⟨by simp, hnil.2⟩)]

/-- Whole search_before (as an optional result) is invariant under
sign-equivalent comparators. -/
theorem search_before_opt_congr {cmp1 cmp2 : T → T → Int} (h : SignEq cmp1 cmp2)
    (v : T) (cond : T → Bool) (t : Tree T) :
    search_before_opt cmp1 v cond t = search_before_opt cmp2 v cond t := by
  rcases t with _ | ⟨l, x, bf, r⟩
  · rfl
  · simp only [search_before_opt]
    rw [descend_congr h v (Tree.node l x bf r) []]
    exact before_from_stack_congr h v cond _
      (descend_no_nil cmp2 v (Tree.node l x bf r) [] (by simp))

/-- Whole search_after (as an optional result) is invariant under
sign-equivalent comparators. -/
theorem search_after_opt_congr {cmp1 cmp2 : T → T → Int} (h : SignEq cmp1 cmp2)
    (v : T) (cond : T → Bool) (t : Tree T) :
    search_after_opt cmp1 v cond t = search_after_opt cmp2 v cond t := by
  rcases t with _ | ⟨l, x, bf, r⟩
  · rfl
  · simp only [search_after_opt]
    rw [descend_congr h v (Tree.node l x bf r) []]
    exact after_from_stack_congr h v cond _
      (descend_no_nil cmp2 v (Tree.node l x bf r) [] (by simp))

/-- The after-block of search_neighbors is invariant under sign-equivalent
comparators. -/
theorem neighbors_after_congr {cmp1 cmp2 : T → T → Int} (h : SignEq cmp1 cmp2)
    (v : T) (cond : T → Bool) (q : Tree T) (qs : List (Tree T)) (s0 : Nat)
    (ref : NMap T) (hnil : Tree.nil ∉ qs) :
    neighbors_after cmp1 v cond q qs s0 ref = neighbors_after cmp2 v cond q qs s0 ref := by
  rcases q with _ | ⟨lq, xq, bq, rq⟩
  · rfl
  rcases rq with _ | ⟨a, y, b, c⟩
  · rcases qs with _ | ⟨p, ps⟩
    · simp only [neighbors_after]
      by_cases h2 : cmp1 v xq = 0
      · rw [if_pos h2, if_pos ((h v xq).2.mp h2)]
      · have h2c : ¬ cmp2 v xq = 0 := fun hc => h2 ((h v xq).2.mpr hc)
        rw [if_neg h2, if_neg h2c,
          scan_after_congr h v cond [Tree.node lq xq bq Tree.nil] true (by simp)]
    · simp only [neighbors_after]
      by_cases h2 : cmp1 v xq = 0
      · rw [if_pos h2, if_pos ((h v xq).2.mp h2),
          scan_after_congr h v cond (p :: ps) false (by simpa using hnil)]
      · have h2c : ¬ cmp2 v xq = 0 := fun hc => h2 ((h v xq).2.mpr hc)
        rw [if_neg h2, if_neg h2c,
          scan_after_congr h v cond (Tree.node lq xq bq Tree.nil :: p :: ps) true (by
            simp only [List.mem_cons, not_or]
            refine ⟨by simp, ?_⟩
            simpa using hnil)]
  · simp only [neighbors_after]
    by_cases h2 : cmp1 v xq = 0
    · rw [if_pos h2, if_pos ((h v xq).2.mp h2),
        scan_after_congr h v cond (Tree.node a y b c
            :: Tree.node lq xq bq (Tree.node a y b c) :: qs) true (by
          simp only [List.mem_cons, not_or]
          exact ⟨by simp, by simp, hnil⟩)]
    · have h2c : ¬ cmp2 v xq = 0 := fun hc => h2 ((h v xq).2.mpr hc)
      rw [if_neg h2, if_neg h2c,
        scan_after_congr h v cond (Tree.node lq xq bq (Tree.node a y b c) :: qs) true (by
          simp only [List.mem_cons, not_or]
          exact ⟨by simp, hnil⟩)]

/-- Whole search_neighbors is invariant under sign-equivalent comparators. -/
theorem search_neighbors_congr {cmp1 cmp2 : T → T → Int} (h : SignEq cmp1 cmp2)
    (v : T) (cond : T → Bool) (t : Tree T) (ref : NMap T) :
    search_neighbors cmp1 v cond t ref = search_neighbors cmp2 v cond t ref := by
  rcases t with _ | ⟨l, x, bf, r⟩
  · rfl
  have hnil0 : Tree.nil ∉ descend cmp2 v (Tree.node l x bf r) [] :=
    descend_no_nil cmp2 v (Tree.node l x bf r) [] (by simp)
  rcases hd : descend cmp2 v (Tree.node l x bf r) [] with _ | ⟨q, qs⟩
  · simp only [search_neighbors, descend_congr h v, hd]
  rw [hd] at hnil0
  simp only [List.mem_cons, not_or] at hnil0
  rcases q with _ | ⟨lq, xq, bq, rq⟩
  · simp only [search_neighbors, descend_congr h v, hd]
  rcases lq with _ | ⟨a, y, b, c⟩
  · rcases qs with _ | ⟨p, ps⟩
    · simp only [search_neighbors, descend_congr h v, hd]
      by_cases h2 : cmp1 v xq = 0
      · rw [if_pos h2, if_pos ((h v xq).2.mp h2)]
      · have h2c : ¬ cmp2 v xq = 0 := fun hc => h2 ((h v xq).2.mpr hc)
        rw [if_neg h2, if_neg h2c,
          scan_before_congr h v cond [Tree.node Tree.nil xq bq rq] true (by simp),
          neighbors_after_congr h v cond (Tree.node Tree.nil xq bq rq) [] _ _ (by simp)]
    · simp only [search_neighbors, descend_congr h v, hd]
      by_cases h2 : cmp1 v xq = 0
      · rw [if_pos h2, if_pos ((h v xq).2.mp h2),
          scan_before_congr h v cond (p :: ps) false (by simpa using hnil0.2),
          neighbors_after_congr h v cond (Tree.node Tree.nil xq bq rq) (p :: ps) _ _
            (by simpa using hnil0.2)]
      · have h2c : ¬ cmp2 v xq = 0 := fun hc => h2 ((h v xq).2.mpr hc)
        rw [if_neg h2, if_neg h2c,
          scan_before_congr h v cond (Tree.node Tree.nil xq bq rq :: p :: ps) true (by
            simp only [List.mem_cons, not_or]
            refine ⟨by simp, ?_⟩
            simpa using hnil0.2),
          neighbors_after_congr h v cond (Tree.node Tree.nil xq bq rq) (p :: ps) _ _
            (by simpa using hnil0.2)]
  · simp only [search_neighbors, descend_congr h v, hd]
    by_cases h2 : cmp1 v xq = 0
    · rw [if_pos h2, if_pos ((h v xq).2.mp h2),
        scan_before_congr h v cond (Tree.node a y b c
            :: Tree.node (Tree.node a y b c) xq bq rq :: qs) true (by
          simp only [List.mem_cons, not_or]
          exact ⟨by simp, by simp, hnil0.2⟩),
        neighbors_after_congr h v cond (Tree.node (Tree.node a y b c) xq bq rq) qs _ _
          hnil0.2]
    · have h2c : ¬ cmp2 v xq = 0 := fun hc => h2 ((h v xq).2.mpr hc)
      rw [if_neg h2, if_neg h2c,
        scan_before_congr h v cond (Tree.node (Tree.node a y b c) xq bq rq :: qs) true (by
          simp only [List.mem_cons, not_or]
          exact ⟨by simp, hnil0.2⟩),
        neighbors_after_congr h v cond (Tree.node (Tree.node a y b c) xq bq rq) qs _ _
          hnil0.2]

/-- C8. Modelled from the spec: construction from a less-than / equal predicate
pair is rendered by composing the pair into the tri-outcome comparator form
(the source declares only the single-comparator constructor, lines 30 and
69-71). For any predicate pair and any tri-outcome comparator describing the
same ordering, every comparator-consuming operation behaves identically under
the two construction modes; the remaining operations never consult the
comparator. -/
theorem c8_construction_modes (lt eq : T → T → Bool) (cmp : T → T → Int)
    (hmatch : ∀ a b, (cmp a b < 0 ↔ lt a b = true) ∧ (cmp a b = 0 ↔ eq a b = true)) :
    (∀ (v : T) (g : GAVL T),
        GAVL.insert (composeComparator lt eq) v g = GAVL.insert cmp v g)
    ∧ (∀ (v : T) (g : GAVL T),
        GAVL.remove (composeComparator lt eq) v g = GAVL.remove cmp v g)
    ∧ (∀ (v : T) (t : Tree T),
        contains (composeComparator lt eq) v t = contains cmp v t)
    ∧ (∀ (sd : T) (t : Tree T) (fd : T),
        search (composeComparator lt eq) sd t fd = search cmp sd t fd)
    ∧ (∀ (v : T) (t : Tree T) (ref : T),
        parent (composeComparator lt eq) v t ref = parent cmp v t ref)
    ∧ (∀ (v : T) (cond : T → Bool) (t : Tree T) (ref : T),
        search_before (composeComparator lt eq) v cond t ref
          = search_before cmp v cond t ref)
    ∧ (∀ (v : T) (cond : T → Bool) (t : Tree T) (ref : T),
        search_after (composeComparator lt eq) v cond t ref
          = search_after cmp v cond t ref)
    ∧ (∀ (v : T) (cond : T → Bool) (t : Tree T) (ref : NMap T),
        search_neighbors (composeComparator lt eq) v cond t ref
          = search_neighbors cmp v cond t ref) := by
  have hs : SignEq (composeComparator lt eq) cmp := by
    intro a b
    obtain ⟨h1, h2⟩ := hmatch a b
    simp only [composeComparator]
    by_cases he : eq a b = true
    · have hc0 : cmp a b = 0 := h2.mpr he
      simp [he]
      omega
    · by_cases hl : lt a b = true
      · have hcneg : cmp a b < 0 := h1.mpr hl
        simp [he, hl]
        omega
      · have h1f : ¬ cmp a b < 0 := fun hc => hl (h1.mp hc)
        have h2f : ¬ cmp a b = 0 := fun hc => he (h2.mp hc)
        simp [he, hl]
        omega
  refine ⟨?_, ?_, ?_, ?_, ?_, ?_, ?_, ?_⟩
  · intro v g
    rw [GAVL.insert, GAVL.insert, insert_go_congr hs v g.root]
  · intro v g
    rw [GAVL.remove, GAVL.remove, remove_go_congr hs g.root v]
  · intro v t
    rw [contains, contains, findT_congr hs v t]
  · intro sd t fd
    rw [search, search, findT_congr hs sd t]
  · intro v t ref
    rw [parent, parent, parent_go_congr hs v t none]
  · intro v cond t ref
    rw [search_before, search_before, search_before_opt_congr hs v cond t]
  · intro v cond t ref
    rw [search_after, search_after, search_after_opt_congr hs v cond t]
  · intro v cond t ref
    exact search_neighbors_congr hs v cond t ref

/-- Witness for C8: the integer less-than / equality predicate pair against the
subtraction comparator, exercised on an insertion and a neighborhood query. -/
theorem c8_witness :
    GAVL.insert (composeComparator (fun a b : Int => decide (a < b))
        (fun a b : Int => decide (a = b))) 5 GAVL.empty
      = GAVL.insert icmp 5 GAVL.empty
    ∧ search_neighbors (composeComparator (fun a b : Int => decide (a < b))
        (fun a b : Int => decide (a = b))) 2 (fun _ => true) gW.root NMap.empty
      = search_neighbors icmp 2 (fun _ => true) gW.root NMap.empty :=
  ⟨(c8_construction_modes (fun a b : Int => decide (a < b))
      (fun a b : Int => decide (a = b)) icmp
      (by intro a b; refine ⟨?_, ?_⟩ <;> simp [icmp] <;> omega)).1 5 GAVL.empty,
   (c8_construction_modes (fun a b : Int => decide (a < b))
      (fun a b : Int => decide (a = b)) icmp
      (by intro a b; refine ⟨?_, ?_⟩ <;> simp [icmp] <;> omega)).2.2.2.2.2.2.2
     2 (fun _ => true) gW.root NMap.empty⟩


end GAVLVerify
